import Mathlib

/-!
# Stylus editor: the Mozilla-format transcoder of `edit/edit.js`

A shallow embedding of `toMozillaFormat` (encode) and of `fromMozillaFormat`/`doImport`
(decode) together with the JavaScript string, array and regular-expression primitives
they call.

Conventions of the embedding
* A JavaScript string is a `List Char`; one `Char` stands for one UTF-16 code unit.
* JavaScript numbers that hold line/column positions are `Int`.
* A handler that would raise a `TypeError` returns `none`.
-/

namespace Stylus

/-- A JavaScript string, as the list of its code units. -/
abbrev Str := List Char

/-! ## JavaScript string and array primitives -/

/-- Truthiness of a string: only the empty string is falsy. -/
def truthy (s : Str) : Bool := !s.isEmpty

/-- Line terminators of ECMAScript: LF, CR, LS, PS. -/
def isLineTerminator (c : Char) : Bool :=
  c.toNat == 0x0A || c.toNat == 0x0D || c.toNat == 0x2028 || c.toNat == 0x2029

/-- The class `\s` (and the characters removed by `String.prototype.trim`):
ECMAScript WhiteSpace and LineTerminator. -/
def isJsSpace (c : Char) : Bool :=
  let n := c.toNat
  n == 0x09 || n == 0x0A || n == 0x0B || n == 0x0C || n == 0x0D || n == 0x20 ||
  n == 0xA0 || n == 0x1680 || (0x2000 ≤ n && n ≤ 0x200A) || n == 0x2028 || n == 0x2029 ||
  n == 0x202F || n == 0x205F || n == 0x3000 || n == 0xFEFF

/-- The class `\w`: ASCII letters, digits and underscore. -/
def isWordChar (c : Char) : Bool :=
  let n := c.toNat
  (0x41 ≤ n && n ≤ 0x5A) || (0x61 ≤ n && n ≤ 0x7A) || (0x30 ≤ n && n ≤ 0x39) || n == 0x5F

/-- The class `\d`. -/
def isDigitChar (c : Char) : Bool := 0x30 ≤ c.toNat && c.toNat ≤ 0x39

/-- Clamp an integer into `[0, size]` and return it as a natural number. -/
def clampIdx (i : Int) (size : Nat) : Nat := min i.toNat size

/-- Relative index of `substr`/`slice`: a negative index counts from the end. -/
def relIdx (i : Int) (size : Nat) : Nat :=
  if i < 0 then ((size : Int) + i).toNat else min i.toNat size

/-- The method `String.prototype.substr(start, length)`; `length = none` is an omitted argument. -/
def substr (s : Str) (start : Int) (length : Option Int) : Str :=
  let size := s.length
  let intStart := relIdx start size
  let intLength := match length with
    | none => size
    | some l => clampIdx l size
  let intEnd := min (intStart + intLength) size
  (s.drop intStart).take (intEnd - intStart)

/-- The method `String.prototype.substring(start, end)`. -/
def substring (s : Str) (start stop : Int) : Str :=
  let a := clampIdx start s.length
  let b := clampIdx stop s.length
  (s.drop (min a b)).take (max a b - min a b)

/-- The method `Array.prototype.slice(start, end)`. -/
def slice {α : Type} (a : List α) (start stop : Int) : List α :=
  let k := relIdx start a.length
  let final := relIdx stop a.length
  (a.drop k).take (final - k)

/-- The loop of `Array.prototype.join(sep)` on an array of strings, as in ECMAScript: the result
starts empty, and the separator is appended before every element but the first. -/
def joinLoop (sep : Str) : Str → List Str → Str
  | acc, [] => acc
  | acc, x :: xs => joinLoop sep (acc ++ sep ++ x) xs

/-- The method `Array.prototype.join(sep)`. -/
def join (sep : Str) : List Str → Str
  | [] => []
  | x :: xs => joinLoop sep x xs

/-- Worker of `split`: `cur` is the piece being read, reversed. -/
def splitAux (sep : Char) : Str → Str → List Str
  | [], cur => [cur.reverse]
  | c :: cs, cur => if c = sep then cur.reverse :: splitAux sep cs [] else splitAux sep cs (c :: cur)

/-- The method `String.prototype.split(sep)` for a one-character separator. -/
def split (sep : Char) (s : Str) : List Str := splitAux sep s []

/-- The method `String.prototype.trim()`. -/
def trim (s : Str) : Str :=
  ((s.dropWhile isJsSpace).reverse.dropWhile isJsSpace).reverse

/-- Decimal rendering of a position number (`ToString` of an integral Number). -/
def numToStr (i : Int) : Str :=
  match i with
  | Int.ofNat n => (Nat.repr n).toList
  | Int.negSucc n => '-' :: (Nat.repr (n + 1)).toList

/-! ## A backtracking matcher for the regular expressions of the source

`Re.run r x` lists, in the priority order of ECMAScript backtracking, every state in
which `r` can stop when started in state `x`; the match chosen by JavaScript is the
first one for which the rest of the pattern succeeds, that is the head of the list of
the whole pattern. -/

/-- Syntax of the regular expressions used by the transcoder. -/
inductive Re where
  | empty : Re
  | cls (p : Char → Bool) : Re
  | seq (a b : Re) : Re
  | alt (a b : Re) : Re
  | group (n : Nat) (r : Re) : Re
  | backref (n : Nat) : Re
  | star (greedy : Bool) (r : Re) : Re
  | opt (greedy : Bool) (r : Re) : Re
  | bos : Re
  | eos : Re

/-- Matcher state: index reached, the input from there on, and the captures so far
(most recent first). -/
structure MState where
  pos : Nat
  rest : Str
  caps : List (Nat × Str)
deriving DecidableEq, Repr

/-- Iterations of `r*` / `r*?`. An iteration that consumes nothing is rejected, as in
the ECMAScript RepeatMatcher, so at most `rest.length` iterations can happen. -/
def starLoop (greedy : Bool) (step : MState → List MState) : Nat → MState → List MState
  | 0, x => [x]
  | fuel + 1, x =>
    let more := ((step x).filter (fun y => y.pos != x.pos)).flatMap (starLoop greedy step fuel)
    if greedy then more ++ [x] else x :: more

/-- All ways a pattern can match from a state, in backtracking order. -/
def Re.run : Re → MState → List MState
  | .empty, x => [x]
  | .cls p, x =>
    match x.rest with
    | c :: cs => if p c then [{ x with pos := x.pos + 1, rest := cs }] else []
    | [] => []
  | .seq a b, x => (a.run x).flatMap b.run
  | .alt a b, x => a.run x ++ b.run x
  | .group n r, x =>
    (r.run x).map (fun y => { y with caps := (n, x.rest.take (y.pos - x.pos)) :: y.caps })
  | .backref n, x =>
    match x.caps.lookup n with
    | none => [x]
    | some s =>
      if s.isPrefixOf x.rest then
        [{ x with pos := x.pos + s.length, rest := x.rest.drop s.length }]
      else []
  | .star g r, x => starLoop g r.run x.rest.length x
  | .opt g r, x =>
    let one := (r.run x).filter (fun y => y.pos != x.pos)
    if g then one ++ [x] else x :: one
  | .bos, x => if x.pos = 0 then [x] else []
  | .eos, x => if x.rest.isEmpty then [x] else []

/-- The pattern `c` for a literal character. -/
def Re.chr (c : Char) : Re := .cls (fun d => d == c)

/-- The pattern `r+` / `r+?`. -/
def Re.plus (greedy : Bool) (r : Re) : Re := .seq r (.star greedy r)

/-- Concatenation of a list of patterns. -/
def Re.seqs : List Re → Re
  | [] => .empty
  | [r] => r
  | r :: rs => .seq r (Re.seqs rs)

/-- A literal string as a pattern. -/
def Re.lit (s : Str) : Re := Re.seqs (s.map Re.chr)

/-- Result of a successful match: index of the match, index of its end, captures. -/
structure Match where
  index : Nat
  stop : Nat
  caps : List (Nat × Str)
deriving DecidableEq, Repr

/-- The operation `RegExpBuiltinExec` without the sticky flag: try every start index from `i` on,
left to right; `rest` is the input from index `i`. -/
def execFrom (re : Re) : Str → Nat → Option Match
  | [], i => ((re.run ⟨i, [], []⟩).head?).map (fun y => ⟨i, y.pos, y.caps⟩)
  | c :: cs, i =>
    match (re.run ⟨i, c :: cs, []⟩).head? with
    | some y => some ⟨i, y.pos, y.caps⟩
    | none => execFrom re cs (i + 1)

/-- The method `String.prototype.match(re)` for a regular expression without the `g` flag. -/
def exec (re : Re) (s : Str) : Option Match := execFrom re s 0

/-- The method `RegExp.prototype.test`. -/
def test (re : Re) (s : Str) : Bool := (exec re s).isSome

/-- Capture group `n` of a match (`m[n]`); `none` is `undefined`. -/
def Match.group (m : Match) (n : Nat) : Option Str := m.caps.lookup n

/-- The call `s.replace(re, rep)` for a non-global `re` and a replacement text without `$`. -/
def replaceFirst (re : Re) (rep : Str) (s : Str) : Str :=
  match exec re s with
  | none => s
  | some m => s.take m.index ++ rep ++ s.drop m.stop

/-- Worker of `replaceAll`: `rest` is the input from index `i`. After an empty match the
next search starts one character further. -/
def replaceAllFrom (re : Re) (rep : Str) : Nat → Str → Nat → Str
  | 0, rest, _ => rest
  | fuel + 1, rest, i =>
    match execFrom re rest i with
    | none => rest
    | some m =>
      let pre := rest.take (m.index - i)
      if m.stop = m.index then
        match rest.drop (m.index - i) with
        | [] => pre ++ rep
        | c :: cs => pre ++ rep ++ c :: replaceAllFrom re rep fuel cs (m.index + 1)
      else pre ++ rep ++ replaceAllFrom re rep fuel (rest.drop (m.stop - i)) m.stop

/-- The call `s.replace(re, rep)` for a global (`/g`) `re` and a replacement text without `$`. -/
def replaceAll (re : Re) (rep : Str) (s : Str) : Str := replaceAllFrom re rep (s.length + 1) s 0

/-- The call `s.replace(pat, rep)` for a string pattern: the first occurrence only. -/
def replaceStr (pat rep : Str) (s : Str) : Str := replaceFirst (Re.lit pat) rep s

/-! ## The section model and `toMozillaFormat` -/

/-- The four condition properties of a section record. -/
inductive Property where
  | urls | urlPrefixes | domains | regexps
deriving DecidableEq, Repr

/-- The constant `propertyToCss`, with its keys in insertion order (the order in which
`for (const i in propertyToCss)` visits them). -/
def propertyToCss : List (Property × Str) :=
  [(.urls, "url".toList), (.urlPrefixes, "url-prefix".toList),
   (.domains, "domain".toList), (.regexps, "regexp".toList)]

/-- The constant `CssToProperty`. -/
def CssToProperty : List (Str × Property) :=
  [("url".toList, .urls), ("url-prefix".toList, .urlPrefixes),
   ("domain".toList, .domains), ("regexp".toList, .regexps)]

/-- A section record: `code` and the four condition arrays, each of which may be absent
(`undefined`) on records built by the importer. -/
structure Section where
  code : Str
  urls : Option (List Str) := none
  urlPrefixes : Option (List Str) := none
  domains : Option (List Str) := none
  regexps : Option (List Str) := none
deriving DecidableEq, Repr

/-- Property read `section[i]`. -/
def Section.get (s : Section) : Property → Option (List Str)
  | .urls => s.urls
  | .urlPrefixes => s.urlPrefixes
  | .domains => s.domains
  | .regexps => s.regexps

/-- Property write `section[i] = v`. -/
def Section.set (s : Section) (i : Property) (v : List Str) : Section :=
  match i with
  | .urls => { s with urls := some v }
  | .urlPrefixes => { s with urlPrefixes := some v }
  | .domains => { s with domains := some v }
  | .regexps => { s with regexps := some v }

/-- The regular expression `/\\/g` of `toMozillaFormat`. -/
def reBackslash : Re := Re.chr '\\'

/-- The arrow function of `toMozillaFormat`:
`v => propertyToCss[i] + '("' + v.replace(/\\/g, '\\\\') + '")'`. -/
def cssMd (css : Str) (v : Str) : Str :=
  css ++ "(\"".toList ++ replaceAll reBackslash "\\\\".toList v ++ "\")".toList

/-- The loop `for (const i in propertyToCss)` of `toMozillaFormat`, building `cssMds`. -/
def cssMdsOf (sec : Section) : List Str :=
  propertyToCss.foldl
    (fun cssMds ic =>
      match sec.get ic.1 with
      | some vs => cssMds ++ vs.map (cssMd ic.2)
      | none => cssMds)
    []

/-- The body of the `map` callback of `toMozillaFormat`: the text of one section. -/
def sectionToMozillaFormat (sec : Section) : Str :=
  let cssMds := cssMdsOf sec
  if cssMds.length ≠ 0 then
    "@-moz-document ".toList ++ join ", ".toList cssMds ++ " \x7b\n".toList ++ sec.code ++
      "\n\x7d".toList
  else sec.code

/-- The function `toMozillaFormat`, applied to the result of `getSectionsHashes()`. -/
def toMozillaFormat (sections : List Section) : Str :=
  join "\n\n".toList (sections.map sectionToMozillaFormat)

/-! ## `fromMozillaFormat` / `doImport` -/

/-- A position `{line, col}` (1-based as reported by the parser). -/
structure Pos where
  line : Int
  col : Int
deriving DecidableEq, Repr

/-- An element of `sectionStack`: a section under construction with the position where
its not yet consumed text starts (`undefined` when `backtrackTo` found no token). -/
structure Frame where
  sec : Section
  start : Option Pos
deriving DecidableEq, Repr

/-- Token types of the parser that the importer looks for. -/
inductive TokenType where
  | LBRACE | RBRACE | OTHER
deriving DecidableEq, Repr

/-- A token of the parser's look-ahead buffer, with its source range. -/
structure Token where
  type : TokenType
  startLine : Int
  startCol : Int
  endLine : Int
  endCol : Int
deriving DecidableEq, Repr

/-- The fields `_lt` and `_ltIndex` of `parser._tokenStream`. -/
structure TokenStream where
  lt : List Token
  ltIndex : Nat
deriving DecidableEq, Repr

/-- The third argument of `backtrackTo`: `'start'` or `'end'`. -/
inductive StartEnd where
  | start | stop
deriving DecidableEq, Repr

/-- The loop of `backtrackTo`, with `i + 1` the number of tokens still to visit.
`none`: reading `.type` of a missing token raises; `some none`: no token found. -/
def backtrackLoop (tokens : List Token) (tokenType : TokenType) (startEnd : StartEnd) :
    Nat → Option (Option Pos)
  | 0 => some none
  | i + 1 =>
    match tokens[i]? with
    | none => none
    | some t =>
      if t.type = tokenType then
        match startEnd with
        | .start => some (some ⟨t.startLine, t.startCol⟩)
        | .stop => some (some ⟨t.endLine, t.endCol⟩)
      else backtrackLoop tokens tokenType startEnd i

/-- The function `backtrackTo(parser, tokenType, startEnd)`. -/
def backtrackTo (parser : TokenStream) (tokenType : TokenType) (startEnd : StartEnd) :
    Option (Option Pos) :=
  backtrackLoop parser.lt tokenType startEnd parser.ltIndex

/-- The events of the parser that `doImport` listens to, with the data each handler
reads (for the two document events also the token buffer of the parser, `this`). -/
inductive Event where
  | startdocument (line col : Int) (functions : List Str) (parser : TokenStream)
  | enddocument (parser : TokenStream)
  | endstylesheet
  | error (line col : Int) (message : Str)
deriving DecidableEq, Repr

/-- The variables of `doImport` shared by its handlers. `editors` holds the sections
passed to `addSection` by this import, in order; `shown` is the text of the issues
popup once the end-of-stylesheet handler has shown it. -/
structure ImportState where
  sectionStack : List Frame
  errors : List Str
  firstAddedCM : Option Section
  editors : List Section
  shown : Option Str
deriving DecidableEq, Repr

/-- Array read `lines[i]`; `none` is `undefined`. -/
def lineAt (lines : List Str) (i : Int) : Option Str :=
  if i < 0 then none else lines[i.toNat]?

/-- The function `getRange(start, end)`; `none` when a method is called on `undefined`. -/
def getRange (lines : List Str) (start stop : Pos) : Option Str :=
  let L1 := start.line - 1
  let C1 := start.col - 1
  let L2 := stop.line - 1
  let C2 := stop.col - 1
  if L1 = L2 then
    (lineAt lines L1).map (fun l => substr l C1 (some (C2 - C1 + 1)))
  else
    let middle := join "\n".toList (slice lines (L1 + 1) L2)
    match lineAt lines L1 with
    | none => none
    | some l1 =>
      if L2 ≥ lines.length then some (substr l1 C1 none ++ "\n".toList ++ middle)
      else
        match lineAt lines L2 with
        | none => none
        | some l2 =>
          some (substr l1 C1 none ++ "\n".toList ++ middle ++
            ((if truthy middle then "\n".toList else []) ++ substring l2 0 C2))

/-- The character class `[\s\n]`. -/
def isSpaceOrNl (c : Char) : Bool := isJsSpace c || c == '\n'

/-- The regular expression `/^[\s\n]+/`. -/
def reLeadingSpace : Re := Re.seqs [.bos, Re.plus true (.cls isSpaceOrNl)]

/-- The regular expression `/[\s\n]+$/`. -/
def reTrailingSpace : Re := Re.seqs [Re.plus true (.cls isSpaceOrNl), .eos]

/-- The function `trimNewLines(s)`. -/
def trimNewLines (s : Str) : Str :=
  replaceFirst reTrailingSpace [] (replaceFirst reLeadingSpace [] s)

/-- The boilerplate `'@namespace url(http://www.w3.org/1999/xhtml);'`. -/
def namespaceBoilerplate : Str := "@namespace url(http://www.w3.org/1999/xhtml);".toList

/-- The regular expression `/[\s\n]/g`. -/
def reAnySpace : Re := .cls isSpaceOrNl

/-- The test of `initFirstSection(section)`: `false` when the code is only the namespace
boilerplate and white space. The housekeeping on editors that existed before the import
(the other effect of the function) is outside the model. -/
def initFirstSection (sec : Section) : Bool :=
  truthy (replaceAll reAnySpace [] (replaceStr namespaceBoilerplate [] sec.code))

/-- The function `doAddSection(section)`: returns the new state and the section as
mutated (`section.code = section.code.trim()`). -/
def doAddSection (st : ImportState) (sec : Section) : ImportState × Section :=
  let sec := { sec with code := trim sec.code }
  if !truthy sec.code && sec.urls.isNone && sec.urlPrefixes.isNone && sec.domains.isNone &&
      sec.regexps.isNone then
    (st, sec)
  else if st.firstAddedCM.isNone && !initFirstSection sec then
    (st, sec)
  else
    ({ st with editors := st.editors ++ [sec],
               firstAddedCM := some (st.firstAddedCM.getD sec) }, sec)

/-- Any character: the class `[\s\S]`. -/
def isAnyChar (c : Char) : Bool := isJsSpace c || !isJsSpace c

/-- The class `.`: any character but a line terminator. -/
def isDot (c : Char) : Bool := !isLineTerminator c

/-- The class `[\w-]`. -/
def isWordOrDash (c : Char) : Bool := isWordChar c || c == '-'

/-- The class `['"]`. -/
def isQuote (c : Char) : Bool := c == '\'' || c == '"'

/-- The regular expression `/(\/\*[\s\S]*?\*\/)[\s\n]*$/` of the start handler. -/
def reGapComment : Re :=
  Re.seqs [.group 1 (Re.seqs [Re.chr '/', Re.chr '*', .star false (.cls isAnyChar),
             Re.chr '*', Re.chr '/']),
           .star true (.cls isSpaceOrNl), .eos]

/-- The regular expression `/\/\*\s*AGENT_SHEET\s*\*\//`. -/
def reAgentSheet : Re :=
  Re.seqs [Re.chr '/', Re.chr '*', .star true (.cls isJsSpace), Re.lit "AGENT_SHEET".toList,
           .star true (.cls isJsSpace), Re.chr '*', Re.chr '/']

/-- The regular expression `/^([\w-]*)\((['"]?)(.+?)\2?\)$/`. -/
def reCall : Re :=
  Re.seqs [.bos, .group 1 (.star true (.cls isWordOrDash)), Re.chr '(',
           .group 2 (.opt true (.cls isQuote)), .group 3 (Re.plus false (.cls isDot)),
           .opt true (.backref 2), Re.chr ')', .eos]

/-- The regular expression `/^(url|url-prefix|domain|regexp)$/`. -/
def reCssKeyword : Re :=
  Re.seqs [.bos,
           .group 1 (.alt (Re.lit "url".toList) (.alt (Re.lit "url-prefix".toList)
             (.alt (Re.lit "domain".toList) (Re.lit "regexp".toList)))),
           .eos]

/-- The regular expression `/\\\\/g`: two backslashes. -/
def reDoubleBackslash : Re := Re.seqs [Re.chr '\\', Re.chr '\\']

/-- The regular expression `/ at line \d.+$/` of the error handler. -/
def reAtLine : Re :=
  Re.seqs [Re.lit " at line ".toList, .cls isDigitChar, Re.plus true (.cls isDot), .eos]

/-- One turn of the loop `for (const f of e.functions)` of the start handler, on the pair
of `errors` and the section being built. `line` and `ecol` are `e.line` and `e.col` (the
latter already decremented by the handler). -/
def processFunction (line ecol : Int) (acc : List Str × Section) (f : Str) :
    List Str × Section :=
  let invalid (name : Str) : List Str × Section :=
    (acc.1 ++ [numToStr line ++ ":".toList ++ numToStr (ecol + 1) ++
        " invalid function \"".toList ++ name ++ "\"".toList], acc.2)
  -- `f && f.match(...)`
  match (if truthy f then exec reCall f else none) with
  | none => invalid (if truthy f then f else [])
  | some m =>
    let m1 := (m.group 1).getD []
    let m3 := (m.group 3).getD []
    if !test reCssKeyword m1 then invalid m1
    else
      match CssToProperty.lookup m1 with
      | none => acc
      | some aType =>
        let aValue := if aType ≠ .regexps then m3 else replaceAll reDoubleBackslash "\\".toList m3
        (acc.1, acc.2.set aType ((acc.2.get aType).getD [] ++ [aValue]))

/-- Replace the top frame of the stack. -/
def setLast (stack : List Frame) (f : Frame) : List Frame := stack.dropLast ++ [f]

/-- The `startdocument` listener. -/
def onStartDocument (lines : List Str) (st : ImportState) (line col : Int)
    (functions : List Str) (parser : TokenStream) : Option ImportState :=
  match st.sectionStack.getLast? with
  | none => none
  | some last =>
    let ecol := col - 1
    match last.start with
    | none => none
    | some lastStart =>
      match getRange lines lastStart ⟨line, ecol⟩ with
      | none => none
      | some outerText =>
        let gapComment := exec reGapComment outerText
        match backtrackTo parser .LBRACE .stop with
        | none => none
        | some lbraceEnd =>
          let moved : Str × Str :=
            match gapComment with
            | none => ([], outerText)
            | some g =>
              let g1 := (g.group 1).getD []
              if !test reAgentSheet g1 then
                (g1 ++ "\n".toList, trimNewLines (substring outerText 0 g.index))
              else ([], outerText)
          let st1 : ImportState :=
            if truthy (trim moved.2) then
              let st2 := (doAddSection st { last.sec with code := moved.2 }).1
              { st2 with sectionStack :=
                  setLast st2.sectionStack { last with sec := { last.sec with code := [] } } }
            else st
          let r := functions.foldl (processFunction line ecol) (st1.errors, { code := moved.1 })
          some { st1 with errors := r.1,
                          sectionStack := st1.sectionStack ++ [{ sec := r.2, start := lbraceEnd }] }

/-- The `enddocument` listener. -/
def onEndDocument (lines : List Str) (st : ImportState) (parser : TokenStream) :
    Option ImportState :=
  match backtrackTo parser .RBRACE .start with
  | none => none
  | some stop? =>
    match st.sectionStack.getLast? with
    | none => none
    | some frame =>
      let stack := st.sectionStack.dropLast
      match frame.start, stop? with
      | some start, some stop =>
        match getRange lines start stop with
        | none => none
        | some r =>
          match stack.getLast? with
          | none => none
          | some last =>
            let stack1 := setLast stack { last with start := some ⟨stop.line, stop.col + 1⟩ }
            some (doAddSection { st with sectionStack := stack1 }
                    { frame.sec with code := frame.sec.code ++ r }).1
      | _, _ => none

/-- The call `sectionStack.forEach(doAddSection)`: bottom of the stack first. -/
def forEachDoAddSection : List Frame → ImportState → List Frame → ImportState × List Frame
  | [], st, done => (st, done)
  | f :: fs, st, done =>
    let r := doAddSection st f.sec
    forEachDoAddSection fs r.1 (done ++ [{ f with sec := r.2 }])

/-- The `endstylesheet` listener. After the sections are added it calls
`makeSectionVisible(firstAddedCM)` and `firstAddedCM.focus()`, which raise when no
section was added, and then shows the issues popup. -/
def onEndStylesheet (lines : List Str) (st : ImportState) : Option ImportState :=
  match lines.getLast?, st.sectionStack.getLast? with
  | some lastLine, some last =>
    let endOfText : Pos := ⟨lines.length, lastLine.length + 1⟩
    match last.start with
    | none => none
    | some start =>
      match getRange lines start endOfText with
      | none => none
      | some r =>
        let stack := setLast st.sectionStack { last with sec := { last.sec with code := last.sec.code ++ r } }
        let res := forEachDoAddSection stack st []
        let st1 := { res.1 with sectionStack := res.2 }
        match st1.firstAddedCM with
        | none => none
        | some _ => some { st1 with shown := some (join "\n".toList st1.errors) }
  | _, _ => none

/-- The `error` listener. -/
def onError (st : ImportState) (line col : Int) (message : Str) : ImportState :=
  { st with errors := st.errors ++
      [numToStr line ++ ":".toList ++ numToStr col ++ " ".toList ++ replaceFirst reAtLine [] message] }

/-- Dispatch of one parser event to its listener. -/
def handle (lines : List Str) (st : ImportState) : Event → Option ImportState
  | .startdocument line col functions parser => onStartDocument lines st line col functions parser
  | .enddocument parser => onEndDocument lines st parser
  | .endstylesheet => onEndStylesheet lines st
  | .error line col message => some (onError st line col message)

/-- Run of `parser.parse(mozStyle)`: the listeners are called in the order of the events
the parser fires; an exception in a listener aborts the parse. -/
def runEvents (lines : List Str) : List Event → ImportState → Option ImportState
  | [], st => some st
  | e :: es, st =>
    match handle lines st e with
    | none => none
    | some st1 => runEvents lines es st1

/-- The state with which `doImport` starts the parser. -/
def initialState : ImportState :=
  { sectionStack := [{ sec := { code := [] }, start := some ⟨1, 1⟩ }],
    errors := [], firstAddedCM := none, editors := [], shown := none }

/-- The function `doImport`, on the text of the import box and the events that the
parser fires for it. -/
def doImport (text : Str) (events : List Event) : Option ImportState :=
  let mozStyle := trimNewLines text
  let lines := split '\n' mozStyle
  runEvents lines events initialState

/-! ## Specification-side definitions -/

/-- Spec §4.1, escaping: every backslash of the value is doubled, no other character is
changed. -/
def escapeSpec (v : Str) : Str :=
  v.flatMap (fun c => if c = '\\' then ['\\', '\\'] else [c])

/-- Spec §4.1, one function call: `kind("escaped-value")`. -/
def callSpec (kind : Str) (v : Str) : Str :=
  kind ++ ['(', '"'] ++ escapeSpec v ++ ['"', ')']

/-- Spec §4.1 step 1: the function calls of a section, grouped by kind in the fixed order
url, url-prefix, domain, regexp, each group in the order of its values. -/
def scopeCallsSpec (sec : Section) : List Str :=
  (sec.urls.getD []).map (callSpec "url".toList) ++
  (sec.urlPrefixes.getD []).map (callSpec "url-prefix".toList) ++
  (sec.domains.getD []).map (callSpec "domain".toList) ++
  (sec.regexps.getD []).map (callSpec "regexp".toList)

/-- Fields of a record set one after the other, in the order of the list. -/
def Section.setAll (s : Section) (fields : List (Property × List Str)) : Section :=
  fields.foldl (fun s a => s.set a.1 a.2) s

/-- The text has exactly three lines and the middle one is empty. -/
def threeLinesEmptyMiddle (lines : List Str) : Bool :=
  match lines with
  | [_, [], _] => true
  | _ => false

/-- Every state reached by a pattern lies further in the same input. -/
structure Reaches (x y : MState) : Prop where
  pos_le : x.pos ≤ y.pos
  rest_eq : y.rest = x.rest.drop (y.pos - x.pos)
  len_le : y.pos - x.pos ≤ x.rest.length

/-! ## Auxiliary definitions for the decoder -/

/-- The text starts with ` at line ` followed by a digit. -/
def startsAtLineDigit (t : Str) : Bool :=
  (" at line ".toList).isPrefixOf t &&
    (match t.drop 9 with
     | d :: _ => isDigitChar d
     | [] => false)

/-- The text contains ` at line ` followed by a digit. -/
def hasAtLineDigit : Str → Bool
  | [] => false
  | c :: cs => startsAtLineDigit (c :: cs) || hasAtLineDigit cs

/-- The text is ` at line `, a digit and a non-empty rest without line terminator. -/
def isAtLineSuffix (t : Str) : Bool :=
  (" at line ".toList).isPrefixOf t &&
    (match t.drop 9 with
     | d :: r => isDigitChar d && !r.isEmpty && r.all isDot
     | [] => false)

/-- The text ends with a suffix that is ` at line `, a digit and a non-empty rest without
line terminator. -/
def hasAtLineSuffix : Str → Bool
  | [] => false
  | c :: cs => isAtLineSuffix (c :: cs) || hasAtLineSuffix cs

/-- The four keywords of `@-moz-document`. -/
def cssKeywords : List Str :=
  ["url".toList, "url-prefix".toList, "domain".toList, "regexp".toList]

/-- The name and the argument that the call pattern finds in a function text; `none`
when the text is empty or the pattern does not match it. -/
def parseCall (f : Str) : Option (Str × Str) :=
  if truthy f then
    (exec reCall f).map (fun m => ((m.group 1).getD [], (m.group 3).getD []))
  else none

/-- The name that the diagnostic of a function text cites: the name found by the call
pattern when it is not a keyword, the text itself when the pattern does not match;
`none` for a valid call. -/
def invalidName (f : Str) : Option Str :=
  match parseCall f with
  | none => some f
  | some (name, _) => if name ∈ cssKeywords then none else some name

/-- The value that a function text adds to the sequence of property `i`: the argument of
a valid call of the kind of `i` (for `regexps`, with backslash pairs halved). -/
def validValue (i : Property) (f : Str) : Option Str :=
  match parseCall f with
  | none => none
  | some (name, arg) =>
    if CssToProperty.lookup name = some i then
      some (if i = .regexps then replaceAll reDoubleBackslash "\\".toList arg else arg)
    else none

/-- The diagnostic text for an invalid function at a position. -/
def invalidFunctionMessage (line col : Int) (name : Str) : Str :=
  numToStr line ++ ":".toList ++ numToStr col ++ " invalid function \"".toList ++ name ++
    "\"".toList

/-- The comment that the start handler moves into the new section (with its line break)
and the outer text that remains to be flushed. -/
def splitOuterText (outerText : Str) : Str × Str :=
  match exec reGapComment outerText with
  | none => ([], outerText)
  | some g =>
    let g1 := (g.group 1).getD []
    if !test reAgentSheet g1 then
      (g1 ++ "\n".toList, trimNewLines (substring outerText 0 g.index))
    else ([], outerText)

/-- The state after the start handler has flushed the remaining outer text as a section
of the frame on top of the stack. -/
def flushOuterText (st : ImportState) (last : Frame) (text : Str) : ImportState :=
  if truthy (trim text) then
    let st2 := (doAddSection st { last.sec with code := text }).1
    { st2 with sectionStack :=
        setLast st2.sectionStack { last with sec := { last.sec with code := [] } } }
  else st

/-! ## `Array.prototype.rotate`, `getMeta`, `getSectionsHashes` -/

/-- The method `Array.prototype.rotate(amount)` that the editor adds to arrays: a
negative amount rotates left. The result `r` is a fresh array; the receiver is only
read. -/
def rotate {α : Type} (a : List α) (amount : Int) : List α :=
  let r := slice a (-amount) a.length
  -- `Array.prototype.push.apply(r, this.slice(0, this.length - r.length))`
  r ++ slice a 0 ((a.length : Int) - (r.length : Int))

/-- An item of the applies-to list of a section of the editor page. -/
structure AppliesTo where
  -- the item is the placeholder: `li.className === template.appliesToEverything.className`
  everything : Bool
  -- the value of the control `[name=applies-type]`
  type : Str
  -- the value of the control `[name=applies-value]`
  value : Str

/-- A section of the editor page: its applies-to list and the text of its editor
(`div.CodeMirror.getValue()`). -/
structure EditorSection where
  appliesTo : List AppliesTo
  code : Str

/-- One turn of the loop over the applies-to items in `getMeta`, on the record `meta`
(`none` once a turn has raised: `meta[property]` is `undefined` for a type that is not a
key of `CssToProperty`). -/
def getMetaStep (acc : Option Section) (li : AppliesTo) : Option Section :=
  match acc with
  | none => none
  | some m =>
    if li.everything then some m
    else if truthy li.type && truthy li.value then
      match CssToProperty.lookup li.type with
      | none => none
      | some property => some (m.set property ((m.get property).getD [] ++ [li.value]))
    else some m

/-- The function `getMeta(e)`: the record starts with the four keys, each an empty array
(it has no `code` key yet; the field `code` of the model is filled by the caller). -/
def getMeta (e : EditorSection) : Option Section :=
  e.appliesTo.foldl getMetaStep
    (some { code := [], urls := some [], urlPrefixes := some [], domains := some [],
            regexps := some [] })

/-- The value of `Object.keys(meta).length` for a record returned by `getMeta`: the number of
condition keys that are present. -/
def objectKeysLength (m : Section) : Nat :=
  (propertyToCss.filter (fun ic => (m.get ic.1).isSome)).length

/-- The regular expression `/^\s*$/`. -/
def reBlank : Re := Re.seqs [.bos, .star true (.cls isJsSpace), .eos]

/-- The loop `getSections().forEach(div => ...)` of `getSectionsHashes`, on the array
`sections` built so far. -/
def getSectionsHashesLoop : List EditorSection → List Section → Option (List Section)
  | [], sections => some sections
  | div :: divs, sections =>
    match getMeta div with
    | none => none
    | some m =>
      let code := div.code
      if test reBlank code && objectKeysLength m == 0 then getSectionsHashesLoop divs sections
      else getSectionsHashesLoop divs (sections ++ [{ m with code := code }])

/-- The function `getSectionsHashes()`, on the sections of the editor page. -/
def getSectionsHashes (divs : List EditorSection) : Option (List Section) :=
  getSectionsHashesLoop divs []

/-! ## Auxiliary definitions for the section stack and the editor page -/

/-- The section record carries none of the four condition sequences. -/
def Section.noConditions (s : Section) : Bool :=
  s.urls.isNone && s.urlPrefixes.isNone && s.domains.isNone && s.regexps.isNone

/-- The section stack has depth `d + 1` and its bottom frame carries no conditions. -/
def StackOk (stack : List Frame) (d : Nat) : Prop :=
  stack.length = d + 1 ∧ ∃ root rest, stack = root :: rest ∧ root.sec.noConditions = true

/-- Number of scope constructs open after a sequence of events that starts with `d` of
them open; `none` when an end event arrives while no construct is open. -/
def openAfter : List Event → Nat → Option Nat
  | [], d => some d
  | .startdocument _ _ _ _ :: es, d => openAfter es (d + 1)
  | .enddocument _ :: es, d =>
    match d with
    | 0 => none
    | d + 1 => openAfter es d
  | .endstylesheet :: es, d => openAfter es d
  | .error _ _ _ :: es, d => openAfter es d

/-- The section of a frame as `doAddSection` leaves it: code trimmed. -/
def Frame.trimmed (f : Frame) : Section := { f.sec with code := trim f.sec.code }

/-- The frame after `frame.code += r`. -/
def Frame.withTail (f : Frame) (r : Str) : Frame :=
  { f with sec := { f.sec with code := f.sec.code ++ r } }

/-- All four condition keys are present in the record. -/
def Section.allKeys (m : Section) : Prop :=
  m.urls.isSome = true ∧ m.urlPrefixes.isSome = true ∧ m.domains.isSome = true ∧
    m.regexps.isSome = true

/-- The entry that `getSectionsHashes` makes for a section of the page. -/
def IsEntryOf (div : EditorSection) (sec : Section) : Prop :=
  sec.code = div.code ∧ getMeta div = some { sec with code := [] }

/-! ## Lemmas on the primitives -/

theorem joinLoop_eq (sep : Str) (acc : Str) (xs : List Str) :
    joinLoop sep acc xs = acc ++ (xs.map (fun x => sep ++ x)).flatten := by
  induction xs generalizing acc with
  | nil => simp [joinLoop]
  | cons x xs ih => simp [joinLoop, ih, List.append_assoc]

theorem join_eq_intercalate (sep : Str) (xs : List Str) :
    join sep xs = sep.intercalate xs := by
  cases xs with
  | nil => simp [join, List.intercalate]
  | cons x xs =>
    rw [join, joinLoop_eq]
    induction xs generalizing x with
    | nil => simp [List.intercalate]
    | cons y ys ih =>
      have := ih y
      simp [List.intercalate, List.intersperse] at this ⊢
      rw [this]

theorem Reaches.refl (x : MState) : Reaches x x := ⟨le_refl _, by simp, by simp⟩

theorem Reaches.trans {x y z : MState} (h1 : Reaches x y) (h2 : Reaches y z) : Reaches x z := by
  obtain ⟨a1, b1, c1⟩ := h1
  obtain ⟨a2, b2, c2⟩ := h2
  refine ⟨le_trans a1 a2, ?_, ?_⟩
  · rw [b2, b1, List.drop_drop]; congr 1; omega
  · rw [b1, List.length_drop] at c2; omega

theorem starLoop_reaches (g : Bool) (step : MState → List MState)
    (hstep : ∀ x y, y ∈ step x → Reaches x y) :
    ∀ fuel x y, y ∈ starLoop g step fuel x → Reaches x y := by
  intro fuel
  induction fuel with
  | zero => intro x y h; simp [starLoop] at h; subst h; exact Reaches.refl _
  | succ n ih =>
    intro x y h
    simp only [starLoop] at h
    have key : y = x ∨ ∃ z, z ∈ step x ∧ y ∈ starLoop g step n z := by
      cases g <;> simp [List.mem_flatMap] at h <;> rcases h with h | h
      · exact Or.inl h
      · obtain ⟨z, ⟨hz, _⟩, hy⟩ := h; exact Or.inr ⟨z, hz, hy⟩
      · obtain ⟨z, ⟨hz, _⟩, hy⟩ := h; exact Or.inr ⟨z, hz, hy⟩
      · exact Or.inl h
    rcases key with rfl | ⟨z, hz, hy⟩
    · exact Reaches.refl _
    · exact (hstep x z hz).trans (ih z y hy)

theorem run_reaches : ∀ (r : Re) (x y : MState), y ∈ r.run x → Reaches x y := by
  intro r
  induction r with
  | empty => intro x y h; simp [Re.run] at h; subst h; exact Reaches.refl _
  | cls p =>
    intro x y h
    simp only [Re.run] at h
    split at h
    · rename_i c cs hc
      split at h
      · simp at h; subst h
        exact ⟨by simp, by simp [hc], by simp [hc]⟩
      · simp at h
    · simp at h
  | seq a b iha ihb =>
    intro x y h
    simp only [Re.run, List.mem_flatMap] at h
    obtain ⟨z, hz, hy⟩ := h
    exact (iha x z hz).trans (ihb z y hy)
  | alt a b iha ihb =>
    intro x y h
    simp only [Re.run, List.mem_append] at h
    rcases h with h | h
    · exact iha x y h
    · exact ihb x y h
  | group n r ih =>
    intro x y h
    simp only [Re.run, List.mem_map] at h
    obtain ⟨z, hz, rfl⟩ := h
    obtain ⟨a, b, c⟩ := ih x z hz
    exact ⟨a, b, c⟩
  | backref n =>
    intro x y h
    simp only [Re.run] at h
    split at h
    · simp at h; subst h; exact Reaches.refl _
    · rename_i s hs
      split at h
      · rename_i hp
        simp at h; subst h
        have hp' : s <+: x.rest := by simpa using hp
        exact ⟨by simp, by simp, by simpa using hp'.length_le⟩
      · simp at h
  | star g r ih =>
    intro x y h
    simp only [Re.run] at h
    exact starLoop_reaches g r.run ih _ x y h
  | opt g r ih =>
    intro x y h
    simp only [Re.run] at h
    have key : y = x ∨ y ∈ r.run x := by
      cases g <;> simp at h <;> rcases h with h | h
      · exact Or.inl h
      · exact Or.inr h.1
      · exact Or.inr h.1
      · exact Or.inl h
    rcases key with rfl | h
    · exact Reaches.refl _
    · exact ih x y h
  | bos =>
    intro x y h
    simp only [Re.run] at h
    split at h
    · simp at h; subst h; exact Reaches.refl _
    · simp at h
  | eos =>
    intro x y h
    simp only [Re.run] at h
    split at h
    · simp at h; subst h; exact Reaches.refl _
    · simp at h

theorem execFrom_bounds (re : Re) : ∀ (rest : Str) (i : Nat) (m : Match),
    execFrom re rest i = some m → i ≤ m.index ∧ m.index ≤ m.stop := by
  intro rest
  induction rest with
  | nil =>
    intro i m h
    simp only [execFrom] at h
    cases hr : (re.run ⟨i, [], []⟩).head? with
    | none => simp [hr] at h
    | some y =>
      simp [hr] at h; subst h
      have := (run_reaches re _ y (List.mem_of_mem_head? hr)).pos_le
      exact ⟨le_refl _, this⟩
  | cons c cs ih =>
    intro i m h
    simp only [execFrom] at h
    cases hr : (re.run ⟨i, c :: cs, []⟩).head? with
    | none =>
      simp only [hr] at h
      have := ih (i + 1) m h
      omega
    | some y =>
      simp [hr] at h; subst h
      have := (run_reaches re _ y (List.mem_of_mem_head? hr)).pos_le
      exact ⟨le_refl _, this⟩

/-- A start index at which the pattern fails is skipped by a global replacement. -/
theorem replaceAllFrom_skip (re : Re) (rep : Str) (fuel : Nat) (c : Char) (cs : Str) (i : Nat)
    (h : (re.run ⟨i, c :: cs, []⟩).head? = none) :
    replaceAllFrom re rep (fuel + 1) (c :: cs) i = c :: replaceAllFrom re rep (fuel + 1) cs (i + 1) := by
  simp only [replaceAllFrom, execFrom, h]
  cases hm : execFrom re cs (i + 1) with
  | none => rfl
  | some m =>
    obtain ⟨h1, h2⟩ := execFrom_bounds re cs (i + 1) m hm
    have e1 : m.index - i = (m.index - (i + 1)) + 1 := by omega
    have e2 : m.stop - i = (m.stop - (i + 1)) + 1 := by omega
    simp only [e1, e2, List.take_succ_cons, List.drop_succ_cons, List.cons_append]
    split
    · cases List.drop (m.index - (i + 1)) cs <;> rfl
    · rfl

/-- A non-empty match at the current index is replaced and the scan resumes after it. -/
theorem replaceAllFrom_hit (re : Re) (rep : Str) (fuel : Nat) (rest : Str) (i : Nat) (y : MState)
    (h : (re.run ⟨i, rest, []⟩).head? = some y) (hy : i < y.pos) :
    replaceAllFrom re rep (fuel + 1) rest i =
      rep ++ replaceAllFrom re rep fuel (rest.drop (y.pos - i)) y.pos := by
  have hm : execFrom re rest i = some ⟨i, y.pos, y.caps⟩ := by
    cases rest <;> simp [execFrom, h]
  simp only [replaceAllFrom, hm]
  have : ¬ (y.pos = i) := by omega
  simp [this]

theorem replaceAllFrom_nil (re : Re) (rep : Str) (fuel : Nat) (i : Nat)
    (h : (re.run ⟨i, [], []⟩).head? = none) :
    replaceAllFrom re rep fuel [] i = [] := by
  cases fuel <;> simp [replaceAllFrom, execFrom, h]

/-- The text `v.replace(/c/g, rep)` for a one-character class. -/
theorem replaceAll_cls (p : Char → Bool) (rep : Str) (v : Str) :
    replaceAll (.cls p) rep v = v.flatMap (fun c => if p c then rep else [c]) := by
  unfold replaceAll
  suffices H : ∀ (v : Str) (fuel i : Nat), v.length < fuel →
      replaceAllFrom (.cls p) rep fuel v i = v.flatMap (fun c => if p c then rep else [c]) from
    H v _ 0 (Nat.lt_succ_self _)
  intro v
  induction v with
  | nil => intro fuel i _; exact replaceAllFrom_nil _ _ _ _ (by simp [Re.run])
  | cons c cs ih =>
    intro fuel i hf
    obtain ⟨f, rfl⟩ : ∃ f, fuel = f + 1 := ⟨fuel - 1, by omega⟩
    simp only [List.length_cons] at hf
    by_cases hp : p c = true
    · rw [replaceAllFrom_hit _ _ _ _ _ ⟨i + 1, cs, []⟩ (by simp [Re.run, hp]) (by simp)]
      simp [hp, ih f (i + 1) (by omega)]
    · rw [replaceAllFrom_skip _ _ _ _ _ _ (by simp [Re.run, hp])]
      simp [hp, ih (f + 1) (i + 1) (by omega)]


/-! ## Encoding -/

theorem escape_eq (v : Str) : replaceAll reBackslash "\\\\".toList v = escapeSpec v := by
  unfold reBackslash Re.chr escapeSpec
  rw [replaceAll_cls]
  congr 1
  funext c
  by_cases h : c = '\\' <;> simp [h]

theorem cssMd_eq (kind v : Str) : cssMd kind v = callSpec kind v := by
  have := escape_eq v
  simp [cssMd, callSpec] at this ⊢
  rw [this]

theorem cssMdsOf_eq (sec : Section) : cssMdsOf sec = scopeCallsSpec sec := by
  have h : ∀ k, cssMd k = callSpec k := fun k => funext (cssMd_eq k)
  unfold cssMdsOf scopeCallsSpec propertyToCss
  simp only [List.foldl, Section.get, h]
  cases sec.urls <;> cases sec.urlPrefixes <;> cases sec.domains <;> cases sec.regexps <;> simp

theorem unescape_escape (v : Str) :
    replaceAll reDoubleBackslash "\\".toList (escapeSpec v) = v := by
  unfold replaceAll
  suffices H : ∀ (v : Str) (fuel i : Nat), (escapeSpec v).length < fuel →
      replaceAllFrom reDoubleBackslash "\\".toList fuel (escapeSpec v) i = v from
    H v _ 0 (Nat.lt_succ_self _)
  intro v
  induction v with
  | nil =>
    intro fuel i _
    exact replaceAllFrom_nil _ _ _ _ (by simp [reDoubleBackslash, Re.seqs, Re.chr, Re.run])
  | cons c cs ih =>
    intro fuel i hf
    obtain ⟨f, rfl⟩ : ∃ f, fuel = f + 1 := ⟨fuel - 1, by omega⟩
    by_cases hc : c = '\\'
    · subst hc
      have he : escapeSpec ('\\' :: cs) = '\\' :: '\\' :: escapeSpec cs := by
        simp [escapeSpec]
      rw [he] at hf ⊢
      simp only [List.length_cons] at hf
      rw [replaceAllFrom_hit _ _ _ _ _ ⟨i + 2, escapeSpec cs, []⟩
        (by simp [reDoubleBackslash, Re.seqs, Re.chr, Re.run]) (by simp)]
      have := ih f (i + 2) (by omega)
      simpa using this
    · have he : escapeSpec (c :: cs) = c :: escapeSpec cs := by
        simp [escapeSpec, hc]
      rw [he] at hf ⊢
      simp only [List.length_cons] at hf
      rw [replaceAllFrom_skip _ _ _ _ _ _
        (by simp [reDoubleBackslash, Re.seqs, Re.chr, Re.run, hc])]
      have := ih (f + 1) (i + 1) (by omega)
      simpa using this

theorem escapeSpec_length (v : Str) : (escapeSpec v).length = v.length + v.count '\\' := by
  induction v with
  | nil => simp [escapeSpec]
  | cons c cs ih =>
    have he : escapeSpec (c :: cs) = (if c = '\\' then ['\\', '\\'] else [c]) ++ escapeSpec cs := by
      simp [escapeSpec]
    rw [he]
    by_cases hc : c = '\\'
    · subst hc; simp [ih]; omega
    · have : ('\\' == c) = false := by simpa using fun h => hc h.symm
      simp [hc, ih, List.count_cons, this]; omega


theorem scopeCallsSpec_eq_nil (sec : Section) :
    scopeCallsSpec sec = [] ↔ ∀ i, (sec.get i).getD [] = [] := by
  constructor
  · intro h i
    simp [scopeCallsSpec] at h
    cases i <;> simp [Section.get, h]
  · intro h
    have h1 := h .urls
    have h2 := h .urlPrefixes
    have h3 := h .domains
    have h4 := h .regexps
    simp only [Section.get] at h1 h2 h3 h4
    simp [scopeCallsSpec, h1, h2, h3, h4]

/-- A section without any condition value is emitted as its code. -/
theorem sectionToMozillaFormat_global (sec : Section) (h : ∀ i, (sec.get i).getD [] = []) :
    sectionToMozillaFormat sec = sec.code := by
  have := (scopeCallsSpec_eq_nil sec).2 h
  simp [sectionToMozillaFormat, cssMdsOf_eq, this]

/-- C1: the text of one section. With at least one condition value it is
`@-moz-document `, the function calls joined by `, `, ` {`, a line break, the code, a line
break and `}` (whatever the code, also the empty one); with all four condition sequences
empty it is the code, unchanged. -/
theorem C1_section_text (sec : Section) :
    ((∃ i vs v, sec.get i = some vs ∧ v ∈ vs) →
      sectionToMozillaFormat sec =
        "@-moz-document ".toList ++ ", ".toList.intercalate (scopeCallsSpec sec) ++
          " \x7b\n".toList ++ sec.code ++ "\n\x7d".toList) ∧
    ((∀ i, (sec.get i).getD [] = []) → sectionToMozillaFormat sec = sec.code) := by
  constructor
  · rintro ⟨i, vs, v, hi, hv⟩
    have hne : scopeCallsSpec sec ≠ [] := by
      intro h
      have := (scopeCallsSpec_eq_nil sec).1 h i
      rw [hi] at this
      simp at this
      subst this
      simp at hv
    have hlen : (scopeCallsSpec sec).length ≠ 0 := by
      simpa [List.length_eq_zero] using hne
    simp only [sectionToMozillaFormat, cssMdsOf_eq, join_eq_intercalate]
    rw [if_pos hlen]
  · exact sectionToMozillaFormat_global sec

/-- Witness of C1: a scoped section with empty code, and a global section. -/
theorem C1_section_text_witness :
    sectionToMozillaFormat { code := [], domains := some ["a.com".toList] } =
      "@-moz-document domain(\"a.com\") \x7b\n\n\x7d".toList ∧
    sectionToMozillaFormat { code := "a\x7b\x7d".toList, urls := some [] } = "a\x7b\x7d".toList :=
  ⟨(C1_section_text { code := [], domains := some ["a.com".toList] }).1
      ⟨.domains, ["a.com".toList], "a.com".toList, rfl, by simp⟩,
   (C1_section_text { code := "a\x7b\x7d".toList, urls := some [] }).2
      (by intro i; cases i <;> rfl)⟩

/-- C2: the output is the per-section texts in list order with exactly one blank line
(two line breaks) between consecutive texts, nothing before the first or after the last;
the empty list gives the empty string. -/
theorem C2_sections_joined (sections : List Section) :
    toMozillaFormat sections =
      "\n\n".toList.intercalate (sections.map sectionToMozillaFormat) ∧
    toMozillaFormat [] = [] ∧
    (∀ s, toMozillaFormat [s] = sectionToMozillaFormat s) ∧
    (∀ s t rest, toMozillaFormat (s :: t :: rest) =
      sectionToMozillaFormat s ++ ['\n', '\n'] ++ toMozillaFormat (t :: rest)) := by
  refine ⟨join_eq_intercalate _ _, rfl, fun s => rfl, fun s t rest => ?_⟩
  simp [toMozillaFormat, join_eq_intercalate, List.intercalate, List.intersperse]

theorem Section.set_comm (s : Section) (i j : Property) (v w : List Str) (h : i ≠ j) :
    (s.set i v).set j w = (s.set j w).set i v := by
  cases i <;> cases j <;> first | exact absurd rfl h | rfl

theorem Section.setAll_perm {l l' : List (Property × List Str)} (hp : l.Perm l') :
    ∀ (s : Section), (l.map Prod.fst).Nodup → s.setAll l = s.setAll l' := by
  induction hp with
  | nil => intro s _; rfl
  | cons a _ ih =>
    intro s hn
    simp only [List.map_cons, List.nodup_cons] at hn
    simpa [Section.setAll] using ih (s.set a.1 a.2) hn.2
  | swap a b l =>
    intro s hn
    simp only [List.map_cons, List.nodup_cons, List.mem_cons, not_or] at hn
    simp only [Section.setAll, List.foldl_cons]
    rw [Section.set_comm s b.1 a.1 b.2 a.2 hn.1.1]
  | trans h1 _ ih1 ih2 =>
    intro s hn
    rw [ih1 s hn]
    exact ih2 s ((h1.map Prod.fst).nodup_iff.1 hn)

/-- C3: the function calls of a section are all `url` calls, then all `url-prefix`
calls, then all `domain` calls, then all `regexp` calls, each group in the order of the
values of its sequence; and setting the same fields of a record in another order gives
the same calls and the same text. -/
theorem C3_calls_grouped_by_kind (sec : Section) :
    cssMdsOf sec =
      (sec.urls.getD []).map (cssMd "url".toList) ++
      (sec.urlPrefixes.getD []).map (cssMd "url-prefix".toList) ++
      (sec.domains.getD []).map (cssMd "domain".toList) ++
      (sec.regexps.getD []).map (cssMd "regexp".toList) ∧
    (∀ fields fields' : List (Property × List Str),
      fields.Perm fields' → (fields.map Prod.fst).Nodup →
        cssMdsOf (sec.setAll fields) = cssMdsOf (sec.setAll fields') ∧
        sectionToMozillaFormat (sec.setAll fields) =
          sectionToMozillaFormat (sec.setAll fields')) := by
  constructor
  · have h : ∀ k, cssMd k = callSpec k := fun k => funext (cssMd_eq k)
    rw [cssMdsOf_eq, scopeCallsSpec, h, h, h, h]
  · intro fields fields' hp hn
    rw [Section.setAll_perm hp sec hn]
    exact ⟨rfl, rfl⟩

/-- Witness of C3: a `regexps` entry set before a `urlPrefixes` entry. -/
theorem C3_calls_grouped_by_kind_witness :
    sectionToMozillaFormat
        (Section.setAll { code := "a\x7b\x7d".toList }
          [(.regexps, ["r".toList]), (.urlPrefixes, ["p".toList])]) =
      sectionToMozillaFormat
        (Section.setAll { code := "a\x7b\x7d".toList }
          [(.urlPrefixes, ["p".toList]), (.regexps, ["r".toList])]) ∧
    sectionToMozillaFormat
        (Section.setAll { code := "a\x7b\x7d".toList }
          [(.regexps, ["r".toList]), (.urlPrefixes, ["p".toList])]) =
      "@-moz-document url-prefix(\"p\"), regexp(\"r\") \x7b\na\x7b\x7d\n\x7d".toList :=
  ⟨((C3_calls_grouped_by_kind { code := "a\x7b\x7d".toList }).2
      [(.regexps, ["r".toList]), (.urlPrefixes, ["p".toList])]
      [(.urlPrefixes, ["p".toList]), (.regexps, ["r".toList])]
      (List.Perm.swap _ _ _) (by decide)).2, by decide⟩

/-- C4: the function call of a condition value `v` of kind `kind` is the kind, `("`, the
escaped value and `")`, where the escaped value is `v` with every backslash doubled and
every other character unchanged; its length is the length of `v` plus the number of
backslashes in `v`. -/
theorem C4_call_escaping (kind v : Str) :
    cssMd kind v =
      kind ++ ['(', '"'] ++ replaceAll reBackslash "\\\\".toList v ++ ['"', ')'] ∧
    replaceAll reBackslash "\\\\".toList v =
      v.flatMap (fun c => if c = '\\' then ['\\', '\\'] else [c]) ∧
    (replaceAll reBackslash "\\\\".toList v).length = v.length + v.count '\\' := by
  refine ⟨by simp [cssMd], ?_, ?_⟩
  · rw [escape_eq]; rfl
  · rw [escape_eq, escapeSpec_length]

/-- C5: the unescaping of a regexp value by the importer (every pair of backslashes
becomes one backslash, left to right) undoes the escaping of the exporter (every
backslash doubled). -/
theorem C5_unescape_escape (v : Str) :
    replaceAll reDoubleBackslash "\\".toList (replaceAll reBackslash "\\\\".toList v) = v := by
  rw [escape_eq, unescape_escape]


/-! ## The call pattern of the start handler -/

theorem run_seq (a b : Re) (x : MState) : (Re.seq a b).run x = (a.run x).flatMap b.run := rfl

theorem run_group (n : Nat) (r : Re) (x : MState) :
    (Re.group n r).run x =
      (r.run x).map (fun y => { y with caps := (n, x.rest.take (y.pos - x.pos)) :: y.caps }) := rfl

theorem run_star (g : Bool) (r : Re) (x : MState) :
    (Re.star g r).run x = starLoop g r.run x.rest.length x := rfl

theorem run_opt_greedy (r : Re) (x : MState) :
    (Re.opt true r).run x = (r.run x).filter (fun y => y.pos != x.pos) ++ [x] := rfl

theorem run_bos_zero (rest : Str) (caps : List (Nat × Str)) :
    Re.bos.run ⟨0, rest, caps⟩ = [⟨0, rest, caps⟩] := rfl

theorem run_cls_cons (p : Char → Bool) (i : Nat) (c : Char) (cs : Str) (caps : List (Nat × Str)) :
    (Re.cls p).run ⟨i, c :: cs, caps⟩ = if p c then [⟨i + 1, cs, caps⟩] else [] := rfl

theorem run_cls_nil (p : Char → Bool) (i : Nat) (caps : List (Nat × Str)) :
    (Re.cls p).run ⟨i, [], caps⟩ = [] := rfl

theorem run_chr_cons (d : Char) (i : Nat) (c : Char) (cs : Str) (caps : List (Nat × Str)) :
    (Re.chr d).run ⟨i, c :: cs, caps⟩ = if c = d then [⟨i + 1, cs, caps⟩] else [] := by
  simp [Re.chr, Re.run]

theorem execFrom_hit (re : Re) (rest : Str) (i : Nat) (y : MState)
    (h : (re.run ⟨i, rest, []⟩).head? = some y) :
    execFrom re rest i = some ⟨i, y.pos, y.caps⟩ := by
  cases rest <;> simp [execFrom, h]

theorem head?_append_of_some {α : Type} (l l' : List α) (y : α) (h : l.head? = some y) :
    (l ++ l').head? = some y := by
  cases l with
  | nil => simp at h
  | cons a t => simpa using h

/-- Greedy `c*` over a character class: the longest run is tried first. -/
theorem starLoop_greedy_first (p : Char → Bool) (K : MState → List MState) (y : MState)
    (caps : List (Nat × Str)) (r : Str) (hr : ∀ c, r.head? = some c → p c = false) :
    ∀ (w : Str) (i fuel : Nat), (∀ c ∈ w, p c = true) → w.length ≤ fuel →
      (K ⟨i + w.length, r, caps⟩).head? = some y →
      ((starLoop true (Re.run (.cls p)) fuel ⟨i, w ++ r, caps⟩).flatMap K).head? = some y := by
  intro w
  induction w with
  | nil =>
    intro i fuel _ _ hK
    have hstep : Re.run (.cls p) ⟨i, r, caps⟩ = [] := by
      cases r with
      | nil => simp [Re.run]
      | cons c cs => simp [Re.run, hr c rfl]
    cases fuel with
    | zero => simpa [starLoop] using hK
    | succ f => simpa [starLoop, hstep] using hK
  | cons c cs ih =>
    intro i fuel hw hf hK
    obtain ⟨f, rfl⟩ : ∃ f, fuel = f + 1 := ⟨fuel - 1, by simp at hf; omega⟩
    have hc : p c = true := hw c (by simp)
    have := ih (i + 1) f (fun d hd => hw d (by simp [hd])) (by simpa using hf)
      (by simpa [Nat.add_assoc, Nat.add_comm 1] using hK)
    simp only [starLoop, Re.run, List.cons_append, hc, if_true]
    simp only [List.filter_cons, List.filter_nil]
    simp only [show ((i + 1 != i) = true) by simp, if_true, List.flatMap_cons, List.flatMap_nil,
      List.append_nil, List.flatMap_append]
    exact head?_append_of_some _ _ _ this

/-- Lazy `c*?` over a character class: the shortest run for which the rest of the
pattern succeeds is taken. -/
theorem starLoop_lazy_first (p : Char → Bool) (K : MState → List MState) (y : MState)
    (caps : List (Nat × Str)) (post : Str) :
    ∀ (pre : Str) (i fuel : Nat), (∀ c ∈ pre, p c = true) → pre.length ≤ fuel →
      (∀ j, j < pre.length → K ⟨i + j, pre.drop j ++ post, caps⟩ = []) →
      (K ⟨i + pre.length, post, caps⟩).head? = some y →
      ((starLoop false (Re.run (.cls p)) fuel ⟨i, pre ++ post, caps⟩).flatMap K).head? = some y := by
  intro pre
  induction pre with
  | nil =>
    intro i fuel _ _ _ hK
    cases fuel with
    | zero => simpa [starLoop] using hK
    | succ f =>
      simp only [starLoop, List.nil_append]
      simp only [Bool.false_eq_true, if_false, List.flatMap_cons]
      exact head?_append_of_some _ _ _ (by simpa using hK)
  | cons c cs ih =>
    intro i fuel hw hf hfail hK
    obtain ⟨f, rfl⟩ : ∃ f, fuel = f + 1 := ⟨fuel - 1, by simp at hf; omega⟩
    have hc : p c = true := hw c (by simp)
    have h0 := hfail 0 (by simp)
    simp only [Nat.add_zero, List.drop_zero] at h0
    have := ih (i + 1) f (fun d hd => hw d (by simp [hd])) (by simpa using hf)
      (fun j hj => by
        have := hfail (j + 1) (by simpa using hj)
        simpa [Nat.add_assoc, Nat.add_comm 1] using this)
      (by simpa [Nat.add_assoc, Nat.add_comm 1] using hK)
    simp only [starLoop, Re.run, List.cons_append, hc, if_true]
    simp only [List.filter_cons, List.filter_nil, Bool.false_eq_true, if_false]
    simp only [show ((i + 1 != i) = true) by simp, if_true, List.flatMap_cons, List.flatMap_nil,
      List.append_nil]
    rw [show K ⟨i, c :: (cs ++ post), caps⟩ = [] from h0]
    simpa using this

/-- The tail `\2?\)$` of the call pattern fails while more than `")` is left. -/
theorem callTail_fail (i : Nat) (caps : List (Nat × Str)) (hc : caps.lookup 2 = some ['"'])
    (u : Str) (hu : u ≠ []) :
    Re.run (.seq (.opt true (.backref 2)) (.seq (Re.chr ')') .eos)) ⟨i, u ++ ['"', ')'], caps⟩ = [] := by
  obtain ⟨c, u', rfl⟩ : ∃ c u', u = c :: u' := List.exists_cons_of_ne_nil hu
  cases u' with
  | nil =>
    by_cases h1 : c = '"' <;> by_cases h2 : c = ')' <;>
      simp [Re.run, Re.chr, hc, h1, h2, List.isPrefixOf]
  | cons d u'' =>
    by_cases h1 : c = '"' <;> by_cases h2 : c = ')' <;> by_cases h3 : d = ')' <;>
      simp [Re.run, Re.chr, hc, h1, h2, h3, List.isPrefixOf]

/-- The tail `\2?\)$` of the call pattern on the text `")`. -/
theorem callTail_ok (i : Nat) (caps : List (Nat × Str)) (hc : caps.lookup 2 = some ['"']) :
    Re.run (.seq (.opt true (.backref 2)) (.seq (Re.chr ')') .eos)) ⟨i, ['"', ')'], caps⟩ =
      [⟨i + 2, [], caps⟩] := by
  simp [Re.run, Re.chr, hc, List.isPrefixOf]


/-- The part `(.+?)\2?\)$` of the call pattern, after an opening double quote. -/
theorem callValue_quoted (i : Nat) (caps : List (Nat × Str)) (hc : caps.lookup 2 = some ['"'])
    (e : Str) (he : e ≠ []) (hdot : ∀ c ∈ e, isDot c = true) :
    (Re.run (.seq (.group 3 (Re.plus false (.cls isDot)))
        (.seq (.opt true (.backref 2)) (.seq (Re.chr ')') .eos)))
      ⟨i, e ++ ['"', ')'], caps⟩).head? = some ⟨i + e.length + 2, [], (3, e) :: caps⟩ := by
  obtain ⟨c, e', rfl⟩ : ∃ c e', e = c :: e' := List.exists_cons_of_ne_nil he
  have hcdot : isDot c = true := hdot c (by simp)
  have hc3 : ∀ v : Str, List.lookup 2 ((3, v) :: caps) = some ['"'] := by
    intro v; simpa [List.lookup] using hc
  rw [run_seq, run_group, List.flatMap_map, Re.plus, run_seq, List.cons_append, run_cls_cons,
    if_pos hcdot, List.flatMap_cons, List.flatMap_nil, List.append_nil, run_star]
  apply starLoop_lazy_first isDot _ _ caps ['"', ')'] e' (i + 1) _
    (fun d hd => hdot d (by simp [hd])) (by simp)
  · intro j hj
    simp only
    have e1 : i + 1 + j - i = j + 1 := by omega
    rw [callTail_fail _ _ (hc3 _) _ (by
      intro h
      have := congrArg List.length h
      simp at this
      omega)]
  · simp only
    rw [callTail_ok _ _ (hc3 _)]
    have e1 : i + 1 + e'.length - i = e'.length + 1 := by omega
    simp [e1, Nat.add_assoc, Nat.add_comm 1]

/-- The call pattern on a double-quoted call: the name is the text before the
parenthesis and the value is the whole text between the quotes. -/
theorem reCall_quoted (k e : Str) (hk : ∀ c ∈ k, isWordOrDash c = true) (he : e ≠ [])
    (hdot : ∀ c ∈ e, isDot c = true) :
    exec reCall (k ++ ['(', '"'] ++ e ++ ['"', ')']) =
      some ⟨0, k.length + e.length + 4, [(3, e), (2, ['"']), (1, k)]⟩ := by
  have key : (reCall.run ⟨0, k ++ ('(' :: '"' :: (e ++ ['"', ')'])), []⟩).head? =
      some ⟨k.length + e.length + 4, [], [(3, e), (2, ['"']), (1, k)]⟩ := by
    simp only [reCall, Re.seqs]
    rw [run_seq, run_bos_zero, List.flatMap_cons, List.flatMap_nil, List.append_nil,
      run_seq, run_group, List.flatMap_map, run_star]
    apply starLoop_greedy_first isWordOrDash _ _ [] _ (by intro d hd; simp at hd; subst hd; decide)
      k 0 _ hk (by simp)
    simp only [Nat.zero_add, Nat.sub_zero, List.take_left']
    rw [run_seq, run_chr_cons, if_pos rfl, List.flatMap_cons, List.flatMap_nil, List.append_nil,
      run_seq, run_group, run_opt_greedy, run_cls_cons, if_pos (by decide : isQuote '"' = true)]
    simp only [List.filter_cons, List.filter_nil]
    simp only [show ((k.length + 1 + 1 != k.length + 1) = true) by simp, if_true,
      List.cons_append, List.nil_append, List.map_cons, List.flatMap_cons]
    apply head?_append_of_some
    have := callValue_quoted (k.length + 1 + 1) [(2, ['"']), (1, k)] (by simp [List.lookup]) e he hdot
    simpa [Nat.add_assoc, Nat.add_comm, Nat.add_left_comm] using this
  have := execFrom_hit reCall _ 0 _ key
  simpa [exec] using this

/-- One turn of the function loop of the start handler on a double-quoted call of one of
the four kinds: no diagnostic, and the value between the quotes (for `regexp`, with
pairs of backslashes halved) is appended to the sequence of that kind. -/
theorem processFunction_quoted (line ecol : Int) (errors : List Str) (sec : Section)
    (ic : Property × Str) (hic : ic ∈ propertyToCss) (e : Str) (he : e ≠ [])
    (hdot : ∀ c ∈ e, isDot c = true) :
    processFunction line ecol (errors, sec) (ic.2 ++ ['(', '"'] ++ e ++ ['"', ')']) =
      (errors, sec.set ic.1 ((sec.get ic.1).getD [] ++
        [if ic.1 ≠ .regexps then e else replaceAll reDoubleBackslash "\\".toList e])) := by
  have hk : ∀ c ∈ ic.2, isWordOrDash c = true := by
    simp only [propertyToCss, List.mem_cons, List.mem_singleton, List.not_mem_nil, or_false] at hic
    rcases hic with rfl | rfl | rfl | rfl <;> decide
  have htest : test reCssKeyword ic.2 = true := by
    simp only [propertyToCss, List.mem_cons, List.mem_singleton, List.not_mem_nil, or_false] at hic
    rcases hic with rfl | rfl | rfl | rfl <;> decide
  have hlook : CssToProperty.lookup ic.2 = some ic.1 := by
    simp only [propertyToCss, List.mem_cons, List.mem_singleton, List.not_mem_nil, or_false] at hic
    rcases hic with rfl | rfl | rfl | rfl <;> decide
  have hm := reCall_quoted ic.2 e hk he hdot
  have htr : truthy (ic.2 ++ ['(', '"'] ++ e ++ ['"', ')']) = true := by
    simp [truthy]
  have hg1 : List.lookup 1 [(3, e), (2, ['"']), (1, ic.2)] = some ic.2 := rfl
  have hg3 : List.lookup 3 [(3, e), (2, ['"']), (1, ic.2)] = some e := rfl
  simp only [processFunction, htr, if_true, hm, Match.group, hg1, hg3, Option.getD_some, htest,
    hlook, Bool.not_true, Bool.false_eq_true, if_false]

theorem escapeSpec_ne_nil (v : Str) (h : v ≠ []) : escapeSpec v ≠ [] := by
  intro h0
  have := congrArg List.length h0
  rw [escapeSpec_length] at this
  simp at this
  exact h this.1

theorem escapeSpec_isDot (v : Str) (h : ∀ c ∈ v, isLineTerminator c = false) :
    ∀ c ∈ escapeSpec v, isDot c = true := by
  intro c hc
  simp only [escapeSpec, List.mem_flatMap] at hc
  obtain ⟨d, hd, hcd⟩ := hc
  by_cases hb : d = '\\'
  · subst hb
    simp at hcd
    subst hcd
    decide
  · simp [hb] at hcd
    subst hcd
    simp [isDot, h c hd]

theorem escapeSpec_of_no_backslash (v : Str) (h : '\\' ∉ v) : escapeSpec v = v := by
  induction v with
  | nil => rfl
  | cons c cs ih =>
    have hc : c ≠ '\\' := fun hc => h (by simp [hc])
    have hcs : '\\' ∉ cs := fun hcs => h (by simp [hcs])
    have he : escapeSpec (c :: cs) = c :: escapeSpec cs := by simp [escapeSpec, hc]
    rw [he, ih hcs]

/-- C6: a non-empty value without line terminator, backslashes included, comes back
unchanged from the start listener for each of the four kinds, on the text in which its
call reaches the listener. A `regexp` call reaches it as encode wrote it, every backslash
doubled, and the listener halves the doubled backslashes; a `url`, `url-prefix` or
`domain` call reaches it with the escapes of its string already resolved by the parser,
that is with the value itself between the quotes, and the listener takes the text between
the quotes as it stands. In both cases no diagnostic is recorded and exactly the original
value is appended, so a further round trip starts from the same value. -/
theorem C6_roundtrip_on_delivered_call (ic : Property × Str) (hic : ic ∈ propertyToCss)
    (v : Str) (hne : v ≠ []) (hlt : ∀ c ∈ v, isLineTerminator c = false)
    (line ecol : Int) (errors : List Str) (sec : Section) :
    (ic.1 = .regexps →
      processFunction line ecol (errors, sec) (cssMd ic.2 v) =
        (errors, sec.set ic.1 ((sec.get ic.1).getD [] ++ [v]))) ∧
    (ic.1 ≠ .regexps →
      processFunction line ecol (errors, sec) (ic.2 ++ ['(', '"'] ++ v ++ ['"', ')']) =
        (errors, sec.set ic.1 ((sec.get ic.1).getD [] ++ [v]))) := by
  constructor
  · intro hr
    have h := processFunction_quoted line ecol errors sec ic hic (escapeSpec v)
      (escapeSpec_ne_nil v hne) (escapeSpec_isDot v hlt)
    rw [unescape_escape] at h
    rw [cssMd_eq, callSpec, h]
    simp [hr]
  · intro hr
    have hdot : ∀ c ∈ v, isDot c = true := by
      intro c hc
      simp [isDot, hlt c hc]
    rw [processFunction_quoted line ecol errors sec ic hic v hne hdot]
    simp [hr]

theorem C6_roundtrip_on_delivered_call_witness :
    processFunction 1 0 ([], { code := [] }) (cssMd "regexp".toList "a\\.b".toList) =
      ([], { code := [], regexps := some ["a\\.b".toList] }) ∧
    cssMd "regexp".toList "a\\.b".toList = "regexp(\"a\\\\.b\")".toList ∧
    processFunction 1 0 ([], { code := [] }) "url(\"C:\\path\")".toList =
      ([], { code := [], urls := some ["C:\\path".toList] }) :=
  ⟨(C6_roundtrip_on_delivered_call (.regexps, "regexp".toList) (by decide) "a\\.b".toList
      (by decide) (by decide) 1 0 [] { code := [] }).1 rfl,
   by decide,
   (C6_roundtrip_on_delivered_call (.urls, "url".toList) (by decide) "C:\\path".toList
      (by decide) (by decide) 1 0 [] { code := [] }).2 (by decide)⟩

/-- C7: for each of the four kinds and every non-empty value without backslash and
without line terminator (quotes and parentheses allowed), the text `kind("value")` that
encode emits is matched by the call pattern with the kind as name and the value as
argument, and the start handler appends exactly the value to the sequence of that kind
and records no diagnostic. -/
theorem C7_decode_emitted_call (ic : Property × Str) (hic : ic ∈ propertyToCss)
    (v : Str) (hne : v ≠ []) (hbs : '\\' ∉ v) (hlt : ∀ c ∈ v, isLineTerminator c = false)
    (line ecol : Int) (errors : List Str) (sec : Section) :
    cssMd ic.2 v = ic.2 ++ ['(', '"'] ++ v ++ ['"', ')'] ∧
    (exec reCall (cssMd ic.2 v)).map (fun m => (m.group 1, m.group 3)) =
      some (some ic.2, some v) ∧
    test reCssKeyword ic.2 = true ∧
    CssToProperty.lookup ic.2 = some ic.1 ∧
    processFunction line ecol (errors, sec) (cssMd ic.2 v) =
      (errors, sec.set ic.1 ((sec.get ic.1).getD [] ++ [v])) := by
  have hk : ∀ c ∈ ic.2, isWordOrDash c = true := by
    simp only [propertyToCss, List.mem_cons, List.mem_singleton, List.not_mem_nil, or_false] at hic
    rcases hic with rfl | rfl | rfl | rfl <;> decide
  have hdot : ∀ c ∈ v, isDot c = true := fun c hc => by simp [isDot, hlt c hc]
  have hcall : cssMd ic.2 v = ic.2 ++ ['(', '"'] ++ v ++ ['"', ')'] := by
    rw [cssMd_eq, callSpec, escapeSpec_of_no_backslash v hbs]
  refine ⟨hcall, ?_, ?_, ?_, ?_⟩
  · rw [hcall, reCall_quoted ic.2 v hk hne hdot]
    simp [Match.group, List.lookup]
  · simp only [propertyToCss, List.mem_cons, List.mem_singleton, List.not_mem_nil, or_false] at hic
    rcases hic with rfl | rfl | rfl | rfl <;> decide
  · simp only [propertyToCss, List.mem_cons, List.mem_singleton, List.not_mem_nil, or_false] at hic
    rcases hic with rfl | rfl | rfl | rfl <;> decide
  · have h := processFunction_quoted line ecol errors sec ic hic v hne hdot
    have hu : replaceAll reDoubleBackslash "\\".toList v = v := by
      have := unescape_escape v
      rwa [escapeSpec_of_no_backslash v hbs] at this
    rw [hcall, h, hu]
    simp

/-- Witness of C7: the domain `example.com`. -/
theorem C7_decode_emitted_call_witness :
    processFunction 1 0 ([], { code := [] }) "domain(\"example.com\")".toList =
      ([], { code := [], domains := some ["example.com".toList] }) := by
  have h := (C7_decode_emitted_call (.domains, "domain".toList) (by decide) "example.com".toList
    (by decide) (by decide) (by decide) 1 0 [] { code := [] }).2.2.2.2
  rw [(C7_decode_emitted_call (.domains, "domain".toList) (by decide) "example.com".toList
    (by decide) (by decide) (by decide) 1 0 [] { code := [] }).1] at h
  simpa [Section.set, Section.get] using h


/-! ## Lines and ranges -/

theorem join_cons_cons (sep a b : Str) (l : List Str) :
    join sep (a :: b :: l) = a ++ sep ++ join sep (b :: l) := by
  simp [join, joinLoop_eq, List.append_assoc]

theorem splitAux_ne_nil (sep : Char) (s cur : Str) : splitAux sep s cur ≠ [] := by
  induction s generalizing cur with
  | nil => simp [splitAux]
  | cons c cs ih =>
    simp only [splitAux]
    split
    · simp
    · exact ih _

theorem join_splitAux (sep : Char) (s cur : Str) :
    join [sep] (splitAux sep s cur) = cur.reverse ++ s := by
  induction s generalizing cur with
  | nil => simp [splitAux, join, joinLoop]
  | cons c cs ih =>
    simp only [splitAux]
    split
    · rename_i h
      subst h
      obtain ⟨b, l, hbl⟩ : ∃ b l, splitAux c cs [] = b :: l := by
        cases h : splitAux c cs [] with
        | nil => exact absurd h (splitAux_ne_nil _ _ _)
        | cons b l => exact ⟨b, l, rfl⟩
      have := ih []
      rw [hbl] at this ⊢
      rw [join_cons_cons, this]
      simp
    · rw [ih]; simp

/-- Splitting a text at line breaks and joining the lines again gives the text. -/
theorem join_split (sep : Char) (s : Str) : join [sep] (split sep s) = s := by
  simpa [split] using join_splitAux sep s []

theorem split_ne_nil (sep : Char) (s : Str) : split sep s ≠ [] := splitAux_ne_nil sep s []

theorem substr_zero_all (l : Str) (n : Int) (h : (l.length : Int) ≤ n) :
    substr l 0 (some n) = l := by
  have h1 : min n.toNat l.length = l.length := by
    apply Nat.min_eq_right
    omega
  simp [substr, relIdx, clampIdx, h1]

theorem substr_zero_none (l : Str) : substr l 0 none = l := by
  simp [substr, relIdx]

theorem substring_zero_length (l : Str) : substring l 0 (l.length : Int) = l := by
  simp [substring, clampIdx]

theorem join_ne_nil_of_two (sep : Str) (hsep : sep ≠ []) (a b : Str) (l : List Str) :
    join sep (a :: b :: l) ≠ [] := by
  rw [join_cons_cons]
  simp [hsep]

theorem join_append_singleton (sep : Str) (l : List Str) (hl : l ≠ []) (z : Str) :
    join sep (l ++ [z]) = join sep l ++ sep ++ z := by
  induction l with
  | nil => exact absurd rfl hl
  | cons a t ih =>
    cases t with
    | nil => simp [join, joinLoop]
    | cons b t' =>
      have := ih (by simp)
      rw [List.cons_append, List.cons_append, join_cons_cons, ← List.cons_append, this,
        join_cons_cons]
      simp [List.append_assoc]

theorem relIdx_natCast (n size : Nat) : relIdx (n : Int) size = min n size := by
  simp [relIdx]

theorem lineAt_natCast (lines : List Str) (n : Nat) : lineAt lines (n : Int) = lines[n]? := by
  simp [lineAt]

/-- The multi-line branch of `getRange` from the start of the first line to the end of
the last line. -/
theorem getRange_multi (l1 : Str) (mid : List Str) (last : Str) :
    getRange (l1 :: (mid ++ [last])) ⟨1, 1⟩ ⟨((l1 :: (mid ++ [last])).length : Nat), last.length + 1⟩ =
      some (l1 ++ ['\n'] ++ join ['\n'] mid ++
        ((if truthy (join ['\n'] mid) then ['\n'] else []) ++ last)) := by
  have hlen : (l1 :: (mid ++ [last])).length = mid.length + 2 := by simp
  have hL2 : (((l1 :: (mid ++ [last])).length : Nat) : Int) - 1 = ((mid.length + 1 : Nat) : Int) := by
    rw [hlen]; push_cast; ring
  have hne : ¬ ((1 : Int) - 1 = ((mid.length + 1 : Nat) : Int)) := by
    push_cast; omega
  have hslice : slice (l1 :: (mid ++ [last])) ((1 : Int) - 1 + 1) ((mid.length + 1 : Nat) : Int) = mid := by
    have e1 : ((1 : Int) - 1 + 1) = ((1 : Nat) : Int) := by norm_num
    rw [e1]
    unfold slice
    rw [relIdx_natCast, relIdx_natCast, hlen]
    have a1 : min 1 (mid.length + 2) = 1 := by omega
    have a2 : min (mid.length + 1) (mid.length + 2) = mid.length + 1 := by omega
    rw [a1, a2]
    simp
  have hge : ¬ (((mid.length + 1 : Nat) : Int) ≥ (((l1 :: (mid ++ [last])).length : Nat) : Int)) := by
    rw [hlen]; push_cast; omega
  have hl1 : lineAt (l1 :: (mid ++ [last])) ((1 : Int) - 1) = some l1 := by
    have e1 : ((1 : Int) - 1) = ((0 : Nat) : Int) := by norm_num
    rw [e1, lineAt_natCast]; simp
  have hl2 : lineAt (l1 :: (mid ++ [last])) ((mid.length + 1 : Nat) : Int) = some last := by
    rw [lineAt_natCast]
    simp
  have hC2 : ((last.length : Int) + 1 - 1) = (last.length : Int) := by ring
  unfold getRange
  simp only [hL2, hne, if_false, hslice, hl1, hge, hl2, hC2, substring_zero_length]
  have e0 : ((1 : Int) - 1) = 0 := by norm_num
  rw [e0, substr_zero_none]
  rfl

/-- Reading the whole text back from its lines: `getRange` from line 1 column 1 to the
end of the last line returns the lines joined by line breaks, unless the text has
exactly three lines with an empty middle line. -/
theorem getRange_whole (lines : List Str) (last : Str) (hlast : lines.getLast? = some last)
    (hslip : ¬ ∃ a b, lines = [a, [], b]) :
    getRange lines ⟨1, 1⟩ ⟨(lines.length : Nat), last.length + 1⟩ = some (join ['\n'] lines) := by
  cases lines with
  | nil => simp at hlast
  | cons l1 rest =>
    rcases List.eq_nil_or_concat rest with rfl | ⟨mid, z, rfl⟩
    · simp at hlast
      subst hlast
      have h1 : lineAt [l1] ((1 : Int) - 1) = some l1 := by
        have e1 : ((1 : Int) - 1) = ((0 : Nat) : Int) := by norm_num
        rw [e1, lineAt_natCast]; rfl
      unfold getRange
      simp only [List.length_singleton, Nat.cast_one, if_true, h1, Option.map_some']
      have e2 : ((l1.length : Int) + 1 - 1 - (1 - 1) + 1) = (l1.length : Int) + 1 := by ring
      have e0 : ((1 : Int) - 1) = 0 := by norm_num
      rw [e2, e0, substr_zero_all l1 _ (by omega)]
      rfl
    · rw [List.concat_eq_append] at hlast hslip ⊢
      have hz : z = last := by
        rw [← List.cons_append, List.getLast?_append] at hlast
        simpa using hlast
      subst hz
      rw [getRange_multi]
      congr 1
      cases mid with
      | nil => simp [join, joinLoop, truthy]
      | cons m mid' =>
        cases mid' with
        | nil =>
          have hm : m ≠ [] := by
            intro hm; subst hm
            exact hslip ⟨l1, z, rfl⟩
          have ht : truthy m = true := by
            cases m with
            | nil => exact absurd rfl hm
            | cons _ _ => rfl
          simp [join, joinLoop, ht]
        | cons m2 mid'' =>
          have hj := join_ne_nil_of_two ['\n'] (by simp) m m2 mid''
          have ht : truthy (join ['\n'] (m :: m2 :: mid'')) = true := by
            cases h : join ['\n'] (m :: m2 :: mid'') with
            | nil => exact absurd h hj
            | cons _ _ => rfl
          rw [ht, if_pos rfl]
          have := join_append_singleton ['\n'] (l1 :: m :: m2 :: mid'') (by simp) z
          rw [show l1 :: (m :: m2 :: mid'' ++ [z]) = (l1 :: m :: m2 :: mid'') ++ [z] by simp, this,
            join_cons_cons ['\n'] l1 m (m2 :: mid'')]
          simp [List.append_assoc]


/-! ## Trimming -/

theorem isSpaceOrNl_eq : isSpaceOrNl = isJsSpace := by
  funext c
  by_cases h : c = '\n'
  · subst h; decide
  · simp [isSpaceOrNl, h]

theorem execFrom_bos_none (r : Re) : ∀ (rest : Str) (i : Nat), 0 < i →
    execFrom (.seq .bos r) rest i = none := by
  intro rest
  induction rest with
  | nil =>
    intro i hi
    have : ¬ (i = 0) := by omega
    simp [execFrom, Re.run, this]
  | cons c cs ih =>
    intro i hi
    have : ¬ (i = 0) := by omega
    simp [execFrom, Re.run, this, ih (i + 1) (by omega)]

theorem drop_takeWhile_length (p : Char → Bool) (s : Str) :
    s.drop (s.takeWhile p).length = s.dropWhile p := by
  induction s with
  | nil => rfl
  | cons c cs ih =>
    by_cases h : p c = true
    · simp [List.takeWhile_cons, List.dropWhile_cons, h, ih]
    · simp [List.takeWhile_cons, List.dropWhile_cons, h]

theorem length_takeWhile_le (p : Char → Bool) (s : Str) : (s.takeWhile p).length ≤ s.length := by
  have := congrArg List.length (List.takeWhile_append_dropWhile p s)
  simp only [List.length_append] at this
  omega

theorem flatMap_singleton_id {α : Type} (l : List α) : l.flatMap (fun y => [y]) = l := by
  induction l with
  | nil => rfl
  | cons a t ih => simp [List.flatMap_cons, ih]

/-- The longest run of `c*` is its first alternative. -/
theorem starLoop_greedy_head (p : Char → Bool) (i : Nat) (s : Str) (caps : List (Nat × Str)) :
    (starLoop true (Re.run (.cls p)) s.length ⟨i, s, caps⟩).head? =
      some ⟨i + (s.takeWhile p).length, s.dropWhile p, caps⟩ := by
  have h := starLoop_greedy_first p (fun y => [y]) ⟨i + (s.takeWhile p).length, s.dropWhile p, caps⟩
    caps (s.dropWhile p)
    (by
      intro c hc
      have := List.head?_dropWhile_not p s
      rw [hc] at this
      simpa using this)
    (s.takeWhile p) i s.length
    (fun c hc => List.mem_takeWhile_imp hc)
    (length_takeWhile_le p s)
    rfl
  rwa [flatMap_singleton_id, List.takeWhile_append_dropWhile] at h

/-- The replacement `s.replace(/^[\s\n]+/, '')` removes the leading white space. -/
theorem replaceFirst_leading (s : Str) :
    replaceFirst reLeadingSpace [] s = s.dropWhile isSpaceOrNl := by
  unfold replaceFirst exec
  cases s with
  | nil => simp [execFrom, reLeadingSpace, Re.seqs, Re.plus, Re.run]
  | cons c cs =>
    by_cases hc : isSpaceOrNl c = true
    · have hrun : (reLeadingSpace.run ⟨0, c :: cs, []⟩).head? =
          some ⟨0 + 1 + (cs.takeWhile isSpaceOrNl).length, cs.dropWhile isSpaceOrNl, []⟩ := by
        simp only [reLeadingSpace, Re.seqs, Re.plus]
        rw [run_seq, run_bos_zero, List.flatMap_cons, List.flatMap_nil, List.append_nil, run_seq,
          run_cls_cons, if_pos hc, List.flatMap_cons, List.flatMap_nil, List.append_nil, run_star]
        exact starLoop_greedy_head _ _ _ _
      rw [execFrom_hit _ _ _ _ hrun]
      simp only [List.take_zero, List.nil_append, List.dropWhile_cons, hc, if_true]
      have : 0 + 1 + (cs.takeWhile isSpaceOrNl).length = (cs.takeWhile isSpaceOrNl).length + 1 := by
        omega
      rw [this, List.drop_succ_cons, drop_takeWhile_length]
    · have hrun : (reLeadingSpace.run ⟨0, c :: cs, []⟩).head? = none := by
        simp only [reLeadingSpace, Re.seqs, Re.plus]
        rw [run_seq, run_bos_zero, List.flatMap_cons, List.flatMap_nil, List.append_nil, run_seq,
          run_cls_cons, if_neg hc]
        rfl
      simp only [execFrom, hrun]
      have h2 : execFrom reLeadingSpace cs (0 + 1) = none := by
        simp only [reLeadingSpace, Re.seqs]
        exact execFrom_bos_none _ _ _ (by omega)
      rw [h2]
      simp [List.dropWhile_cons, hc]

theorem starLoop_cls_consumed (g : Bool) (p : Char → Bool) :
    ∀ (fuel : Nat) (x y : MState), y ∈ starLoop g (Re.run (.cls p)) fuel x →
      ∀ c ∈ x.rest.take (y.pos - x.pos), p c = true := by
  intro fuel
  induction fuel with
  | zero =>
    intro x y h c hc
    simp [starLoop] at h
    subst h
    simp at hc
  | succ n ih =>
    intro x y h c hc
    simp only [starLoop] at h
    have key : y = x ∨ ∃ z, z ∈ Re.run (.cls p) x ∧ y ∈ starLoop g (Re.run (.cls p)) n z := by
      cases g <;> simp [List.mem_flatMap] at h <;> rcases h with h | h
      · exact Or.inl h
      · obtain ⟨z, ⟨hz, _⟩, hy⟩ := h; exact Or.inr ⟨z, hz, hy⟩
      · obtain ⟨z, ⟨hz, _⟩, hy⟩ := h; exact Or.inr ⟨z, hz, hy⟩
      · exact Or.inl h
    rcases key with rfl | ⟨z, hz, hy⟩
    · simp at hc
    · obtain ⟨i, rest, caps⟩ := x
      cases rest with
      | nil => simp [Re.run] at hz
      | cons d ds =>
        rw [run_cls_cons] at hz
        by_cases hd : p d = true
        · rw [if_pos hd] at hz
          simp at hz
          subst hz
          have hr := starLoop_reaches g _ (run_reaches (.cls p)) n _ y hy
          have hpos : i + 1 ≤ y.pos := hr.pos_le
          have e : y.pos - i = (y.pos - (i + 1)) + 1 := by omega
          simp only [e, List.take_succ_cons, List.mem_cons] at hc
          rcases hc with rfl | hc
          · exact hd
          · exact ih _ y hy c hc
        · rw [if_neg hd] at hz
          simp at hz

theorem dropWhile_concat_of_not_all (p : Char → Bool) (c : Char) :
    ∀ l : Str, ¬ (∀ d ∈ l ++ [c], p d = true) → (l ++ [c]).dropWhile p = l.dropWhile p ++ [c] := by
  intro l
  induction l with
  | nil =>
    intro h
    have : ¬ (p c = true) := fun hc => h (by simpa using hc)
    simp [List.dropWhile_cons, this]
  | cons a t ih =>
    intro h
    by_cases ha : p a = true
    · have h' : ¬ (∀ d ∈ t ++ [c], p d = true) := by
        intro h'
        apply h
        intro d hd
        simp only [List.cons_append, List.mem_cons] at hd
        rcases hd with rfl | hd
        · exact ha
        · exact h' d hd
      simp [List.dropWhile_cons, ha, ih h']
    · simp [List.dropWhile_cons, ha]

theorem rdropWhile_cons_of_not_all (p : Char → Bool) (c : Char) (cs : Str)
    (h : ¬ (∀ d ∈ c :: cs, p d = true)) :
    (c :: cs).rdropWhile p = c :: cs.rdropWhile p := by
  unfold List.rdropWhile
  rw [List.reverse_cons, dropWhile_concat_of_not_all p c cs.reverse
    (by
      intro h'
      apply h
      intro d hd
      apply h' d
      simp only [List.mem_cons] at hd
      simp only [List.mem_append, List.mem_reverse, List.mem_singleton]
      tauto)]
  simp

theorem rdropWhile_of_all (p : Char → Bool) (s : Str) (h : ∀ d ∈ s, p d = true) :
    s.rdropWhile p = [] := by
  rw [List.rdropWhile_eq_nil_iff]
  exact h

/-- The pattern `[\s\n]+$` at a given start index: it matches exactly when the whole
rest of the input is white space. -/
theorem trailing_run (p : Char → Bool) (i : Nat) (c : Char) (cs : Str) :
    ((∀ d ∈ c :: cs, p d = true) →
      (Re.run (.seq (Re.plus true (.cls p)) .eos) ⟨i, c :: cs, []⟩).head? =
        some ⟨i + (c :: cs).length, [], []⟩) ∧
    (¬ (∀ d ∈ c :: cs, p d = true) →
      (Re.run (.seq (Re.plus true (.cls p)) .eos) ⟨i, c :: cs, []⟩).head? = none) := by
  constructor
  · intro h
    have hc : p c = true := h c (by simp)
    rw [run_seq, Re.plus, run_seq, run_cls_cons, if_pos hc, List.flatMap_cons, List.flatMap_nil,
      List.append_nil, run_star]
    have := starLoop_greedy_first p (Re.run .eos) ⟨i + (c :: cs).length, [], []⟩ [] []
      (by simp) cs (i + 1) cs.length (fun d hd => h d (by simp [hd])) (le_refl _)
      (by simp [Re.run, Nat.add_assoc, Nat.add_comm 1])
    simpa using this
  · intro h
    rw [List.head?_eq_none_iff, List.eq_nil_iff_forall_not_mem]
    intro y hy
    apply h
    rw [run_seq, List.mem_flatMap] at hy
    obtain ⟨z, hz, hy⟩ := hy
    have hzrest : z.rest = [] := by
      simp only [Re.run] at hy
      split at hy
      · rename_i he; simpa using he
      · simp at hy
    rw [Re.plus, run_seq, run_cls_cons] at hz
    by_cases hc : p c = true
    · rw [if_pos hc, List.flatMap_cons, List.flatMap_nil, List.append_nil, run_star] at hz
      have hcons := starLoop_cls_consumed true p _ _ z hz
      have hr := starLoop_reaches true _ (run_reaches (.cls p)) _ _ z hz
      have hdrop : cs.drop (z.pos - (i + 1)) = [] := by
        have := hr.rest_eq
        simpa [hzrest] using this.symm
      have htake : cs.take (z.pos - (i + 1)) = cs := by
        rw [List.drop_eq_nil_iff] at hdrop
        exact List.take_of_length_le hdrop
      simp only at hcons
      rw [htake] at hcons
      intro d hd
      simp only [List.mem_cons] at hd
      rcases hd with rfl | hd
      · exact hc
      · exact hcons d hd
    · rw [if_neg hc] at hz
      simp at hz

/-- The search of `[\s\n]+$` from index `i`: it finds the trailing white space. -/
theorem execFrom_trailing : ∀ (rest : Str) (i : Nat),
    (execFrom reTrailingSpace rest i = none ∧ rest.rdropWhile isSpaceOrNl = rest) ∨
    (∃ m, execFrom reTrailingSpace rest i = some m ∧
      m.index = i + (rest.rdropWhile isSpaceOrNl).length ∧ m.stop = i + rest.length) := by
  intro rest
  induction rest with
  | nil =>
    intro i
    left
    simp [execFrom, reTrailingSpace, Re.seqs, Re.plus, Re.run, List.rdropWhile]
  | cons c cs ih =>
    intro i
    have hre : reTrailingSpace = .seq (Re.plus true (.cls isSpaceOrNl)) .eos := rfl
    by_cases hall : ∀ d ∈ c :: cs, isSpaceOrNl d = true
    · right
      have h := (trailing_run isSpaceOrNl i c cs).1 hall
      rw [← hre] at h
      refine ⟨_, execFrom_hit _ _ _ _ h, ?_, rfl⟩
      simp [rdropWhile_of_all _ _ hall]
    · have h := (trailing_run isSpaceOrNl i c cs).2 hall
      rw [← hre] at h
      have hstep : execFrom reTrailingSpace (c :: cs) i = execFrom reTrailingSpace cs (i + 1) := by
        simp only [execFrom, h]
      rw [hstep, rdropWhile_cons_of_not_all _ _ _ hall]
      rcases ih (i + 1) with ⟨h1, h2⟩ | ⟨m, h1, h2, h3⟩
      · left
        exact ⟨h1, by rw [h2]⟩
      · right
        refine ⟨m, h1, ?_, ?_⟩
        · rw [h2]; simp; omega
        · rw [h3]; simp; omega

/-- The replacement `s.replace(/[\s\n]+$/, '')` removes the trailing white space. -/
theorem replaceFirst_trailing (s : Str) :
    replaceFirst reTrailingSpace [] s = s.rdropWhile isSpaceOrNl := by
  unfold replaceFirst exec
  rcases execFrom_trailing s 0 with ⟨h1, h2⟩ | ⟨m, h1, h2, h3⟩
  · rw [h1, h2]
  · rw [h1]
    simp only [h2, h3, Nat.zero_add, List.drop_length, List.append_nil]
    exact List.prefix_iff_eq_take.1 (List.rdropWhile_prefix isSpaceOrNl s) |>.symm

/-- The function `trimNewLines` removes exactly what `String.prototype.trim` removes. -/
theorem trimNewLines_eq_trim (s : Str) : trimNewLines s = trim s := by
  unfold trimNewLines trim
  rw [replaceFirst_leading, replaceFirst_trailing, isSpaceOrNl_eq]
  rfl

theorem trim_idem (s : Str) : trim (trim s) = trim s := by
  have h : ∀ t : Str, trim t = (t.dropWhile isJsSpace).rdropWhile isJsSpace := fun t => rfl
  rw [h (trim s), h s]
  set u := s.dropWhile isJsSpace with hu
  have h1 : (u.rdropWhile isJsSpace).dropWhile isJsSpace = u.rdropWhile isJsSpace := by
    have hp := List.rdropWhile_prefix isJsSpace u
    cases hr : u.rdropWhile isJsSpace with
    | nil => rfl
    | cons a t =>
      have ha : u.head? = some a := by
        obtain ⟨w, hw⟩ := hp
        rw [hr] at hw
        rw [← hw]; rfl
      have hna := List.head?_dropWhile_not isJsSpace s
      rw [← hu, ha] at hna
      simp at hna
      simp [List.dropWhile_cons, hna]
  rw [h1, List.rdropWhile_idempotent]


/-! ## Decoding whole texts -/

theorem not_threeLinesEmptyMiddle (lines : List Str) (h : threeLinesEmptyMiddle lines = false) :
    ¬ ∃ a b, lines = [a, [], b] := by
  rintro ⟨a, b, rfl⟩
  simp [threeLinesEmptyMiddle] at h

theorem toMozillaFormat_global (sections : List Section)
    (hglobal : ∀ s ∈ sections, ∀ i, (s.get i).getD [] = []) :
    toMozillaFormat sections = "\n\n".toList.intercalate (sections.map (fun s => s.code)) := by
  unfold toMozillaFormat
  rw [join_eq_intercalate]
  congr 1
  apply List.map_congr_left
  intro s hs
  exact sectionToMozillaFormat_global s (hglobal s hs)

/-- The end-of-stylesheet handler on a text for which the parser fired no other event. -/
theorem doImport_only_endstylesheet (text : Str)
    (hreal : initFirstSection { code := trim text } = true)
    (hslip : ¬ ∃ a b, split '\n' (trim text) = [a, [], b]) :
    doImport text [.endstylesheet] =
      some { sectionStack := [{ sec := { code := trim text }, start := some ⟨1, 1⟩ }],
             errors := [],
             firstAddedCM := some { code := trim text },
             editors := [{ code := trim text }],
             shown := some [] } := by
  have hne : truthy (trim text) = true := by
    cases h : trim text with
    | nil => rw [h] at hreal; revert hreal; decide
    | cons _ _ => rfl
  obtain ⟨last, hlast⟩ : ∃ last, (split '\n' (trim text)).getLast? = some last := by
    cases h : (split '\n' (trim text)).getLast? with
    | none => exact absurd (List.getLast?_eq_none_iff.1 h) (split_ne_nil _ _)
    | some l => exact ⟨l, rfl⟩
  have hr := getRange_whole _ last hlast hslip
  rw [join_split] at hr
  simp only [doImport, trimNewLines_eq_trim, runEvents, handle, onEndStylesheet, hlast,
    initialState, List.getLast?_singleton, hr, setLast, List.dropLast_single, List.nil_append,
    forEachDoAddSection, doAddSection, trim_idem, hne, hreal]
  simp [join]

/-- C9 (amended): global sections are not separated again by decode. For every list of
sections whose condition sequences are all empty, the encoded text is their codes joined
by blank lines, and decoding it (the parser firing only the end-of-stylesheet event)
yields exactly one global section holding that whole text, trimmed, and no diagnostic —
provided the trimmed text is more than the namespace boilerplate and white space and
does not consist of exactly three lines with an empty middle line. For a single section
this is the round trip of its code, trimmed. -/
theorem C9_global_sections_decode (sections : List Section)
    (hglobal : ∀ s ∈ sections, ∀ i, (s.get i).getD [] = [])
    (hreal : initFirstSection { code := trim (toMozillaFormat sections) } = true)
    (hslip : threeLinesEmptyMiddle (split '\n' (trim (toMozillaFormat sections))) = false) :
    toMozillaFormat sections = "\n\n".toList.intercalate (sections.map (fun s => s.code)) ∧
    (doImport (toMozillaFormat sections) [.endstylesheet]).map
        (fun st => (st.editors, st.errors)) =
      some ([{ code := trim (toMozillaFormat sections) }], []) := by
  refine ⟨toMozillaFormat_global sections hglobal, ?_⟩
  rw [doImport_only_endstylesheet _ hreal (not_threeLinesEmptyMiddle _ hslip)]
  rfl

/-- Witness of C9 (amended): one global section, and two global sections of two lines
each, which come back as a single section. -/
theorem C9_global_sections_decode_witness :
    (doImport (toMozillaFormat [{ code := " a\x7b\x7d\n".toList }]) [.endstylesheet]).map
        (fun st => (st.editors, st.errors)) = some ([{ code := "a\x7b\x7d".toList }], []) ∧
    (doImport (toMozillaFormat [{ code := "a\x7b\x7d\nb\x7b\x7d".toList }, { code := "c\x7b\x7d".toList }])
        [.endstylesheet]).map (fun st => (st.editors, st.errors)) =
      some ([{ code := "a\x7b\x7d\nb\x7b\x7d\n\nc\x7b\x7d".toList }], []) :=
  ⟨(C9_global_sections_decode [{ code := " a\x7b\x7d\n".toList }]
      (by intro s hs i; simp at hs; subst hs; cases i <;> rfl) (by decide) (by decide)).2,
   (C9_global_sections_decode [{ code := "a\x7b\x7d\nb\x7b\x7d".toList }, { code := "c\x7b\x7d".toList }]
      (by intro s hs i; simp at hs; rcases hs with rfl | rfl <;> cases i <;> rfl)
      (by decide) (by decide)).2⟩

/-- Counterexample to C9 as stated: the two global sections `a{}` and `b{}` are encoded
as `a{}`, an empty line, `b{}` and decoded as one section, not two. -/
theorem C9_counterexample :
    toMozillaFormat [{ code := "a\x7b\x7d".toList }, { code := "b\x7b\x7d".toList }] = "a\x7b\x7d\n\nb\x7b\x7d".toList ∧
    (doImport (toMozillaFormat [{ code := "a\x7b\x7d".toList }, { code := "b\x7b\x7d".toList }])
        [.endstylesheet]).map (fun st => st.editors) = some [{ code := "a\x7b\x7d\nb\x7b\x7d".toList }] ∧
    ¬ ∃ st, doImport (toMozillaFormat [{ code := "a\x7b\x7d".toList }, { code := "b\x7b\x7d".toList }])
        [.endstylesheet] = some st ∧
      st.editors.map (fun s => s.code) = ["a\x7b\x7d".toList, "b\x7b\x7d".toList] := by
  refine ⟨by decide, by decide, ?_⟩
  rintro ⟨st, h1, h2⟩
  have h3 : (doImport (toMozillaFormat [{ code := "a\x7b\x7d".toList }, { code := "b\x7b\x7d".toList }])
      [.endstylesheet]).map (fun st => st.editors) = some [{ code := "a\x7b\x7d\nb\x7b\x7d".toList }] := by
    decide
  rw [h1] at h3
  simp only [Option.map_some', Option.some.injEq] at h3
  rw [h3] at h2
  revert h2
  decide

/-- C8 (code defect): the scoped section `domains=["example.com"]` with empty code is
encoded as an empty-bodied block, and decoding that text — construct reported at line 1
column 1, opening brace ending one column past the end of line 1, closing brace starting
at column 1 of line 3 — adds no section at all: the first-section test rejects the
section because its code is empty, although it has a condition, and the end handler then
raises because no section was added. With the code `body{color:red}` the same events
give back the section, as the claim says. -/
theorem C8_empty_scoped_section_lost :
    toMozillaFormat [{ code := [], domains := some ["example.com".toList] }] =
      "@-moz-document domain(\"example.com\") \x7b\n\n\x7d".toList ∧
    (runEvents (split '\n' (trimNewLines "@-moz-document domain(\"example.com\") \x7b\n\n\x7d".toList))
        [.startdocument 1 1 ["domain(\"example.com\")".toList] ⟨[⟨.LBRACE, 1, 38, 1, 39⟩], 1⟩,
         .enddocument ⟨[⟨.RBRACE, 3, 1, 3, 2⟩], 1⟩]
        initialState).map (fun st => (st.editors, st.errors)) = some ([], []) ∧
    doImport "@-moz-document domain(\"example.com\") \x7b\n\n\x7d".toList
        [.startdocument 1 1 ["domain(\"example.com\")".toList] ⟨[⟨.LBRACE, 1, 38, 1, 39⟩], 1⟩,
         .enddocument ⟨[⟨.RBRACE, 3, 1, 3, 2⟩], 1⟩,
         .endstylesheet] = none ∧
    (doImport
        (toMozillaFormat [{ code := "body\x7bcolor:red\x7d".toList, domains := some ["example.com".toList] }])
        [.startdocument 1 1 ["domain(\"example.com\")".toList] ⟨[⟨.LBRACE, 1, 38, 1, 39⟩], 1⟩,
         .enddocument ⟨[⟨.RBRACE, 3, 1, 3, 2⟩], 1⟩,
         .endstylesheet]).map (fun st => (st.editors, st.errors)) =
      some ([{ code := "body\x7bcolor:red\x7d".toList, domains := some ["example.com".toList] }], []) := by
  refine ⟨by decide, by decide, by decide, by decide⟩

/-- C10 (code defect): on the text `a{}`, empty line, `@-moz-document domain("x.com") { b{} }`,
empty line, `c{}` — construct reported at line 3 column 1, opening brace ending at line 3
column 33, closing brace starting at line 3 column 38 — decode yields three sections in
source order, but the code of the scoped section is `b{} }`: when both braces are on the
same line `getRange` includes the character at the end column, the closing brace. -/
theorem C10_same_line_block_keeps_brace :
    (doImport "a\x7b\x7d\n\n@-moz-document domain(\"x.com\") \x7b b\x7b\x7d \x7d\n\nc\x7b\x7d".toList
        [.startdocument 3 1 ["domain(\"x.com\")".toList] ⟨[⟨.LBRACE, 3, 32, 3, 33⟩], 1⟩,
         .enddocument ⟨[⟨.RBRACE, 3, 38, 3, 39⟩], 1⟩,
         .endstylesheet]).map (fun st => (st.editors, st.errors)) =
      some ([{ code := "a\x7b\x7d".toList },
             { code := "b\x7b\x7d \x7d".toList, domains := some ["x.com".toList] },
             { code := "c\x7b\x7d".toList }], []) ∧
    getRange (split '\n' "a\x7b\x7d\n\n@-moz-document domain(\"x.com\") \x7b b\x7b\x7d \x7d\n\nc\x7b\x7d".toList)
        ⟨3, 33⟩ ⟨3, 38⟩ = some " b\x7b\x7d \x7d".toList := by
  refine ⟨by decide, by decide⟩


/-! ## Searching with a pattern -/

theorem run_empty (x : MState) : Re.empty.run x = [x] := rfl

theorem run_eos (x : MState) : Re.eos.run x = if x.rest.isEmpty then [x] else [] := rfl

theorem run_alt (a b : Re) (x : MState) : (Re.alt a b).run x = a.run x ++ b.run x := rfl

theorem run_chr (d : Char) (x : MState) :
    (Re.chr d).run x =
      match x.rest with
      | c :: cs => if c = d then [{ x with pos := x.pos + 1, rest := cs }] else []
      | [] => [] := by
  obtain ⟨i, rest, caps⟩ := x
  cases rest with
  | nil => rfl
  | cons c cs => simp [Re.chr, Re.run]

/-- A literal text matches exactly when it is a prefix of the remaining input. -/
theorem run_lit (s : Str) : ∀ (x : MState),
    (Re.lit s).run x =
      if s.isPrefixOf x.rest then [⟨x.pos + s.length, x.rest.drop s.length, x.caps⟩] else [] := by
  induction s with
  | nil => intro x; simp [Re.lit, Re.seqs, Re.run]
  | cons c cs ih =>
    intro x
    obtain ⟨i, rest, caps⟩ := x
    cases cs with
    | nil =>
      simp only [Re.lit, List.map_cons, List.map_nil, Re.seqs]
      rw [run_chr]
      cases rest with
      | nil => simp [List.isPrefixOf]
      | cons d ds =>
        by_cases h : d = c
        · subst h; simp [List.isPrefixOf]
        · have h' : ¬ (c = d) := fun e => h e.symm
          simp [List.isPrefixOf, h, h']
    | cons c2 cs2 =>
      have hl : Re.lit (c :: c2 :: cs2) = .seq (Re.chr c) (Re.lit (c2 :: cs2)) := by
        simp [Re.lit, Re.seqs]
      rw [hl, run_seq, run_chr]
      cases rest with
      | nil => simp [List.isPrefixOf]
      | cons d ds =>
        by_cases h : d = c
        · subst h
          simp only [if_true, List.flatMap_cons, List.flatMap_nil, List.append_nil]
          rw [ih]
          simp [List.isPrefixOf, Nat.add_assoc, Nat.add_comm 1]
        · have h' : ¬ (c = d) := fun e => h e.symm
          simp [List.isPrefixOf, h, h']

/-- A successful search matched at its index: the pattern has a first alternative on the
input from that index on. -/
theorem execFrom_some (re : Re) : ∀ (rest : Str) (i : Nat) (m : Match),
    execFrom re rest i = some m →
      ∃ y, (re.run ⟨m.index, rest.drop (m.index - i), []⟩).head? = some y ∧
        m.stop = y.pos ∧ m.caps = y.caps ∧ i ≤ m.index ∧ m.index - i ≤ rest.length := by
  intro rest
  induction rest with
  | nil =>
    intro i m h
    simp only [execFrom] at h
    cases hr : (re.run ⟨i, [], []⟩).head? with
    | none => simp [hr] at h
    | some y =>
      simp [hr] at h; subst h
      exact ⟨y, by simpa using hr, rfl, rfl, le_refl _, by simp⟩
  | cons c cs ih =>
    intro i m h
    simp only [execFrom] at h
    cases hr : (re.run ⟨i, c :: cs, []⟩).head? with
    | none =>
      simp only [hr] at h
      obtain ⟨y, h1, h2, h3, h4, h5⟩ := ih (i + 1) m h
      refine ⟨y, ?_, h2, h3, by omega, by simp; omega⟩
      have e : m.index - i = (m.index - (i + 1)) + 1 := by omega
      rw [e, List.drop_succ_cons]
      exact h1
    | some y =>
      simp [hr] at h; subst h
      exact ⟨y, by simpa using hr, rfl, rfl, le_refl _, by simp⟩

/-- A search fails when the pattern has no alternative at any index. -/
theorem execFrom_none (re : Re) : ∀ (rest : Str) (i : Nat),
    (∀ k, k ≤ rest.length → re.run ⟨i + k, rest.drop k, []⟩ = []) →
      execFrom re rest i = none := by
  intro rest
  induction rest with
  | nil =>
    intro i h
    have := h 0 (by simp)
    simp only [Nat.add_zero, List.drop_zero] at this
    simp [execFrom, this]
  | cons c cs ih =>
    intro i h
    have h0 := h 0 (by simp)
    simp only [Nat.add_zero, List.drop_zero] at h0
    simp only [execFrom, h0, List.head?_nil]
    apply ih
    intro k hk
    have := h (k + 1) (by simpa using hk)
    simpa [Nat.add_assoc, Nat.add_comm 1] using this

theorem trailing_run_nil (p : Char → Bool) (i : Nat) :
    Re.run (.seq (Re.plus true (.cls p)) .eos) ⟨i, [], []⟩ = [] := by
  simp [Re.plus, Re.run]

/-- The suffix pattern ` at line \d.+$` at a given index: it matches exactly when the
input from there on is ` at line `, a digit and a non-empty text without line
terminator. -/
theorem run_reAtLine (i : Nat) (rest : Str) :
    (∀ d r, isDigitChar d = true → r ≠ [] → (∀ c ∈ r, isDot c = true) →
      rest = " at line ".toList ++ d :: r →
      (reAtLine.run ⟨i, rest, []⟩).head? = some ⟨i + rest.length, [], []⟩) ∧
    (reAtLine.run ⟨i, rest, []⟩ ≠ [] →
      ∃ d r, isDigitChar d = true ∧ r ≠ [] ∧ (∀ c ∈ r, isDot c = true) ∧
        rest = " at line ".toList ++ d :: r) := by
  have hre : reAtLine = .seq (Re.lit " at line ".toList)
      (.seq (.cls isDigitChar) (.seq (Re.plus true (.cls isDot)) .eos)) := rfl
  constructor
  · intro d r hd hr hdot hrest
    subst hrest
    obtain ⟨c, cs, rfl⟩ := List.exists_cons_of_ne_nil hr
    rw [hre, run_seq, run_lit]
    have hp : (" at line ".toList).isPrefixOf (" at line ".toList ++ d :: c :: cs) = true := by
      rw [List.isPrefixOf_iff_prefix]; exact List.prefix_append _ _
    simp only [hp, if_true, List.flatMap_cons, List.flatMap_nil, List.append_nil,
      List.drop_left']
    rw [run_seq, run_cls_cons, if_pos hd, List.flatMap_cons,
      List.flatMap_nil, List.append_nil]
    have := (trailing_run isDot (i + " at line ".toList.length + 1) c cs).1 hdot
    rw [this]
    simp [Nat.add_assoc, Nat.add_comm, Nat.add_left_comm]
  · intro hne
    rw [hre, run_seq, run_lit] at hne
    by_cases hp : (" at line ".toList).isPrefixOf rest = true
    · obtain ⟨t, rfl⟩ := List.isPrefixOf_iff_prefix.1 hp
      simp only [hp, if_true, List.flatMap_cons, List.flatMap_nil, List.append_nil] at hne
      rw [List.drop_left' rfl, run_seq] at hne
      cases t with
      | nil => simp [Re.run] at hne
      | cons d r =>
        rw [run_cls_cons] at hne
        by_cases hd : isDigitChar d = true
        · rw [if_pos hd, List.flatMap_cons, List.flatMap_nil, List.append_nil] at hne
          cases r with
          | nil => exact absurd (trailing_run_nil _ _) hne
          | cons c cs =>
            by_cases hall : ∀ e ∈ c :: cs, isDot e = true
            · exact ⟨d, c :: cs, hd, by simp, hall, rfl⟩
            · have := (trailing_run isDot (i + " at line ".toList.length + 1) c cs).2 hall
              rw [List.head?_eq_none_iff] at this
              exact absurd this hne
        · rw [if_neg hd] at hne
          simp at hne
    · rw [if_neg hp] at hne
      simp at hne

/-! ## The suffix of parser messages -/

theorem startsAtLineDigit_iff (t : Str) :
    startsAtLineDigit t = true ↔
      ∃ d r, isDigitChar d = true ∧ t = " at line ".toList ++ d :: r := by
  constructor
  · intro h
    simp only [startsAtLineDigit, Bool.and_eq_true] at h
    obtain ⟨h1, h2⟩ := h
    obtain ⟨u, rfl⟩ := List.isPrefixOf_iff_prefix.1 h1
    rw [show (9 : Nat) = (" at line ".toList).length from rfl, List.drop_left] at h2
    cases u with
    | nil => simp at h2
    | cons d r => exact ⟨d, r, by simpa using h2, rfl⟩
  · rintro ⟨d, r, hd, rfl⟩
    simp only [startsAtLineDigit, Bool.and_eq_true]
    refine ⟨List.isPrefixOf_iff_prefix.2 (List.prefix_append _ _), ?_⟩
    rw [show (9 : Nat) = (" at line ".toList).length from rfl, List.drop_left]
    simpa using hd

/-- An occurrence of ` at line ` and a digit cannot start inside a text without such an
occurrence and end in a following ` at line `. -/
theorem startsAtLineDigit_append (q : Str) (hq : q ≠ []) (hs : startsAtLineDigit q = false)
    (u : Str) : startsAtLineDigit (q ++ (" at line ".toList ++ u)) = false := by
  by_contra hcon
  have hcon' : startsAtLineDigit (q ++ (" at line ".toList ++ u)) = true := by
    simpa using hcon
  obtain ⟨d', r', hd', h⟩ := (startsAtLineDigit_iff _).1 hcon'
  have h' : q ++ (" at line ".toList ++ u) = (" at line ".toList ++ [d']) ++ r' := by
    rw [h]; simp
  rcases List.append_eq_append_iff.1 h' with ⟨a', h1, h2⟩ | ⟨c', h1, _⟩
  · -- the occurrence ends inside the following ` at line `
    have hlen : q.length + a'.length = 10 := by
      have := congrArg List.length h1
      simpa using this.symm
    cases a' with
    | nil =>
      have : startsAtLineDigit q = true :=
        (startsAtLineDigit_iff q).2 ⟨d', [], hd', by simpa using h1.symm⟩
      rw [hs] at this; exact Bool.noConfusion this
    | cons x xs =>
      have hqpos : 0 < q.length := List.length_pos.2 hq
      have hlast : (x :: xs).getLast (by simp) = d' := by
        have := congrArg List.getLast? h1
        simp only [List.getLast?_append, List.getLast?_singleton, Option.or_some,
          List.getLast?_cons_cons] at this
        rw [List.getLast?_eq_getLast _ (by simp)] at this
        simpa using this.symm
      have hpre : (x :: xs) <+: " at line ".toList := by
        have hp1 : (x :: xs) <+: (" at line ".toList ++ u) := ⟨r', h2.symm⟩
        have hp2 : " at line ".toList <+: (" at line ".toList ++ u) := List.prefix_append _ _
        have hle : (x :: xs).length ≤ (" at line ".toList).length := by
          simp only [List.length_cons] at hlen ⊢
          have : (" at line ".toList).length = 9 := rfl
          omega
        exact List.prefix_of_prefix_length_le hp1 hp2 hle
      have hmem : d' ∈ " at line ".toList := by
        apply hpre.subset
        rw [← hlast]
        exact List.getLast_mem _
      have : ∀ c ∈ " at line ".toList, isDigitChar c = false := by decide
      rw [this d' hmem] at hd'
      exact Bool.noConfusion hd'
  · have : startsAtLineDigit q = true :=
      (startsAtLineDigit_iff q).2 ⟨d', c', hd', by simpa using h1⟩
    rw [hs] at this; exact Bool.noConfusion this

/-- The search of ` at line \d.+$` in a message that ends with such a suffix after a text
without ` at line ` and a digit: the match is the suffix. -/
theorem execFrom_reAtLine_found (d : Char) (r : Str) (hd : isDigitChar d = true) (hr : r ≠ [])
    (hdot : ∀ c ∈ r, isDot c = true) :
    ∀ (p : Str) (i : Nat), hasAtLineDigit p = false →
      execFrom reAtLine (p ++ (" at line ".toList ++ d :: r)) i =
        some ⟨i + p.length, i + p.length + (" at line ".toList ++ d :: r).length, []⟩ := by
  intro p
  induction p with
  | nil =>
    intro i _
    have := (run_reAtLine i (" at line ".toList ++ d :: r)).1 d r hd hr hdot rfl
    have h := execFrom_hit reAtLine _ i _ this
    simpa using h
  | cons c q ih =>
    intro i hp
    simp only [hasAtLineDigit, Bool.or_eq_false_iff] at hp
    have hrun : reAtLine.run ⟨i, (c :: q) ++ (" at line ".toList ++ d :: r), []⟩ = [] := by
      by_contra hne
      obtain ⟨d', r', hd', _, _, hrest⟩ := (run_reAtLine i _).2 hne
      have h1 : startsAtLineDigit ((c :: q) ++ (" at line ".toList ++ d :: r)) = true :=
        (startsAtLineDigit_iff _).2 ⟨d', r', hd', hrest⟩
      rw [startsAtLineDigit_append (c :: q) (by simp) hp.1] at h1
      exact Bool.noConfusion h1
    have hstep : execFrom reAtLine ((c :: q) ++ (" at line ".toList ++ d :: r)) i =
        execFrom reAtLine (q ++ (" at line ".toList ++ d :: r)) (i + 1) := by
      simp only [List.cons_append] at hrun ⊢
      simp only [execFrom, hrun, List.head?_nil]
    rw [hstep, ih (i + 1) hp.2]
    simp [Nat.add_assoc, Nat.add_comm 1]

/-- The search of ` at line \d.+$` fails in a message without such a suffix. -/
theorem execFrom_reAtLine_none : ∀ (message : Str) (i : Nat), hasAtLineSuffix message = false →
    execFrom reAtLine message i = none := by
  intro message
  induction message with
  | nil =>
    intro i _
    have : reAtLine.run ⟨i, [], []⟩ = [] := by
      by_contra hne
      obtain ⟨d', r', _, _, _, hrest⟩ := (run_reAtLine i _).2 hne
      simp at hrest
    simp [execFrom, this]
  | cons c cs ih =>
    intro i h
    simp only [hasAtLineSuffix, Bool.or_eq_false_iff] at h
    have hrun : reAtLine.run ⟨i, c :: cs, []⟩ = [] := by
      by_contra hne
      obtain ⟨d', r', hd', hr', hdot', hrest⟩ := (run_reAtLine i _).2 hne
      have : isAtLineSuffix (c :: cs) = true := by
        rw [hrest]
        simp only [isAtLineSuffix, Bool.and_eq_true]
        refine ⟨List.isPrefixOf_iff_prefix.2 (List.prefix_append _ _), ?_⟩
        rw [show (9 : Nat) = (" at line ".toList).length from rfl, List.drop_left]
        simp only [Bool.and_eq_true, List.all_eq_true]
        refine ⟨⟨hd', ?_⟩, hdot'⟩
        cases r' with
        | nil => exact absurd rfl hr'
        | cons _ _ => rfl
      rw [h.1] at this
      exact Bool.noConfusion this
    simp only [execFrom, hrun, List.head?_nil]
    exact ih (i + 1) h.2

/-- C14: the error listener appends exactly one diagnostic. When the message is a text
`p` without ` at line ` and a digit, followed by ` at line `, a digit and at least one
more character other than a line terminator (further digits of the line number, or a
remainder such as the `, col M.` with which the messages of the parser go on), the
diagnostic is the position, a blank and `p`: the suffix is stripped. When the message has
no suffix of that form, the diagnostic carries the message unchanged. -/
theorem C14_error_suffix_stripped (st : ImportState) (line col : Int) :
    (∀ (p : Str) (d : Char) (r : Str), hasAtLineDigit p = false → isDigitChar d = true →
      r ≠ [] → (∀ c ∈ r, isDot c = true) →
      onError st line col (p ++ " at line ".toList ++ d :: r) =
        { st with errors := st.errors ++
            [numToStr line ++ ":".toList ++ numToStr col ++ " ".toList ++ p] }) ∧
    (∀ message : Str, hasAtLineSuffix message = false →
      onError st line col message =
        { st with errors := st.errors ++
            [numToStr line ++ ":".toList ++ numToStr col ++ " ".toList ++ message] }) ∧
    (∀ message : Str, (onError st line col message).errors.length = st.errors.length + 1) := by
  refine ⟨?_, ?_, fun message => by simp [onError]⟩
  · intro p d r hp hd hr hdot
    have h := execFrom_reAtLine_found d r hd hr hdot p 0 hp
    have hm : p ++ " at line ".toList ++ d :: r = p ++ (" at line ".toList ++ d :: r) := by
      simp
    simp only [onError, replaceFirst, exec]
    rw [hm, h]
    simp only [Nat.zero_add]
    rw [List.take_left' rfl, List.drop_eq_nil_of_le (by simp)]
    simp
  · intro message h
    simp only [onError, replaceFirst, exec, execFrom_reAtLine_none message 0 h]

/-- Witness of C14: a message of the parser, and a message without suffix. -/
theorem C14_error_suffix_stripped_witness :
    onError initialState 3 4 "Expected RBRACE at line 3, col 4.".toList =
      { initialState with errors := ["3:4 Expected RBRACE".toList] } ∧
    onError initialState 3 4 "Unexpected token".toList =
      { initialState with errors := ["3:4 Unexpected token".toList] } :=
  ⟨(C14_error_suffix_stripped initialState 3 4).1 "Expected RBRACE".toList '3' ", col 4.".toList
      (by decide) (by decide) (by decide) (by decide),
   (C14_error_suffix_stripped initialState 3 4).2.1 "Unexpected token".toList (by decide)⟩

/-! ## The keyword test -/

theorem run_group_lit_eos (n : Nat) (k : Str) (name : Str) :
    ((Re.lit k).run ⟨0, name, []⟩).flatMap
        (fun y => Re.eos.run
          { y with caps := (n, name.take (y.pos - 0)) :: y.caps }) =
      if name = k then [⟨k.length, [], [(n, k)]⟩] else [] := by
  rw [run_lit]
  by_cases hp : k.isPrefixOf name = true
  · obtain ⟨t, rfl⟩ := List.isPrefixOf_iff_prefix.1 hp
    simp only [hp, if_true, List.flatMap_cons, List.flatMap_nil, List.append_nil, run_eos,
      List.drop_left', Nat.zero_add, Nat.sub_zero, List.take_left']
    cases t with
    | nil => simp
    | cons c cs => simp
  · have hne : ¬ (name = k) := by
      intro h; subst h
      exact hp (List.isPrefixOf_iff_prefix.2 (List.prefix_refl _))
    simp [hp, hne]

/-- The test `/^(url|url-prefix|domain|regexp)$/` accepts exactly the four keywords. -/
theorem test_reCssKeyword (name : Str) :
    test reCssKeyword name = decide (name ∈ cssKeywords) := by
  have hre : reCssKeyword = .seq .bos (.seq (.group 1 (.alt (Re.lit "url".toList)
      (.alt (Re.lit "url-prefix".toList) (.alt (Re.lit "domain".toList)
        (Re.lit "regexp".toList))))) .eos) := rfl
  have hrun : reCssKeyword.run ⟨0, name, []⟩ =
      (if name = "url".toList then [⟨3, [], [(1, "url".toList)]⟩] else []) ++
      ((if name = "url-prefix".toList then [⟨10, [], [(1, "url-prefix".toList)]⟩] else []) ++
      ((if name = "domain".toList then [⟨6, [], [(1, "domain".toList)]⟩] else []) ++
      (if name = "regexp".toList then [⟨6, [], [(1, "regexp".toList)]⟩] else []))) := by
    rw [hre, run_seq, run_bos_zero, List.flatMap_cons, List.flatMap_nil, List.append_nil,
      run_seq, run_group, List.flatMap_map, run_alt, run_alt, run_alt, List.flatMap_append,
      List.flatMap_append, List.flatMap_append]
    have h1 := run_group_lit_eos 1 "url".toList name
    have h2 := run_group_lit_eos 1 "url-prefix".toList name
    have h3 := run_group_lit_eos 1 "domain".toList name
    have h4 := run_group_lit_eos 1 "regexp".toList name
    simp only [Nat.sub_zero] at h1 h2 h3 h4 ⊢
    rw [h1, h2, h3, h4]
    rfl
  by_cases hmem : name ∈ cssKeywords
  · have hd : decide (name ∈ cssKeywords) = true := by simpa using hmem
    rw [hd]
    simp only [cssKeywords, List.mem_cons, List.mem_singleton, List.not_mem_nil, or_false] at hmem
    rcases hmem with rfl | rfl | rfl | rfl <;> decide
  · have hd : decide (name ∈ cssKeywords) = false := by simpa using hmem
    rw [hd]
    simp only [cssKeywords, List.mem_cons, List.mem_singleton, List.not_mem_nil, or_false,
      not_or] at hmem
    obtain ⟨n1, n2, n3, n4⟩ := hmem
    have hnil : reCssKeyword.run ⟨0, name, []⟩ = [] := by
      rw [hrun, if_neg n1, if_neg n2, if_neg n3, if_neg n4]; rfl
    have : exec reCssKeyword name = none := by
      unfold exec
      cases name with
      | nil => simp [execFrom, hnil]
      | cons c cs =>
        simp only [execFrom, hnil, List.head?_nil]
        rw [hre]
        exact execFrom_bos_none _ _ _ (by omega)
    simp [test, this]

/-! ## The function loop and the start handler -/

theorem lookup_CssToProperty (name : Str) :
    (name ∈ cssKeywords → ∃ i, CssToProperty.lookup name = some i) ∧
    (name ∉ cssKeywords → CssToProperty.lookup name = none) := by
  constructor
  · intro h
    simp only [cssKeywords, List.mem_cons, List.mem_singleton, List.not_mem_nil, or_false] at h
    rcases h with rfl | rfl | rfl | rfl
    · exact ⟨.urls, by decide⟩
    · exact ⟨.urlPrefixes, by decide⟩
    · exact ⟨.domains, by decide⟩
    · exact ⟨.regexps, by decide⟩
  · intro h
    simp only [cssKeywords, List.mem_cons, List.mem_singleton, List.not_mem_nil, or_false,
      not_or] at h
    obtain ⟨n1, n2, n3, n4⟩ := h
    have b1 : (name == "url".toList) = false := by simpa using n1
    have b2 : (name == "url-prefix".toList) = false := by simpa using n2
    have b3 : (name == "domain".toList) = false := by simpa using n3
    have b4 : (name == "regexp".toList) = false := by simpa using n4
    simp only [CssToProperty, List.lookup, b1, b2, b3, b4]

theorem Section.get_set (s : Section) (i j : Property) (v : List Str) :
    (s.set j v).get i = if i = j then some v else s.get i := by
  cases i <;> cases j <;> simp [Section.get, Section.set]

theorem Section.code_set (s : Section) (j : Property) (v : List Str) :
    (s.set j v).code = s.code := by
  cases j <;> rfl

/-- One turn of the function loop: either the text is not a valid call, and exactly one
diagnostic is appended while the section is unchanged, or it is a valid call of one
kind, and its value is appended to the sequence of that kind while the diagnostics are
unchanged. -/
theorem processFunction_cases (f : Str) :
    (∃ name, invalidName f = some name ∧ (∀ i, validValue i f = none) ∧
      ∀ (line ecol : Int) (acc : List Str × Section),
        processFunction line ecol acc f =
          (acc.1 ++ [invalidFunctionMessage line (ecol + 1) name], acc.2)) ∨
    (∃ i₀ v, invalidName f = none ∧ validValue i₀ f = some v ∧
      (∀ i, i ≠ i₀ → validValue i f = none) ∧
      ∀ (line ecol : Int) (acc : List Str × Section),
        processFunction line ecol acc f =
          (acc.1, acc.2.set i₀ ((acc.2.get i₀).getD [] ++ [v]))) := by
  cases hm : (if truthy f then exec reCall f else none) with
  | none =>
    left
    have hp : parseCall f = none := by
      unfold parseCall
      by_cases ht : truthy f = true
      · simp only [ht, if_true] at hm ⊢
        rw [hm]; rfl
      · simp [ht]
    refine ⟨f, by simp [invalidName, hp], fun i => by simp [validValue, hp], ?_⟩
    intro line ecol acc
    have hf : (if truthy f = true then f else []) = f := by
      by_cases ht : truthy f = true
      · simp [ht]
      · cases f with
        | nil => simp
        | cons _ _ => simp [truthy] at ht
    simp only [processFunction, hm, hf, invalidFunctionMessage]
  | some m =>
    have ht : truthy f = true := by
      by_cases ht : truthy f = true
      · exact ht
      · simp [ht] at hm
    have he : exec reCall f = some m := by simpa [ht] using hm
    have hp : parseCall f = some ((m.group 1).getD [], (m.group 3).getD []) := by
      simp [parseCall, ht, he]
    by_cases hk : (m.group 1).getD [] ∈ cssKeywords
    · right
      obtain ⟨i₀, hi₀⟩ := (lookup_CssToProperty _).1 hk
      have htest : test reCssKeyword ((m.group 1).getD []) = true := by
        rw [test_reCssKeyword]; simpa using hk
      refine ⟨i₀, (if i₀ = .regexps then
          replaceAll reDoubleBackslash "\\".toList ((m.group 3).getD []) else (m.group 3).getD []),
        by simp [invalidName, hp, hk], ?_, ?_, ?_⟩
      · simp only [validValue, hp, hi₀, if_true]
      · intro i hi
        have : ¬ (some i₀ = some i) := fun h => hi (Option.some.inj h).symm
        simp [validValue, hp, hi₀, this]
      · intro line ecol acc
        simp only [processFunction, hm, htest, Bool.not_true, Bool.false_eq_true, if_false, hi₀]
        by_cases hr : i₀ = .regexps <;> simp [hr]
    · left
      have htest : test reCssKeyword ((m.group 1).getD []) = false := by
        rw [test_reCssKeyword]; simpa using hk
      have hl := (lookup_CssToProperty _).2 hk
      refine ⟨(m.group 1).getD [], by simp [invalidName, hp, hk],
        fun i => by simp [validValue, hp, hl], ?_⟩
      intro line ecol acc
      simp only [processFunction, hm, htest, Bool.not_false, if_true, invalidFunctionMessage]

/-- The function loop of the start handler over all function texts: the diagnostics of
the invalid ones are appended in argument order, the values of the valid ones are
appended to the sequences of their kinds in argument order, the code is untouched. -/
theorem functions_loop (line ecol : Int) : ∀ (functions : List Str) (acc : List Str × Section),
    (functions.foldl (processFunction line ecol) acc).1 =
      acc.1 ++ (functions.filterMap invalidName).map (invalidFunctionMessage line (ecol + 1)) ∧
    (functions.foldl (processFunction line ecol) acc).2.code = acc.2.code ∧
    ∀ i, (functions.foldl (processFunction line ecol) acc).2.get i =
      if functions.filterMap (validValue i) = [] then acc.2.get i
      else some ((acc.2.get i).getD [] ++ functions.filterMap (validValue i)) := by
  intro functions
  induction functions with
  | nil => intro acc; simp
  | cons f fs ih =>
    intro acc
    rw [List.foldl_cons]
    obtain ⟨h1, h2, h3⟩ := ih (processFunction line ecol acc f)
    rcases processFunction_cases f with ⟨name, hn, hv, hp⟩ | ⟨i₀, v, hn, hv, hv', hp⟩
    · rw [hp line ecol acc] at h1 h2 h3 ⊢
      refine ⟨?_, h2, ?_⟩
      · rw [h1]; simp [List.filterMap_cons, hn]
      · intro i
        rw [h3 i]
        simp [List.filterMap_cons, hv i]
    · rw [hp line ecol acc] at h1 h2 h3 ⊢
      refine ⟨?_, ?_, ?_⟩
      · rw [h1]; simp [List.filterMap_cons, hn]
      · rw [h2, Section.code_set]
      · intro i
        rw [h3 i, Section.get_set]
        by_cases hi : i = i₀
        · subst hi
          simp only [if_true, List.filterMap_cons, hv, Option.getD_some]
          by_cases hfs : fs.filterMap (validValue i) = []
          · simp [hfs]
          · simp [hfs]
        · simp only [hi, if_false, List.filterMap_cons, hv' i hi]

theorem doAddSection_frame (st : ImportState) (sec : Section) :
    (doAddSection st sec).1.errors = st.errors ∧
    (doAddSection st sec).1.sectionStack = st.sectionStack ∧
    (doAddSection st sec).1.shown = st.shown := by
  unfold doAddSection
  simp only
  split
  · exact ⟨rfl, rfl, rfl⟩
  · split <;> exact ⟨rfl, rfl, rfl⟩

theorem length_setLast (stack : List Frame) (f : Frame) (h : stack ≠ []) :
    (setLast stack f).length = stack.length := by
  have := List.length_pos.2 h
  simp [setLast]
  omega

theorem flushOuterText_frame (st : ImportState) (last : Frame) (text : Str)
    (h : st.sectionStack ≠ []) :
    (flushOuterText st last text).errors = st.errors ∧
    (flushOuterText st last text).sectionStack.length = st.sectionStack.length := by
  unfold flushOuterText
  split
  · obtain ⟨h1, h2, _⟩ := doAddSection_frame st { last.sec with code := text }
    refine ⟨h1, ?_⟩
    simp only
    rw [length_setLast _ _ (by rw [h2]; exact h), h2]
  · exact ⟨rfl, rfl⟩

/-- The start handler, once its reads have succeeded: the outer text is split and
flushed, the functions are processed, and the new section is pushed. -/
theorem onStartDocument_eq (lines : List Str) (st : ImportState) (line col : Int)
    (functions : List Str) (parser : TokenStream) (last : Frame) (lastStart : Pos)
    (outerText : Str) (lbraceEnd : Option Pos)
    (h1 : st.sectionStack.getLast? = some last) (h2 : last.start = some lastStart)
    (h3 : getRange lines lastStart ⟨line, col - 1⟩ = some outerText)
    (h4 : backtrackTo parser .LBRACE .stop = some lbraceEnd) :
    onStartDocument lines st line col functions parser =
      some { flushOuterText st last (splitOuterText outerText).2 with
        errors := (functions.foldl (processFunction line (col - 1))
          ((flushOuterText st last (splitOuterText outerText).2).errors,
            { code := (splitOuterText outerText).1 })).1,
        sectionStack := (flushOuterText st last (splitOuterText outerText).2).sectionStack ++
          [{ sec := (functions.foldl (processFunction line (col - 1))
              ((flushOuterText st last (splitOuterText outerText).2).errors,
                { code := (splitOuterText outerText).1 })).2,
             start := lbraceEnd }] } := by
  unfold onStartDocument splitOuterText flushOuterText
  simp only [h1, h2, h3, h4]

/-- The reads of the start handler that must succeed for it to return. -/
theorem onStartDocument_some (lines : List Str) (st : ImportState) (line col : Int)
    (functions : List Str) (parser : TokenStream) :
    (onStartDocument lines st line col functions parser).isSome = true ↔
      ∃ last lastStart outerText lbraceEnd,
        st.sectionStack.getLast? = some last ∧ last.start = some lastStart ∧
        getRange lines lastStart ⟨line, col - 1⟩ = some outerText ∧
        backtrackTo parser .LBRACE .stop = some lbraceEnd := by
  constructor
  · intro h
    cases h1 : st.sectionStack.getLast? with
    | none => simp [onStartDocument, h1] at h
    | some last =>
      cases h2 : last.start with
      | none => simp [onStartDocument, h1, h2] at h
      | some lastStart =>
        cases h3 : getRange lines lastStart ⟨line, col - 1⟩ with
        | none => simp [onStartDocument, h1, h2, h3] at h
        | some outerText =>
          cases h4 : backtrackTo parser .LBRACE .stop with
          | none => simp [onStartDocument, h1, h2, h3, h4] at h
          | some lbraceEnd => exact ⟨last, lastStart, outerText, lbraceEnd, rfl, h2, h3, rfl⟩
  · rintro ⟨last, lastStart, outerText, lbraceEnd, h1, h2, h3, h4⟩
    rw [onStartDocument_eq lines st line col functions parser last lastStart outerText lbraceEnd
      h1 h2 h3 h4]
    rfl

/-! ## White space, gap comments and the first-section test -/

theorem trim_eq (s : Str) : trim s = (s.dropWhile isJsSpace).rdropWhile isJsSpace := rfl

theorem trim_of_all_space (s : Str) (h : ∀ c ∈ s, isJsSpace c = true) : trim s = [] := by
  have : s.dropWhile isJsSpace = [] := by
    rw [List.dropWhile_eq_nil_iff]; exact h
  rw [trim_eq, this]; rfl

theorem dropWhile_append_of_all (p : Char → Bool) (ws t : Str) (h : ∀ c ∈ ws, p c = true) :
    (ws ++ t).dropWhile p = t.dropWhile p := by
  induction ws with
  | nil => rfl
  | cons a ws ih =>
    have ha : p a = true := h a (by simp)
    simp only [List.cons_append, List.dropWhile_cons, ha, if_true]
    exact ih (fun c hc => h c (by simp [hc]))

theorem rdropWhile_append_of_all (p : Char → Bool) (t ws : Str) (h : ∀ c ∈ ws, p c = true) :
    (t ++ ws).rdropWhile p = t.rdropWhile p := by
  unfold List.rdropWhile
  rw [List.reverse_append, dropWhile_append_of_all p ws.reverse t.reverse
    (fun c hc => h c (List.mem_reverse.1 hc))]

/-- Trimming removes the white space around a text that starts and ends with other
characters. -/
theorem trim_surrounded (ws1 core ws2 : Str) (h1 : ∀ c ∈ ws1, isJsSpace c = true)
    (h2 : ∀ c ∈ ws2, isJsSpace c = true)
    (hhead : ∀ c, core.head? = some c → isJsSpace c = false)
    (hlast : ∀ c, core.getLast? = some c → isJsSpace c = false) :
    trim (ws1 ++ core ++ ws2) = core := by
  rw [trim_eq, List.append_assoc, dropWhile_append_of_all _ _ _ h1]
  cases core with
  | nil =>
    rw [List.nil_append]
    have : ws2.dropWhile isJsSpace = [] := by
      rw [List.dropWhile_eq_nil_iff]; exact h2
    rw [this]; rfl
  | cons a t =>
    have ha : isJsSpace a = false := hhead a rfl
    rw [List.cons_append, List.dropWhile_cons, ha]
    simp only [Bool.false_eq_true, if_false]
    rw [← List.cons_append, rdropWhile_append_of_all _ _ _ h2]
    rcases List.eq_nil_or_concat (a :: t) with h | ⟨m, l, h⟩
    · simp at h
    · rw [h, List.concat_eq_append]
      have hl : isJsSpace l = false := by
        apply hlast
        rw [h, List.concat_eq_append]; simp
      rw [List.rdropWhile_concat_neg _ _ _ (by simp [hl])]

theorem mem_dropWhile_of_not (p : Char → Bool) (c : Char) (hc : p c = false) :
    ∀ s : Str, c ∈ s → c ∈ s.dropWhile p := by
  intro s
  induction s with
  | nil => intro h; simp at h
  | cons a t ih =>
    intro h
    by_cases ha : p a = true
    · simp only [List.dropWhile_cons, ha, if_true]
      simp only [List.mem_cons] at h
      rcases h with rfl | h
      · rw [hc] at ha; exact Bool.noConfusion ha
      · exact ih h
    · simp only [List.dropWhile_cons, ha]
      exact h

/-- A character that is not white space stays in the trimmed text. -/
theorem mem_trim (c : Char) (hc : isJsSpace c = false) (s : Str) (h : c ∈ s) : c ∈ trim s := by
  rw [trim_eq]
  unfold List.rdropWhile
  rw [List.mem_reverse]
  apply mem_dropWhile_of_not _ _ hc
  rw [List.mem_reverse]
  exact mem_dropWhile_of_not _ _ hc _ h

theorem truthy_of_mem (c : Char) (s : Str) (h : c ∈ s) : truthy s = true := by
  cases s with
  | nil => simp at h
  | cons _ _ => rfl

/-- The gap-comment pattern has no alternative at an index where the input does not start
with a slash and a star. -/
theorem run_reGapComment_nil (x : MState)
    (h : ∀ t, x.rest ≠ '/' :: '*' :: t) : reGapComment.run x = [] := by
  have hre : reGapComment = .seq (.group 1 (.seq (Re.chr '/') (.seq (Re.chr '*')
      (.seq (.star false (.cls isAnyChar)) (.seq (Re.chr '*') (Re.chr '/'))))))
      (.seq (.star true (.cls isSpaceOrNl)) .eos) := rfl
  obtain ⟨i, rest, caps⟩ := x
  rw [hre, run_seq, run_group, run_seq]
  cases rest with
  | nil => simp [run_chr]
  | cons a t =>
    rw [run_chr_cons]
    by_cases ha : a = '/'
    · subst ha
      rw [if_pos rfl, List.flatMap_cons, List.flatMap_nil, List.append_nil, run_seq]
      cases t with
      | nil => simp [run_chr]
      | cons b u =>
        rw [run_chr_cons]
        by_cases hb : b = '*'
        · subst hb
          exact absurd rfl (h u)
        · simp [hb]
    · simp [ha]

/-- A text in which the gap-comment pattern finds a match contains a star. -/
theorem mem_star_of_gapComment (s : Str) (g : Match) (h : exec reGapComment s = some g) :
    '*' ∈ s := by
  obtain ⟨y, hy, _, _, _, _⟩ := execFrom_some reGapComment s 0 g h
  have hne : reGapComment.run ⟨g.index, s.drop (g.index - 0), []⟩ ≠ [] := by
    intro h0; rw [h0] at hy; simp at hy
  by_contra hmem
  apply hne
  apply run_reGapComment_nil
  intro t ht
  apply hmem
  have : '*' ∈ s.drop (g.index - 0) := by
    simp only at ht
    rw [ht]; simp
  exact List.mem_of_mem_drop this

/-- A text made of white space has no gap comment. -/
theorem exec_reGapComment_of_all_space (s : Str) (h : ∀ c ∈ s, isJsSpace c = true) :
    exec reGapComment s = none := by
  cases hg : exec reGapComment s with
  | none => rfl
  | some g =>
    have h1 := h '*' (mem_star_of_gapComment s g hg)
    have h2 : isJsSpace '*' = false := by decide
    rw [h2] at h1
    exact Bool.noConfusion h1

/-- Removing the first occurrence of a text keeps every character that does not occur
in that text. -/
theorem mem_replaceStr (pat : Str) (c : Char) (hc : c ∉ pat) (s : Str) (h : c ∈ s) :
    c ∈ replaceStr pat [] s := by
  unfold replaceStr replaceFirst
  cases hm : exec (Re.lit pat) s with
  | none => exact h
  | some m =>
    obtain ⟨y, hy, hstop, _, _, hle⟩ := execFrom_some (Re.lit pat) s 0 m hm
    simp only [Nat.sub_zero] at hy hle
    rw [run_lit] at hy
    by_cases hp : pat.isPrefixOf (s.drop m.index) = true
    · simp only [hp, if_true, List.head?_cons, Option.some.injEq] at hy
      obtain ⟨u, hu⟩ := List.isPrefixOf_iff_prefix.1 hp
      have hpos : m.stop = m.index + pat.length := by rw [hstop, ← hy]
      have hs : s = s.take m.index ++ (pat ++ u) := by
        rw [hu, List.take_append_drop]
      have hdrop : s.drop m.stop = u := by
        rw [hpos, ← List.drop_drop, ← hu, List.drop_left]
      simp only [List.append_nil, hdrop]
      rw [hs] at h
      simp only [List.mem_append] at h ⊢
      rcases h with h | h | h
      · exact Or.inl h
      · exact absurd h hc
      · exact Or.inr h
    · simp [hp] at hy

/-- The first-section test accepts every section whose code contains a star. -/
theorem initFirstSection_of_star (sec : Section) (h : '*' ∈ sec.code) :
    initFirstSection sec = true := by
  unfold initFirstSection reAnySpace
  rw [replaceAll_cls]
  apply truthy_of_mem '*'
  rw [List.mem_flatMap]
  refine ⟨'*', mem_replaceStr namespaceBoilerplate '*' (by decide) _ h, ?_⟩
  have : isSpaceOrNl '*' = false := by decide
  simp [this]

/-! ## Decoding: claims on whole runs -/

/-- The end-of-stylesheet handler raises on every text that is blank or holds only the
namespace boilerplate, when the parser fired no other event: no section is accepted and
`makeSectionVisible(firstAddedCM)` is called with `undefined`. -/
theorem doImport_only_endstylesheet_raises (text : Str)
    (hblank : initFirstSection { code := trim text } = false)
    (hslip : ¬ ∃ a b, split '\n' (trim text) = [a, [], b]) :
    doImport text [.endstylesheet] = none := by
  obtain ⟨last, hlast⟩ : ∃ last, (split '\n' (trim text)).getLast? = some last := by
    cases h : (split '\n' (trim text)).getLast? with
    | none => exact absurd (List.getLast?_eq_none_iff.1 h) (split_ne_nil _ _)
    | some l => exact ⟨l, rfl⟩
  have hr := getRange_whole _ last hlast hslip
  rw [join_split] at hr
  simp only [doImport, trimNewLines_eq_trim, runEvents, handle, onEndStylesheet, hlast,
    initialState, List.getLast?_singleton, hr, setLast, List.dropLast_single, List.nil_append,
    forEachDoAddSection, doAddSection, trim_idem, hblank]
  by_cases ht : truthy (trim text) = true <;> simp [ht]

/-- C11 (code defect): on the empty text, with only the end-of-stylesheet event, the
single line is empty, the root section gets the empty code and is not added (no section,
no diagnostic), and the handler then raises instead of returning the two empty lists:
`makeSectionVisible(firstAddedCM)` is called while `firstAddedCM` is `undefined`. -/
theorem C11_empty_text_raises :
    split '\n' (trimNewLines []) = [[]] ∧
    getRange [[]] ⟨1, 1⟩ ⟨1, 1⟩ = some [] ∧
    forEachDoAddSection initialState.sectionStack initialState [] =
      (initialState, initialState.sectionStack) ∧
    initialState.editors = [] ∧ initialState.errors = [] ∧
    initialState.firstAddedCM = none ∧
    doImport [] [.endstylesheet] = none := by
  refine ⟨by decide, by decide, by decide, rfl, rfl, rfl, by decide⟩

/-- C15 (code defect): decode raises whenever no section is accepted. On a white-space
text, on the namespace boilerplate alone and on a blank text for which the parser reported
an error, the end-of-stylesheet handler does not complete (the recorded diagnostic is
never shown). -/
theorem C15_decode_raises_without_section :
    doImport "  \n ".toList [.endstylesheet] = none ∧
    doImport "@namespace url(http://www.w3.org/1999/xhtml);".toList [.endstylesheet] = none ∧
    (runEvents (split '\n' (trimNewLines " ".toList)) [.error 1 1 "x".toList]
        initialState).map (fun st => (st.editors, st.errors)) = some ([], ["1:1 x".toList]) ∧
    doImport " ".toList [.error 1 1 "x".toList, .endstylesheet] = none := by
  refine ⟨by decide, by decide, by decide, by decide⟩

/-- C17 (code defect): the scoped section `domains=["a.com"]` with empty code is kept by
the emptiness test of `doAddSection` but rejected by `initFirstSection` when no section
was accepted before, so the text `@-moz-document domain("a.com")` with an empty body
decodes to no section, and the end handler raises. Once another section has been
accepted, the same section is appended. -/
theorem C17_first_scoped_section_with_empty_body_dropped :
    initFirstSection { code := [], domains := some ["a.com".toList] } = false ∧
    (doAddSection initialState { code := [], domains := some ["a.com".toList] }).1 =
      initialState ∧
    (runEvents (split '\n' (trimNewLines "@-moz-document domain(\"a.com\") \x7b\n\n\x7d".toList))
        [.startdocument 1 1 ["domain(\"a.com\")".toList] ⟨[⟨.LBRACE, 1, 32, 1, 33⟩], 1⟩,
         .enddocument ⟨[⟨.RBRACE, 3, 1, 3, 2⟩], 1⟩]
        initialState).map (fun st => (st.editors, st.errors)) = some ([], []) ∧
    doImport "@-moz-document domain(\"a.com\") \x7b\n\n\x7d".toList
        [.startdocument 1 1 ["domain(\"a.com\")".toList] ⟨[⟨.LBRACE, 1, 32, 1, 33⟩], 1⟩,
         .enddocument ⟨[⟨.RBRACE, 3, 1, 3, 2⟩], 1⟩,
         .endstylesheet] = none ∧
    (doAddSection
        { initialState with firstAddedCM := some { code := "x\x7b\x7d".toList },
                            editors := [{ code := "x\x7b\x7d".toList }] }
        { code := [], domains := some ["a.com".toList] }).1.editors =
      [{ code := "x\x7b\x7d".toList }, { code := [], domains := some ["a.com".toList] }] := by
  refine ⟨by decide, by decide, by decide, by decide, by decide⟩

/-- C19 (code defect): on the outer text `/* a */`, `x{}`, `/* b */` (one per line) the
gap-comment pattern matches from index 0, so the detached text is everything from the
first comment to the last one, not the last comment alone: nothing is left for a global
section and the scoped section's code begins with `/* a */`. With a single comment at
the end of the outer text the comment alone is detached. -/
theorem C19_gap_comment_from_first_comment :
    (exec reGapComment "/* a */\nx\x7b\x7d\n/* b */\n".toList).map
        (fun m => (m.index, m.group 1)) =
      some (0, some "/* a */\nx\x7b\x7d\n/* b */".toList) ∧
    getRange
        (split '\n' "/* a */\nx\x7b\x7d\n/* b */\n@-moz-document domain(\"x.com\") \x7b\nq\x7b\x7d\n\x7d".toList)
        ⟨1, 1⟩ ⟨4, 0⟩ = some "/* a */\nx\x7b\x7d\n/* b */\n".toList ∧
    (doImport "/* a */\nx\x7b\x7d\n/* b */\n@-moz-document domain(\"x.com\") \x7b\nq\x7b\x7d\n\x7d".toList
        [.startdocument 4 1 ["domain(\"x.com\")".toList] ⟨[⟨.LBRACE, 4, 32, 4, 33⟩], 1⟩,
         .enddocument ⟨[⟨.RBRACE, 6, 1, 6, 2⟩], 1⟩,
         .endstylesheet]).map (fun st => (st.editors, st.errors)) =
      some ([{ code := "/* a */\nx\x7b\x7d\n/* b */\n\nq\x7b\x7d".toList,
               domains := some ["x.com".toList] }], []) ∧
    (doImport "x\x7b\x7d\n/* b */\n@-moz-document domain(\"x.com\") \x7b\nq\x7b\x7d\n\x7d".toList
        [.startdocument 3 1 ["domain(\"x.com\")".toList] ⟨[⟨.LBRACE, 3, 32, 3, 33⟩], 1⟩,
         .enddocument ⟨[⟨.RBRACE, 5, 1, 5, 2⟩], 1⟩,
         .endstylesheet]).map (fun st => (st.editors, st.errors)) =
      some ([{ code := "x\x7b\x7d".toList },
             { code := "/* b */\n\nq\x7b\x7d".toList, domains := some ["x.com".toList] }], []) := by
  refine ⟨by decide, by decide, by decide, by decide⟩

/-- C12: at a scope-construct start reported at (line, col), for any list of function
texts: every text in which the call pattern finds a name that is not one of `url`,
`url-prefix`, `domain`, `regexp` adds exactly one diagnostic `line:col invalid function
"name"` and no value; the diagnostics come in argument order; every valid call still adds
its value to the sequence of its kind, in argument order; whether the handler returns
does not depend on the functions, and when it returns the new section is pushed with
exactly the values of the valid calls. -/
theorem C12_invalid_functions_reported (lines : List Str) (st : ImportState) (line col : Int)
    (functions : List Str) (parser : TokenStream) :
    (∀ f name arg, parseCall f = some (name, arg) → name ∉ cssKeywords →
      invalidName f = some name ∧ (∀ i, validValue i f = none) ∧
      ∀ acc, processFunction line (col - 1) acc f =
        (acc.1 ++ [numToStr line ++ ":".toList ++ numToStr col ++
          " invalid function \"".toList ++ name ++ "\"".toList], acc.2)) ∧
    (∀ acc, (functions.foldl (processFunction line (col - 1)) acc).1 =
        acc.1 ++ (functions.filterMap invalidName).map (invalidFunctionMessage line col) ∧
      ∀ i, (functions.foldl (processFunction line (col - 1)) acc).2.get i =
        if functions.filterMap (validValue i) = [] then acc.2.get i
        else some ((acc.2.get i).getD [] ++ functions.filterMap (validValue i))) ∧
    (onStartDocument lines st line col functions parser).isSome =
      (onStartDocument lines st line col [] parser).isSome ∧
    (∀ st', onStartDocument lines st line col functions parser = some st' →
      st'.errors =
        st.errors ++ (functions.filterMap invalidName).map (invalidFunctionMessage line col) ∧
      st'.sectionStack.length = st.sectionStack.length + 1 ∧
      ∃ fr, st'.sectionStack.getLast? = some fr ∧
        ∀ i, fr.sec.get i =
          if functions.filterMap (validValue i) = [] then none
          else some (functions.filterMap (validValue i))) := by
  have hcol : col - 1 + 1 = col := by ring
  refine ⟨?_, ?_, ?_, ?_⟩
  · intro f name arg hp hk
    have hin : invalidName f = some name := by simp [invalidName, hp, hk]
    rcases processFunction_cases f with ⟨name', hn, hv, hpf⟩ | ⟨i₀, v, hn, _, _, _⟩
    · rw [hin] at hn
      cases hn
      refine ⟨hin, hv, ?_⟩
      intro acc
      rw [hpf line (col - 1) acc, invalidFunctionMessage, hcol]
    · rw [hin] at hn
      cases hn
  · intro acc
    obtain ⟨h1, _, h3⟩ := functions_loop line (col - 1) functions acc
    rw [hcol] at h1
    exact ⟨h1, h3⟩
  · have h1 := onStartDocument_some lines st line col functions parser
    have h2 := onStartDocument_some lines st line col [] parser
    rw [Bool.eq_iff_iff, h1, h2]
  · intro st' h
    have hs : (onStartDocument lines st line col functions parser).isSome = true := by
      rw [h]; rfl
    obtain ⟨last, lastStart, outerText, lbraceEnd, h1, h2, h3, h4⟩ :=
      (onStartDocument_some lines st line col functions parser).1 hs
    rw [onStartDocument_eq lines st line col functions parser last lastStart outerText lbraceEnd
      h1 h2 h3 h4] at h
    have hne : st.sectionStack ≠ [] := by
      intro h0; rw [h0] at h1; simp at h1
    obtain ⟨f1, f2⟩ := flushOuterText_frame st last (splitOuterText outerText).2 hne
    obtain ⟨l1, _, l3⟩ := functions_loop line (col - 1) functions
      ((flushOuterText st last (splitOuterText outerText).2).errors,
        { code := (splitOuterText outerText).1 })
    rw [hcol] at l1
    cases h
    refine ⟨?_, ?_, ?_⟩
    · exact l1.trans (by rw [f1])
    · show (_ ++ [_]).length = _
      rw [List.length_append, List.length_singleton, f2]
    · refine ⟨_, List.getLast?_concat _, ?_⟩
      intro i
      refine (l3 i).trans ?_
      cases i <;> simp [Section.get]

/-- Witness of C12: the construct `@-moz-document bogus("x")` with a one-line body. -/
theorem C12_invalid_functions_reported_witness :
    parseCall "bogus(\"x\")".toList = some ("bogus".toList, "x".toList) ∧
    (["bogus(\"x\")".toList].foldl (processFunction 1 (1 - 1)) ([], { code := [] })).1 =
      ["1:1 invalid function \"bogus\"".toList] ∧
    (doImport "@-moz-document bogus(\"x\") \x7b a\x7b\x7d \x7d".toList
        [.startdocument 1 1 ["bogus(\"x\")".toList] ⟨[⟨.LBRACE, 1, 27, 1, 28⟩], 1⟩,
         .enddocument ⟨[⟨.RBRACE, 1, 33, 1, 34⟩], 1⟩,
         .endstylesheet]).map (fun st => (st.errors, decide (st.editors.length ≤ 1))) =
      some (["1:1 invalid function \"bogus\"".toList], true) := by
  refine ⟨by decide, ?_, by decide⟩
  have h := ((C12_invalid_functions_reported [] initialState 1 1 ["bogus(\"x\")".toList]
    ⟨[], 0⟩).2.1 ([], { code := [] })).1
  rw [h]
  decide

/-- C13 (amended): for every function text that the call pattern does not match, the
recorded diagnostic cites the whole function text as the invalid function, `line:col
invalid function "text"`; the empty string is cited only for an empty function text. No
value is added to the section. -/
theorem C13_unparsed_function_cited_whole (line col : Int) (acc : List Str × Section)
    (f : Str) (h : exec reCall f = none) :
    processFunction line (col - 1) acc f =
      (acc.1 ++ [numToStr line ++ ":".toList ++ numToStr col ++
        " invalid function \"".toList ++ f ++ "\"".toList], acc.2) := by
  have hcol : col - 1 + 1 = col := by ring
  have hm : (if truthy f = true then exec reCall f else none) = none := by
    rw [h]; simp
  have hf : (if truthy f = true then f else []) = f := by
    by_cases ht : truthy f = true
    · simp [ht]
    · cases f with
      | nil => simp
      | cons _ _ => simp [truthy] at ht
  simp only [processFunction, hm, hf, hcol]

/-- Witness of C13 (amended): the call `dömain("x")`, whose name has a letter outside
`[\w-]`, and the empty function text. -/
theorem C13_unparsed_function_cited_whole_witness :
    processFunction 3 (1 - 1) ([], { code := [] }) "d\u00f6main(\"x\")".toList =
      (["3:1 invalid function \"d\u00f6main(\"x\")\"".toList], { code := [] }) ∧
    processFunction 3 (1 - 1) ([], { code := [] }) [] =
      (["3:1 invalid function \"\"".toList], { code := [] }) :=
  ⟨C13_unparsed_function_cited_whole 3 1 ([], { code := [] }) "d\u00f6main(\"x\")".toList
     (by decide),
   C13_unparsed_function_cited_whole 3 1 ([], { code := [] }) [] (by decide)⟩

/-- Counterexample to C13 as stated: on the text `@-moz-document dömain("x") {`, `a{}`,
`}` the function text `dömain("x")` is not matched by the call pattern (its name has a
letter outside `[\w-]`), and the diagnostic cites `dömain("x")`, not the empty string. -/
theorem C13_counterexample :
    exec reCall "d\u00f6main(\"x\")".toList = none ∧
    (processFunction 1 (1 - 1) ([], { code := [] }) "d\u00f6main(\"x\")".toList).1 =
      ["1:1 invalid function \"d\u00f6main(\"x\")\"".toList] ∧
    (processFunction 1 (1 - 1) ([], { code := [] }) "d\u00f6main(\"x\")".toList).1 ≠
      ["1:1 invalid function \"\"".toList] ∧
    (doImport "@-moz-document d\u00f6main(\"x\") \x7b\na\x7b\x7d\n\x7d".toList
        [.startdocument 1 1 ["d\u00f6main(\"x\")".toList] ⟨[⟨.LBRACE, 1, 28, 1, 29⟩], 1⟩,
         .enddocument ⟨[⟨.RBRACE, 3, 1, 3, 2⟩], 1⟩,
         .endstylesheet]).map (fun st => (st.editors, st.errors)) =
      some ([{ code := "a\x7b\x7d".toList }],
            ["1:1 invalid function \"d\u00f6main(\"x\")\"".toList]) := by
  refine ⟨by decide, by decide, by decide, by decide⟩

/-- C16: a candidate section whose code is empty or white space and which has none of
the four condition sequences is not added by `doAddSection`, and the state (in particular
the first accepted section) is unchanged; and a start handler whose outer text is white
space adds no section. -/
theorem C16_blank_global_candidate_dropped (st : ImportState) :
    (∀ sec : Section, (∀ c ∈ sec.code, isJsSpace c = true) → sec.urls = none →
      sec.urlPrefixes = none → sec.domains = none → sec.regexps = none →
      doAddSection st sec = (st, { sec with code := [] })) ∧
    (∀ (lines : List Str) (line col : Int) (functions : List Str) (parser : TokenStream)
      (last : Frame) (lastStart : Pos) (outerText : Str) (lbraceEnd : Option Pos),
      st.sectionStack.getLast? = some last → last.start = some lastStart →
      getRange lines lastStart ⟨line, col - 1⟩ = some outerText →
      backtrackTo parser .LBRACE .stop = some lbraceEnd →
      (∀ c ∈ outerText, isJsSpace c = true) →
      ∃ st', onStartDocument lines st line col functions parser = some st' ∧
        st'.editors = st.editors ∧ st'.firstAddedCM = st.firstAddedCM) := by
  constructor
  · intro sec hws h1 h2 h3 h4
    have ht : trim sec.code = [] := trim_of_all_space _ hws
    simp [doAddSection, ht, h1, h2, h3, h4, truthy]
  · intro lines line col functions parser last lastStart outerText lbraceEnd h1 h2 h3 h4 hws
    refine ⟨_, onStartDocument_eq lines st line col functions parser last lastStart outerText
      lbraceEnd h1 h2 h3 h4, ?_⟩
    have hs : splitOuterText outerText = ([], outerText) := by
      simp [splitOuterText, exec_reGapComment_of_all_space outerText hws]
    have hf : flushOuterText st last outerText = st := by
      simp [flushOuterText, trim_of_all_space _ hws, truthy]
    rw [hs]
    simp only [hf]
    trivial

/-- Witness of C16: white space as candidate, and a text with white space before,
between and after two scoped blocks. -/
theorem C16_blank_global_candidate_dropped_witness :
    doAddSection initialState { code := " \n\t".toList } = (initialState, { code := [] }) ∧
    (doImport
        "\n@-moz-document domain(\"x.com\") \x7b\na\x7b\x7d\n\x7d\n \n@-moz-document domain(\"y.com\") \x7b\nb\x7b\x7d\n\x7d\n".toList
        [.startdocument 1 1 ["domain(\"x.com\")".toList] ⟨[⟨.LBRACE, 1, 32, 1, 33⟩], 1⟩,
         .enddocument ⟨[⟨.RBRACE, 3, 1, 3, 2⟩], 1⟩,
         .startdocument 5 1 ["domain(\"y.com\")".toList] ⟨[⟨.LBRACE, 5, 32, 5, 33⟩], 1⟩,
         .enddocument ⟨[⟨.RBRACE, 7, 1, 7, 2⟩], 1⟩,
         .endstylesheet]).map (fun st => st.editors) =
      some [{ code := "a\x7b\x7d".toList, domains := some ["x.com".toList] },
            { code := "b\x7b\x7d".toList, domains := some ["y.com".toList] }] :=
  ⟨(C16_blank_global_candidate_dropped initialState).1 { code := " \n\t".toList }
      (by decide) rfl rfl rfl rfl, by decide⟩

/-- C18: while no section has been accepted, a global candidate whose code is the
namespace boilerplate surrounded by white space is not added and does not become the first
accepted section: the state is unchanged. -/
theorem C18_boilerplate_first_section_skipped (st : ImportState) (sec : Section)
    (ws1 ws2 : Str) (hfirst : st.firstAddedCM = none)
    (hglobal : sec.urls = none ∧ sec.urlPrefixes = none ∧ sec.domains = none ∧
      sec.regexps = none)
    (h1 : ∀ c ∈ ws1, isJsSpace c = true) (h2 : ∀ c ∈ ws2, isJsSpace c = true)
    (hcode : sec.code = ws1 ++ namespaceBoilerplate ++ ws2) :
    doAddSection st sec = (st, { code := namespaceBoilerplate }) := by
  obtain ⟨g1, g2, g3, g4⟩ := hglobal
  have hsec : { sec with code := namespaceBoilerplate } =
      ({ code := namespaceBoilerplate } : Section) := by
    simp [g1, g2, g3, g4]
  have ht : trim sec.code = namespaceBoilerplate := by
    rw [hcode]
    exact trim_surrounded ws1 namespaceBoilerplate ws2 h1 h2 (by decide) (by decide)
  have hi : initFirstSection { sec with code := namespaceBoilerplate } = false := by
    have : ∀ s : Section, initFirstSection s =
        truthy (replaceAll reAnySpace [] (replaceStr namespaceBoilerplate [] s.code)) :=
      fun _ => rfl
    rw [this]
    show truthy (replaceAll reAnySpace [] (replaceStr namespaceBoilerplate []
      namespaceBoilerplate)) = false
    decide
  have htr : truthy namespaceBoilerplate = true := by decide
  rw [← hsec]
  simp [doAddSection, ht, hi, hfirst, htr]

/-- Witness of C18: the boilerplate between line breaks as first candidate, and a text
with the boilerplate before its first block. -/
theorem C18_boilerplate_first_section_skipped_witness :
    doAddSection initialState
        { code := "\n@namespace url(http://www.w3.org/1999/xhtml);\n ".toList } =
      (initialState, { code := "@namespace url(http://www.w3.org/1999/xhtml);".toList }) ∧
    (doImport
        "@namespace url(http://www.w3.org/1999/xhtml);\n\n@-moz-document domain(\"x.com\") \x7b\na\x7b\x7d\n\x7d".toList
        [.startdocument 3 1 ["domain(\"x.com\")".toList] ⟨[⟨.LBRACE, 3, 32, 3, 33⟩], 1⟩,
         .enddocument ⟨[⟨.RBRACE, 5, 1, 5, 2⟩], 1⟩,
         .endstylesheet]).map (fun st => (st.editors, st.firstAddedCM)) =
      some ([{ code := "a\x7b\x7d".toList, domains := some ["x.com".toList] }],
            some { code := "a\x7b\x7d".toList, domains := some ["x.com".toList] }) :=
  ⟨C18_boilerplate_first_section_skipped initialState
      { code := "\n@namespace url(http://www.w3.org/1999/xhtml);\n ".toList }
      "\n".toList "\n ".toList rfl ⟨rfl, rfl, rfl, rfl⟩ (by decide) (by decide) (by decide),
   by decide⟩

/-- C20 (amended): when the comment found at the end of the outer text is the marker
comment, the start handler carries nothing into the new scoped section, whose code starts
empty; the outer text, marker included, is left as it is, is not blank, and is added
(trimmed) as a section of the frame on top of the stack before the new section is
pushed. -/
theorem C20_marker_comment_stays_in_outer_text (lines : List Str) (st : ImportState)
    (line col : Int) (functions : List Str) (parser : TokenStream) (last : Frame)
    (lastStart : Pos) (outerText : Str) (lbraceEnd : Option Pos) (g : Match)
    (h1 : st.sectionStack.getLast? = some last) (h2 : last.start = some lastStart)
    (h3 : getRange lines lastStart ⟨line, col - 1⟩ = some outerText)
    (h4 : backtrackTo parser .LBRACE .stop = some lbraceEnd)
    (hgap : exec reGapComment outerText = some g)
    (hmarker : test reAgentSheet ((g.group 1).getD []) = true) :
    ∃ st', onStartDocument lines st line col functions parser = some st' ∧
      (∃ fr, st'.sectionStack.getLast? = some fr ∧ fr.sec.code = []) ∧
      truthy (trim outerText) = true ∧
      st'.editors = st.editors ++ [{ last.sec with code := trim outerText }] := by
  refine ⟨_, onStartDocument_eq lines st line col functions parser last lastStart outerText
    lbraceEnd h1 h2 h3 h4, ?_⟩
  have hs : splitOuterText outerText = ([], outerText) := by
    simp [splitOuterText, hgap, hmarker]
  have hstar : '*' ∈ trim outerText :=
    mem_trim '*' (by decide) _ (mem_star_of_gapComment outerText g hgap)
  have htr : truthy (trim outerText) = true := truthy_of_mem _ _ hstar
  have hinit : initFirstSection { last.sec with code := trim outerText } = true :=
    initFirstSection_of_star _ hstar
  rw [hs]
  refine ⟨⟨_, List.getLast?_concat _, ?_⟩, htr, ?_⟩
  · exact (functions_loop line (col - 1) functions _).2.1
  · simp [flushOuterText, htr, doAddSection, hinit]

/-- Witness of C20 (amended): the start handler on the text `/* AGENT_SHEET */` followed
by a scoped block. -/
theorem C20_marker_comment_stays_in_outer_text_witness :
    ∃ st', onStartDocument
        (split '\n' "/* AGENT_SHEET */\n@-moz-document domain(\"x.com\") \x7b\na\x7b\x7d\n\x7d".toList)
        initialState 2 1 ["domain(\"x.com\")".toList] ⟨[⟨.LBRACE, 2, 32, 2, 33⟩], 1⟩ = some st' ∧
      (∃ fr, st'.sectionStack.getLast? = some fr ∧ fr.sec.code = []) ∧
      truthy (trim "/* AGENT_SHEET */\n".toList) = true ∧
      st'.editors = [] ++ [{ code := trim "/* AGENT_SHEET */\n".toList }] :=
  C20_marker_comment_stays_in_outer_text _ initialState 2 1 _ _
    { sec := { code := [] }, start := some ⟨1, 1⟩ } ⟨1, 1⟩ "/* AGENT_SHEET */\n".toList
    (some ⟨2, 33⟩) ⟨0, 18, [(1, "/* AGENT_SHEET */".toList)]⟩
    (by decide) rfl (by decide) (by decide) (by decide) (by decide)

/-- Counterexample to C20 as stated: the text `/* AGENT_SHEET */` followed by the block
`@-moz-document domain("x.com")` with body `a{}` decodes to two sections, the first of
which is a global section holding the marker comment. -/
theorem C20_counterexample :
    (doImport "/* AGENT_SHEET */\n@-moz-document domain(\"x.com\") \x7b\na\x7b\x7d\n\x7d".toList
        [.startdocument 2 1 ["domain(\"x.com\")".toList] ⟨[⟨.LBRACE, 2, 32, 2, 33⟩], 1⟩,
         .enddocument ⟨[⟨.RBRACE, 4, 1, 4, 2⟩], 1⟩,
         .endstylesheet]).map (fun st => st.editors) =
      some [{ code := "/* AGENT_SHEET */".toList },
            { code := "a\x7b\x7d".toList, domains := some ["x.com".toList] }] ∧
    (doImport "/* AGENT_SHEET */\n@-moz-document domain(\"x.com\") \x7b\na\x7b\x7d\n\x7d".toList
        [.startdocument 2 1 ["domain(\"x.com\")".toList] ⟨[⟨.LBRACE, 2, 32, 2, 33⟩], 1⟩,
         .enddocument ⟨[⟨.RBRACE, 4, 1, 4, 2⟩], 1⟩,
         .endstylesheet]).map (fun st => st.editors) ≠
      some [{ code := "a\x7b\x7d".toList, domains := some ["x.com".toList] }] := by
  refine ⟨by decide, by decide⟩

/-! ## Ranges of the source text -/

theorem substr_nat (l : Str) (c : Nat) (n : Int) :
    substr l (c : Int) (some n) = (l.drop c).take n.toNat := by
  unfold substr
  simp only [relIdx_natCast, clampIdx]
  by_cases hc : c ≤ l.length
  · have h1 : min c l.length = c := Nat.min_eq_left hc
    rw [h1]
    apply List.take_eq_take.2
    simp only [List.length_drop]
    omega
  · have h1 : min c l.length = l.length := Nat.min_eq_right (by omega)
    rw [h1, List.drop_length, List.drop_eq_nil_of_le (by omega)]
    simp

theorem substr_nat_none (l : Str) (c : Nat) : substr l (c : Int) none = l.drop c := by
  unfold substr
  simp only [relIdx_natCast]
  by_cases hc : c ≤ l.length
  · have h1 : min c l.length = c := Nat.min_eq_left hc
    rw [h1]
    apply List.take_of_length_le
    simp only [List.length_drop]
    omega
  · have h1 : min c l.length = l.length := Nat.min_eq_right (by omega)
    rw [h1, List.drop_length, List.drop_eq_nil_of_le (by omega)]
    simp

theorem substring_zero (l : Str) (n : Int) : substring l 0 n = l.take n.toNat := by
  unfold substring
  simp only [clampIdx, Int.toNat_zero, Nat.zero_min, Nat.zero_le, Nat.min_eq_left,
    Nat.max_eq_right, List.drop_zero, Nat.sub_zero]
  apply List.take_eq_take.2
  omega

theorem slice_nat {α : Type} (a : List α) (i j : Nat) (hj : j ≤ a.length) :
    slice a (i : Int) (j : Int) = (a.drop i).take (j - i) := by
  unfold slice
  rw [relIdx_natCast, relIdx_natCast]
  have h2 : min j a.length = j := Nat.min_eq_left hj
  rw [h2]
  by_cases hi : i ≤ a.length
  · rw [Nat.min_eq_left hi]
  · rw [Nat.min_eq_right (by omega)]
    show List.take (j - a.length) (List.drop a.length a) = _
    rw [List.drop_length, List.drop_eq_nil_of_le (by omega)]
    simp

/-- The same-line branch of `getRange`: the characters from the start column through
the end column, the character at the end column included. -/
theorem getRange_same_line (lines : List Str) (L c1 : Nat) (c : Int) (l : Str)
    (h : lines[L]? = some l) :
    getRange lines ⟨(L : Int) + 1, (c1 : Int) + 1⟩ ⟨(L : Int) + 1, c⟩ =
      some ((l.drop c1).take (c - c1).toNat) := by
  have hL : (L : Int) + 1 - 1 = (L : Int) := by ring
  have hc1 : (c1 : Int) + 1 - 1 = (c1 : Int) := by ring
  have hlen : c - 1 - (c1 : Int) + 1 = c - c1 := by ring
  unfold getRange
  simp only [hL, hc1, if_true, lineAt_natCast, h, Option.map_some', hlen, substr_nat]

/-- The multi-line branch of `getRange`: the tail of the start line, the lines in
between, and the head of the end line up to, but not including, the end column. -/
theorem getRange_multi_line (lines : List Str) (L1 L2 c1 : Nat) (c : Int) (l1 l2 : Str)
    (hlt : L1 < L2) (h1 : lines[L1]? = some l1) (h2 : lines[L2]? = some l2) :
    getRange lines ⟨(L1 : Int) + 1, (c1 : Int) + 1⟩ ⟨(L2 : Int) + 1, c⟩ =
      some (l1.drop c1 ++ ['\n'] ++ join ['\n'] ((lines.drop (L1 + 1)).take (L2 - (L1 + 1))) ++
        ((if truthy (join ['\n'] ((lines.drop (L1 + 1)).take (L2 - (L1 + 1)))) then ['\n']
          else []) ++ l2.take (c - 1).toNat)) := by
  have hL1 : (L1 : Int) + 1 - 1 = (L1 : Int) := by ring
  have hL2 : (L2 : Int) + 1 - 1 = (L2 : Int) := by ring
  have hc1 : (c1 : Int) + 1 - 1 = (c1 : Int) := by ring
  have hne : ¬ ((L1 : Int) = (L2 : Int)) := by omega
  have hlen : L2 < lines.length := by
    have := List.getElem?_eq_some.1 h2
    exact this.1
  have hge : ¬ ((L2 : Int) ≥ (lines.length : Int)) := by omega
  have hs : slice lines ((L1 : Int) + 1) (L2 : Int) = (lines.drop (L1 + 1)).take (L2 - (L1 + 1)) := by
    have : ((L1 : Int) + 1) = ((L1 + 1 : Nat) : Int) := by push_cast; ring
    rw [this, slice_nat lines (L1 + 1) L2 (by omega)]
  unfold getRange
  simp only [hL1, hL2, hc1, hne, if_false, lineAt_natCast, h1, h2, hge, hs, substr_nat_none,
    substring_zero]
  rfl

/-- C21 (code defect): on the one-line block `@-moz-document domain("x.com") { b{} }` —
opening brace ending at line 1 column 33, closing brace starting at line 1 column 38 —
the popped section's code is `b{} }`, closing brace included, because the same-line
branch of `getRange` takes the character at the end column. With the braces on different
lines the code is the text strictly between them. -/
theorem C21_one_line_block_code_has_closing_brace :
    getRange ["@-moz-document domain(\"x.com\") \x7b b\x7b\x7d \x7d".toList] ⟨1, 33⟩ ⟨1, 38⟩ =
      some " b\x7b\x7d \x7d".toList ∧
    (doImport "@-moz-document domain(\"x.com\") \x7b b\x7b\x7d \x7d".toList
        [.startdocument 1 1 ["domain(\"x.com\")".toList] ⟨[⟨.LBRACE, 1, 32, 1, 33⟩], 1⟩,
         .enddocument ⟨[⟨.RBRACE, 1, 38, 1, 39⟩], 1⟩,
         .endstylesheet]).map (fun st => (st.editors, st.errors)) =
      some ([{ code := "b\x7b\x7d \x7d".toList, domains := some ["x.com".toList] }], []) ∧
    getRange (split '\n' "@-moz-document domain(\"x.com\") \x7b b\x7b\x7d\n\x7d".toList) ⟨1, 33⟩ ⟨2, 1⟩ =
      some " b\x7b\x7d\n".toList ∧
    (doImport "@-moz-document domain(\"x.com\") \x7b b\x7b\x7d\n\x7d".toList
        [.startdocument 1 1 ["domain(\"x.com\")".toList] ⟨[⟨.LBRACE, 1, 32, 1, 33⟩], 1⟩,
         .enddocument ⟨[⟨.RBRACE, 2, 1, 2, 2⟩], 1⟩,
         .endstylesheet]).map (fun st => (st.editors, st.errors)) =
      some ([{ code := "b\x7b\x7d".toList, domains := some ["x.com".toList] }], []) := by
  refine ⟨by decide, by decide, by decide, by decide⟩

/-- C22 (code defect): a construct still open at the end of the stylesheet records no
diagnostic and its section is emitted with its conditions, but the code is not always the
text from the opening brace to the end of the input: on the unterminated text
`@-moz-document domain("x.com") { a{}`, empty line, `b{}` the emitted code is `a{}`,
`b{}` on two lines, the empty line being lost by `getRange`. On the unterminated text
`@-moz-document domain("x.com") {`, `a{}` the emitted code is `a{}`. -/
theorem C22_unterminated_block_loses_empty_line :
    (doImport "@-moz-document domain(\"x.com\") \x7b a\x7b\x7d\n\nb\x7b\x7d".toList
        [.startdocument 1 1 ["domain(\"x.com\")".toList] ⟨[⟨.LBRACE, 1, 32, 1, 33⟩], 1⟩,
         .endstylesheet]).map (fun st => (st.editors, st.errors)) =
      some ([{ code := "a\x7b\x7d\nb\x7b\x7d".toList, domains := some ["x.com".toList] }], []) ∧
    trim " a\x7b\x7d\n\nb\x7b\x7d".toList = "a\x7b\x7d\n\nb\x7b\x7d".toList ∧
    (doImport "@-moz-document domain(\"x.com\") \x7b\na\x7b\x7d".toList
        [.startdocument 1 1 ["domain(\"x.com\")".toList] ⟨[⟨.LBRACE, 1, 32, 1, 33⟩], 1⟩,
         .endstylesheet]).map (fun st => (st.editors, st.errors)) =
      some ([{ code := "a\x7b\x7d".toList, domains := some ["x.com".toList] }], []) := by
  refine ⟨by decide, by decide, by decide⟩

/-- C23 (code defect): on the text `a{}`, `b{}@-moz-document domain("x.com") {`, `c{}`,
`}` with the construct reported at line 2 column 4, the outer text computed by the start
handler is `a{}`, `b{` — the closing brace just before the construct is lost — and the
global section is emitted with that code. When the top-of-stack start and the construct
are on the same line the outer text is complete. -/
theorem C23_outer_text_loses_last_character :
    getRange (split '\n' "a\x7b\x7d\nb\x7b\x7d@-moz-document domain(\"x.com\") \x7b\nc\x7b\x7d\n\x7d".toList)
        ⟨1, 1⟩ ⟨2, 4 - 1⟩ = some "a\x7b\x7d\nb\x7b".toList ∧
    (doImport "a\x7b\x7d\nb\x7b\x7d@-moz-document domain(\"x.com\") \x7b\nc\x7b\x7d\n\x7d".toList
        [.startdocument 2 4 ["domain(\"x.com\")".toList] ⟨[⟨.LBRACE, 2, 35, 2, 36⟩], 1⟩,
         .enddocument ⟨[⟨.RBRACE, 4, 1, 4, 2⟩], 1⟩,
         .endstylesheet]).map (fun st => (st.editors, st.errors)) =
      some ([{ code := "a\x7b\x7d\nb\x7b".toList },
             { code := "c\x7b\x7d".toList, domains := some ["x.com".toList] }], []) ∧
    getRange (split '\n' "b\x7b\x7d@-moz-document domain(\"x.com\") \x7b\nc\x7b\x7d\n\x7d".toList)
        ⟨1, 1⟩ ⟨1, 4 - 1⟩ = some "b\x7b\x7d".toList := by
  refine ⟨by decide, by decide, by decide⟩

/-- C24 (code defect): for the lines `a{}`, empty, `b{}` the range from (1,1) to (3,4)
is `a{}`, `b{}` joined by one line break, not two: the line break before the end line
is added only when the joined middle lines are a non-empty string. With two empty lines
in between the result has its three line breaks. -/
theorem C24_single_empty_middle_line_lost :
    getRange ["a\x7b\x7d".toList, [], "b\x7b\x7d".toList] ⟨1, 1⟩ ⟨3, 4⟩ = some "a\x7b\x7d\nb\x7b\x7d".toList ∧
    join "\n".toList (slice ["a\x7b\x7d".toList, [], "b\x7b\x7d".toList] 1 2) = [] ∧
    getRange ["a\x7b\x7d".toList, [], [], "b\x7b\x7d".toList] ⟨1, 1⟩ ⟨4, 4⟩ =
      some "a\x7b\x7d\n\n\nb\x7b\x7d".toList ∧
    getRange ["a\x7b\x7d".toList, "x".toList, "b\x7b\x7d".toList] ⟨1, 1⟩ ⟨3, 4⟩ =
      some "a\x7b\x7d\nx\nb\x7b\x7d".toList := by
  refine ⟨by decide, by decide, by decide, by decide⟩

/-- C27: the end column is inclusive on one line and exclusive across lines. With start
and end on line `L1 + 1`, `getRange` returns the characters of that line at the (1-based)
columns `c1 + 1` through `c2 + 1`, clipped at the line end, so that the character at the
end column is the last one of the result; with the end on a later line `L2 + 1` the result
is the tail of the start line, the lines in between, and the first `c2` characters of the
end line, i.e. its columns 1 to `c2`, the character at the end column `c2 + 1` excluded. -/
theorem C27_end_column_inclusive_on_same_line_only (lines : List Str) (L1 L2 c1 c2 : Nat)
    (l1 l2 : Str) (h1 : lines[L1]? = some l1) (h2 : lines[L2]? = some l2) :
    getRange lines ⟨(L1 : Int) + 1, (c1 : Int) + 1⟩ ⟨(L1 : Int) + 1, (c2 : Int) + 1⟩ =
      some ((l1.drop c1).take (c2 + 1 - c1)) ∧
    (c1 ≤ c2 → c2 < l1.length →
      ((l1.drop c1).take (c2 + 1 - c1)).getLast? = l1[c2]?) ∧
    (L1 < L2 →
      getRange lines ⟨(L1 : Int) + 1, (c1 : Int) + 1⟩ ⟨(L2 : Int) + 1, (c2 : Int) + 1⟩ =
        some (l1.drop c1 ++ ['\n'] ++
          join ['\n'] ((lines.drop (L1 + 1)).take (L2 - (L1 + 1))) ++
          ((if truthy (join ['\n'] ((lines.drop (L1 + 1)).take (L2 - (L1 + 1)))) then ['\n']
            else []) ++ l2.take c2))) := by
  have e1 : ((c2 : Int) + 1 - (c1 : Int)).toNat = c2 + 1 - c1 := by omega
  have e2 : ((c2 : Int) + 1 - 1).toNat = c2 := by omega
  refine ⟨?_, ?_, ?_⟩
  · rw [getRange_same_line lines L1 c1 _ l1 h1, e1]
  · intro hle hlt
    have hne : ¬ (c2 + 1 - c1 = 0) := by omega
    have hidx : c1 + (c2 + 1 - c1 - 1) = c2 := by omega
    rw [List.getLast?_take, if_neg hne, List.getElem?_drop, hidx,
      List.getElem?_eq_getElem hlt]
    rfl
  · intro hlt
    rw [getRange_multi_line lines L1 L2 c1 _ l1 l2 hlt h1 h2, e2]

theorem C27_end_column_inclusive_on_same_line_only_witness :
    ["abc".toList, "def".toList][0]? = some "abc".toList ∧
    ["abc".toList, "def".toList][1]? = some "def".toList ∧
    getRange ["abc".toList, "def".toList] ⟨1, 1⟩ ⟨1, 2⟩ = some "ab".toList ∧
    getRange ["abc".toList, "def".toList] ⟨1, 1⟩ ⟨2, 2⟩ = some "abc\nd".toList :=
  ⟨rfl, rfl,
   (C27_end_column_inclusive_on_same_line_only ["abc".toList, "def".toList] 0 1 0 1
      "abc".toList "def".toList rfl rfl).1,
   (C27_end_column_inclusive_on_same_line_only ["abc".toList, "def".toList] 0 1 0 1
      "abc".toList "def".toList rfl rfl).2.2 (by decide)⟩

/-! ## End of the stylesheet: order of the frames -/

theorem doAddSection_snd (st : ImportState) (sec : Section) :
    (doAddSection st sec).2 = { sec with code := trim sec.code } := by
  unfold doAddSection
  simp only
  split
  · rfl
  · split <;> rfl

/-- What `doAddSection` does to the list of emitted sections: nothing, or the trimmed
section appended. -/
theorem doAddSection_editors (st : ImportState) (sec : Section) :
    (doAddSection st sec).1.editors = st.editors ∨
    (doAddSection st sec).1.editors = st.editors ++ [{ sec with code := trim sec.code }] := by
  unfold doAddSection
  simp only
  split
  · exact Or.inl rfl
  · split
    · exact Or.inl rfl
    · exact Or.inr rfl

/-- A section with blank code and no condition is not added. -/
theorem doAddSection_blank (st : ImportState) (sec : Section)
    (hcode : trim sec.code = []) (hcond : sec.noConditions = true) :
    (doAddSection st sec).1 = st := by
  unfold doAddSection
  simp only
  have h1 : (!truthy (trim sec.code) && sec.urls.isNone && sec.urlPrefixes.isNone &&
      sec.domains.isNone && sec.regexps.isNone) = true := by
    unfold Section.noConditions at hcond
    simp only [Bool.and_assoc] at hcond ⊢
    rw [hcond, hcode]
    rfl
  rw [if_pos h1]

theorem forEachDoAddSection_fst : ∀ (stack : List Frame) (st : ImportState) (done : List Frame),
    (forEachDoAddSection stack st done).1 =
      stack.foldl (fun s f => (doAddSection s f.sec).1) st := by
  intro stack
  induction stack with
  | nil => intro st done; rfl
  | cons f fs ih =>
    intro st done
    rw [forEachDoAddSection, List.foldl_cons]
    exact ih _ _

theorem forEachDoAddSection_snd : ∀ (stack : List Frame) (st : ImportState) (done : List Frame),
    (forEachDoAddSection stack st done).2 =
      done ++ stack.map (fun f => { f with sec := f.trimmed }) := by
  intro stack
  induction stack with
  | nil => intro st done; simp [forEachDoAddSection]
  | cons f fs ih =>
    intro st done
    rw [forEachDoAddSection, ih, doAddSection_snd]
    simp [Frame.trimmed]

theorem foldl_doAddSection_sublist : ∀ (stack : List Frame) (st : ImportState),
    ∃ l, l.Sublist (stack.map Frame.trimmed) ∧
      (stack.foldl (fun s f => (doAddSection s f.sec).1) st).editors = st.editors ++ l := by
  intro stack
  induction stack with
  | nil => intro st; exact ⟨[], List.Sublist.refl _, by simp⟩
  | cons f fs ih =>
    intro st
    obtain ⟨l, hl, he⟩ := ih (doAddSection st f.sec).1
    rw [List.foldl_cons, he, List.map_cons]
    rcases doAddSection_editors st f.sec with h | h
    · exact ⟨l, List.Sublist.cons _ hl, by rw [h]⟩
    · exact ⟨f.trimmed :: l, List.Sublist.cons₂ _ hl, by rw [h]; simp [Frame.trimmed]⟩

/-- A section that has non-blank code or a condition, offered when a first section was
accepted before or when it passes the first-section test, is appended, and a first section
is then recorded. -/
theorem doAddSection_accepts_first (st : ImportState) (sec : Section)
    (h : truthy (trim sec.code) = true ∨ sec.noConditions = false)
    (hfirst : st.firstAddedCM.isSome = true ∨
      initFirstSection { sec with code := trim sec.code } = true) :
    (doAddSection st sec).1.editors = st.editors ++ [{ sec with code := trim sec.code }] ∧
    (doAddSection st sec).1.firstAddedCM.isSome = true := by
  unfold doAddSection
  simp only
  have h1 : ¬ ((!truthy (trim sec.code) && sec.urls.isNone && sec.urlPrefixes.isNone &&
      sec.domains.isNone && sec.regexps.isNone) = true) := by
    intro hc
    rcases h with h | h
    · rw [h] at hc; simp at hc
    · unfold Section.noConditions at h
      simp only [Bool.and_assoc] at hc h
      rw [h] at hc; simp at hc
  have h2 : ¬ ((st.firstAddedCM.isNone && !initFirstSection { sec with code := trim sec.code })
      = true) := by
    intro hc
    simp only [Bool.and_eq_true, Option.isNone_iff_eq_none, Bool.not_eq_true'] at hc
    rcases hfirst with hf | hf
    · rw [hc.1] at hf; exact Bool.noConfusion hf
    · rw [hc.2] at hf; exact Bool.noConfusion hf
  rw [if_neg h1, if_neg h2]
  exact ⟨rfl, rfl⟩

theorem foldl_doAddSection_all_first : ∀ (stack : List Frame) (st : ImportState),
    (∀ f ∈ stack, (truthy (trim f.sec.code) = true ∨ f.sec.noConditions = false) ∧
      (st.firstAddedCM.isSome = true ∨ initFirstSection f.trimmed = true)) →
    (stack.foldl (fun s f => (doAddSection s f.sec).1) st).editors =
      st.editors ++ stack.map Frame.trimmed := by
  intro stack
  induction stack with
  | nil => intro st _; simp
  | cons f fs ih =>
    intro st hall
    obtain ⟨ha, hb⟩ := hall f (by simp)
    obtain ⟨h1, h2⟩ := doAddSection_accepts_first st f.sec ha hb
    rw [List.foldl_cons, ih _ (fun g hg => ⟨(hall g (by simp [hg])).1, Or.inl h2⟩), h1]
    simp [Frame.trimmed]

theorem foldl_doAddSection_errors : ∀ (stack : List Frame) (st : ImportState),
    (stack.foldl (fun s f => (doAddSection s f.sec).1) st).errors = st.errors := by
  intro stack
  induction stack with
  | nil => intro st; rfl
  | cons f fs ih =>
    intro st
    rw [List.foldl_cons, ih, (doAddSection_frame st f.sec).1]

/-- The end-of-stylesheet handler, once its reads have succeeded: the tail of the text is
appended to the code of the top frame, the frames are offered to `doAddSection`, and the
handler completes when a first section exists. -/
theorem onEndStylesheet_inv (lines : List Str) (st st1 : ImportState)
    (h : onEndStylesheet lines st = some st1) :
    ∃ lastLine last start r,
      lines.getLast? = some lastLine ∧ st.sectionStack.getLast? = some last ∧
      last.start = some start ∧
      getRange lines start ⟨lines.length, lastLine.length + 1⟩ = some r ∧
      st1.editors =
        (forEachDoAddSection
          (setLast st.sectionStack
            { sec := { last.sec with code := last.sec.code ++ r }, start := some start })
          st []).1.editors ∧
      st1.errors = st.errors := by
  unfold onEndStylesheet at h
  cases hll : lines.getLast? with
  | none => simp only [hll] at h; exact absurd h (by simp)
  | some lastLine =>
    cases hl : st.sectionStack.getLast? with
    | none => simp only [hll, hl] at h; exact absurd h (by simp)
    | some last =>
      cases hs : last.start with
      | none => simp only [hll, hl, hs] at h; exact absurd h (by simp)
      | some start =>
        cases hg : getRange lines start ⟨lines.length, lastLine.length + 1⟩ with
        | none => simp only [hll, hl, hs, hg] at h; exact absurd h (by simp)
        | some r =>
          refine ⟨lastLine, last, start, r, rfl, rfl, hs, hg, ?_⟩
          simp only [hll, hl, hs, hg] at h
          split at h
          · exact absurd h (by simp)
          · simp only [Option.some.injEq] at h
            subst h
            refine ⟨rfl, ?_⟩
            simp only
            rw [forEachDoAddSection_fst, foldl_doAddSection_errors]

theorem setLast_concat (l : List Frame) (a f : Frame) : setLast (l ++ [a]) f = l ++ [f] := by
  simp [setLast]

/-- C25 (amended): at end of stylesheet the frames are finalized outermost first. Let the
stack hold the root, the open sections `inner` and the innermost open section `top`, let
`r` be the text from the start of `top` to the end of the input, and let the handler
complete. Then no diagnostic is recorded, `r` has been appended to the code of `top`, and
the frames have been offered to `doAddSection` from the root up to `top`: the emitted
sections are those of the left fold of `doAddSection` over the stack, the sections added
by the handler are a subsequence, in that order, of the trimmed sections of the frames,
and when the root is blank and every open section has a condition and, unless a section
was accepted before, passes the first-section test, the sections added are exactly those
of the open sections from the outermost to the innermost. -/
theorem C25_end_of_stylesheet_finalizes_from_root_up (lines : List Str)
    (st st1 : ImportState) (root top : Frame) (inner : List Frame)
    (start : Pos) (lastLine r : Str)
    (hstack : st.sectionStack = root :: (inner ++ [top]))
    (hstart : top.start = some start) (hlast : lines.getLast? = some lastLine)
    (hrange : getRange lines start ⟨lines.length, lastLine.length + 1⟩ = some r)
    (hrun : onEndStylesheet lines st = some st1) :
    st1.errors = st.errors ∧
    st1.editors =
      ((root :: (inner ++ [top.withTail r])).foldl
        (fun s f => (doAddSection s f.sec).1) st).editors ∧
    (∃ l, l.Sublist ((root :: (inner ++ [top.withTail r])).map Frame.trimmed) ∧
      st1.editors = st.editors ++ l) ∧
    (trim root.sec.code = [] → root.sec.noConditions = true →
      (∀ f ∈ inner ++ [top.withTail r],
        f.sec.noConditions = false ∧
          (st.firstAddedCM.isSome = true ∨ initFirstSection f.trimmed = true)) →
      st1.editors = st.editors ++ (inner ++ [top.withTail r]).map Frame.trimmed) := by
  obtain ⟨lastLine1, last, start1, r1, hll, hl, hs, hg, hed, herr⟩ :=
    onEndStylesheet_inv lines st st1 hrun
  have hstack1 : st.sectionStack = (root :: inner) ++ [top] := by rw [hstack]; rfl
  have e1 : last = top := by
    rw [hstack1, List.getLast?_concat] at hl
    exact (Option.some.inj hl).symm
  subst e1
  have e2 : lastLine1 = lastLine := Option.some.inj (hll.symm.trans hlast)
  subst e2
  have e3 : start1 = start := Option.some.inj (hs.symm.trans hstart)
  subst e3
  have e4 : r1 = r := Option.some.inj (hg.symm.trans hrange)
  subst e4
  have e5 : ({ sec := { last.sec with code := last.sec.code ++ r1 }, start := some start1 } :
      Frame) = last.withTail r1 := by
    unfold Frame.withTail
    rw [hs]
  rw [e5, hstack1, setLast_concat, forEachDoAddSection_fst] at hed
  refine ⟨herr, hed, ?_, ?_⟩
  · obtain ⟨l, hl1, hl2⟩ :=
      foldl_doAddSection_sublist (root :: (inner ++ [last.withTail r1])) st
    exact ⟨l, hl1, hed.trans hl2⟩
  · intro hcode hcond hall
    rw [hed]
    show (List.foldl (fun s f => (doAddSection s f.sec).1) st
      (root :: (inner ++ [last.withTail r1]))).editors = _
    rw [List.foldl_cons, doAddSection_blank st root.sec hcode hcond]
    exact foldl_doAddSection_all_first _ st (fun f hf => ⟨Or.inr (hall f hf).1, (hall f hf).2⟩)

theorem C25_end_of_stylesheet_finalizes_from_root_up_witness :
    onEndStylesheet
      (split '\n' "/* c */\n@-moz-document domain(\"a.com\") \x7b\n@-moz-document domain(\"b.com\") \x7b\nx\x7b\x7d".toList)
      { sectionStack :=
          [{ sec := { code := [] }, start := some ⟨1, 1⟩ },
           { sec := { code := "/* c */\n".toList, domains := some ["a.com".toList] },
             start := some ⟨2, 33⟩ },
           { sec := { code := [], domains := some ["b.com".toList] }, start := some ⟨3, 33⟩ }],
        errors := [], firstAddedCM := none, editors := [], shown := none } =
      some
        { sectionStack :=
            [{ sec := { code := [] }, start := some ⟨1, 1⟩ },
             { sec := { code := "/* c */".toList, domains := some ["a.com".toList] },
               start := some ⟨2, 33⟩ },
             { sec := { code := "x\x7b\x7d".toList, domains := some ["b.com".toList] },
               start := some ⟨3, 33⟩ }],
          errors := [],
          firstAddedCM := some { code := "/* c */".toList, domains := some ["a.com".toList] },
          editors := [{ code := "/* c */".toList, domains := some ["a.com".toList] },
                      { code := "x\x7b\x7d".toList, domains := some ["b.com".toList] }],
          shown := some [] } ∧
    ([{ code := "/* c */".toList, domains := some ["a.com".toList] },
      { code := "x\x7b\x7d".toList, domains := some ["b.com".toList] }] : List Section) =
      [] ++ (([{ sec := { code := "/* c */\n".toList, domains := some ["a.com".toList] },
                 start := some ⟨2, 33⟩ }] : List Frame) ++
             [Frame.withTail
                { sec := { code := [], domains := some ["b.com".toList] },
                  start := some ⟨3, 33⟩ } "\nx\x7b\x7d".toList]).map Frame.trimmed :=
  ⟨by decide,
   (C25_end_of_stylesheet_finalizes_from_root_up
      (split '\n' "/* c */\n@-moz-document domain(\"a.com\") \x7b\n@-moz-document domain(\"b.com\") \x7b\nx\x7b\x7d".toList)
      { sectionStack :=
          [{ sec := { code := [] }, start := some ⟨1, 1⟩ },
           { sec := { code := "/* c */\n".toList, domains := some ["a.com".toList] },
             start := some ⟨2, 33⟩ },
           { sec := { code := [], domains := some ["b.com".toList] }, start := some ⟨3, 33⟩ }],
        errors := [], firstAddedCM := none, editors := [], shown := none }
      { sectionStack :=
          [{ sec := { code := [] }, start := some ⟨1, 1⟩ },
           { sec := { code := "/* c */".toList, domains := some ["a.com".toList] },
             start := some ⟨2, 33⟩ },
           { sec := { code := "x\x7b\x7d".toList, domains := some ["b.com".toList] },
             start := some ⟨3, 33⟩ }],
        errors := [],
        firstAddedCM := some { code := "/* c */".toList, domains := some ["a.com".toList] },
        editors := [{ code := "/* c */".toList, domains := some ["a.com".toList] },
                    { code := "x\x7b\x7d".toList, domains := some ["b.com".toList] }],
        shown := some [] }
      { sec := { code := [] }, start := some ⟨1, 1⟩ }
      { sec := { code := [], domains := some ["b.com".toList] }, start := some ⟨3, 33⟩ }
      [{ sec := { code := "/* c */\n".toList, domains := some ["a.com".toList] },
         start := some ⟨2, 33⟩ }]
      ⟨3, 33⟩ "x\x7b\x7d".toList "\nx\x7b\x7d".toList
      rfl rfl (by decide) (by decide) (by decide)).2.2.2 (by decide) (by decide) (by decide)⟩

/-- C25 (counterexample): on the text `/* c */`, `@-moz-document domain("a.com") {`,
`@-moz-document domain("b.com") {`, `x{}` — two nested constructs, neither closed, the
outer one carrying the leading comment — the outer section is emitted before the inner
one. -/
theorem C25_counterexample :
    (doImport "/* c */\n@-moz-document domain(\"a.com\") \x7b\n@-moz-document domain(\"b.com\") \x7b\nx\x7b\x7d".toList
        [.startdocument 2 1 ["domain(\"a.com\")".toList] ⟨[⟨.LBRACE, 2, 32, 2, 33⟩], 1⟩,
         .startdocument 3 1 ["domain(\"b.com\")".toList] ⟨[⟨.LBRACE, 3, 32, 3, 33⟩], 1⟩,
         .endstylesheet]).map (fun st => (st.editors, st.errors)) =
      some ([{ code := "/* c */".toList, domains := some ["a.com".toList] },
             { code := "x\x7b\x7d".toList, domains := some ["b.com".toList] }], []) := by
  decide

/-! ## The section stack -/

theorem StackOk.ne_nil {stack : List Frame} {d : Nat} (h : StackOk stack d) : stack ≠ [] := by
  obtain ⟨_, root, rest, rfl, _⟩ := h
  exact List.cons_ne_nil _ _

/-- Replacing the top frame by one with the same conditions keeps the invariant. -/
theorem StackOk.setLast {stack : List Frame} {d : Nat} (h : StackOk stack d) (last f : Frame)
    (hlast : stack.getLast? = some last) (hf : f.sec.noConditions = last.sec.noConditions) :
    StackOk (setLast stack f) d := by
  obtain ⟨hlen, root, rest, rfl, hroot⟩ := h
  refine ⟨by rw [length_setLast _ _ (List.cons_ne_nil _ _)]; exact hlen, ?_⟩
  cases rest with
  | nil =>
    simp only [List.getLast?_singleton, Option.some.injEq] at hlast
    subst hlast
    exact ⟨f, [], rfl, by rw [hf]; exact hroot⟩
  | cons g gs =>
    exact ⟨root, (g :: gs).dropLast ++ [f], by simp [Stylus.setLast, List.dropLast], hroot⟩

theorem StackOk.push {stack : List Frame} {d : Nat} (h : StackOk stack d) (f : Frame) :
    StackOk (stack ++ [f]) (d + 1) := by
  obtain ⟨hlen, root, rest, rfl, hroot⟩ := h
  exact ⟨by simp at hlen ⊢; omega, root, rest ++ [f], rfl, hroot⟩

theorem StackOk.pop {stack : List Frame} {d : Nat} (h : StackOk stack (d + 1)) :
    StackOk stack.dropLast d := by
  obtain ⟨hlen, root, rest, rfl, hroot⟩ := h
  cases rest with
  | nil => simp at hlen
  | cons g gs =>
    exact ⟨by simp at hlen ⊢; omega, root, (g :: gs).dropLast, by simp [List.dropLast], hroot⟩

theorem StackOk.map_trimmed {stack : List Frame} {d : Nat} (h : StackOk stack d) :
    StackOk (stack.map (fun f => { f with sec := f.trimmed })) d := by
  obtain ⟨hlen, root, rest, rfl, hroot⟩ := h
  exact ⟨by simpa using hlen, _, _, List.map_cons _ _ _, hroot⟩

/-- With a construct open, the pop of the end handler leaves the root in place and the
new top of the stack exists. -/
theorem StackOk.pop_defined {stack : List Frame} {d : Nat} (h : StackOk stack (d + 1)) :
    ∃ frame last, stack.getLast? = some frame ∧ stack.dropLast.getLast? = some last ∧
      stack.dropLast ≠ [] ∧ stack.dropLast.head? = stack.head? := by
  obtain ⟨hlen, root, rest, rfl, hroot⟩ := h
  cases rest with
  | nil => simp at hlen
  | cons g gs =>
    have h1 : (root :: g :: gs).dropLast = root :: (g :: gs).dropLast := by simp [List.dropLast]
    refine ⟨(root :: g :: gs).getLast (List.cons_ne_nil _ _),
      (root :: (g :: gs).dropLast).getLast (List.cons_ne_nil _ _),
      List.getLast?_eq_getLast _ _, ?_, ?_, ?_⟩
    · rw [h1]; exact List.getLast?_eq_getLast _ _
    · rw [h1]; exact List.cons_ne_nil _ _
    · rw [h1]; rfl

theorem flushOuterText_stackOk (st : ImportState) (last : Frame) (text : Str) (d : Nat)
    (h : StackOk st.sectionStack d) (hlast : st.sectionStack.getLast? = some last) :
    StackOk (flushOuterText st last text).sectionStack d := by
  unfold flushOuterText
  split
  · obtain ⟨_, h2, _⟩ := doAddSection_frame st { last.sec with code := text }
    simp only
    rw [h2]
    exact h.setLast last _ hlast rfl
  · exact h

theorem onStartDocument_stackOk (lines : List Str) (st st1 : ImportState) (line col : Int)
    (functions : List Str) (parser : TokenStream) (d : Nat)
    (h : StackOk st.sectionStack d)
    (hr : onStartDocument lines st line col functions parser = some st1) :
    StackOk st1.sectionStack (d + 1) := by
  have hs : (onStartDocument lines st line col functions parser).isSome = true := by
    rw [hr]; rfl
  obtain ⟨last, lastStart, outerText, lbraceEnd, h1, h2, h3, h4⟩ :=
    (onStartDocument_some lines st line col functions parser).1 hs
  rw [onStartDocument_eq lines st line col functions parser last lastStart outerText lbraceEnd
    h1 h2 h3 h4] at hr
  simp only [Option.some.injEq] at hr
  subst hr
  exact (flushOuterText_stackOk st last _ d h h1).push _

theorem onEndDocument_stackOk (lines : List Str) (st st1 : ImportState)
    (parser : TokenStream) (d : Nat) (h : StackOk st.sectionStack (d + 1))
    (hr : onEndDocument lines st parser = some st1) :
    StackOk st1.sectionStack d := by
  unfold onEndDocument at hr
  cases hb : backtrackTo parser .RBRACE .start with
  | none => rw [hb] at hr; exact absurd hr (by simp)
  | some stop? =>
    cases hl : st.sectionStack.getLast? with
    | none => rw [hb, hl] at hr; exact absurd hr (by simp)
    | some frame =>
      cases hs : frame.start with
      | none => simp only [hb, hl, hs] at hr; exact absurd hr (by simp)
      | some start =>
        cases stop? with
        | none => simp only [hb, hl, hs] at hr; exact absurd hr (by simp)
        | some stop =>
          cases hg : getRange lines start stop with
          | none => simp only [hb, hl, hs, hg] at hr; exact absurd hr (by simp)
          | some r =>
            cases hl2 : st.sectionStack.dropLast.getLast? with
            | none => simp only [hb, hl, hs, hg, hl2] at hr; exact absurd hr (by simp)
            | some last =>
              simp only [hb, hl, hs, hg, hl2, Option.some.injEq] at hr
              subst hr
              rw [(doAddSection_frame _ _).2.1]
              exact h.pop.setLast last _ hl2 rfl

theorem onEndStylesheet_stackOk (lines : List Str) (st st1 : ImportState) (d : Nat)
    (h : StackOk st.sectionStack d) (hr : onEndStylesheet lines st = some st1) :
    StackOk st1.sectionStack d := by
  unfold onEndStylesheet at hr
  cases hll : lines.getLast? with
  | none => simp only [hll] at hr; exact absurd hr (by simp)
  | some lastLine =>
    cases hl : st.sectionStack.getLast? with
    | none => simp only [hll, hl] at hr; exact absurd hr (by simp)
    | some last =>
      cases hs : last.start with
      | none => simp only [hll, hl, hs] at hr; exact absurd hr (by simp)
      | some start =>
        cases hg : getRange lines start ⟨lines.length, lastLine.length + 1⟩ with
        | none => simp only [hll, hl, hs, hg] at hr; exact absurd hr (by simp)
        | some r =>
          simp only [hll, hl, hs, hg] at hr
          split at hr
          · exact absurd hr (by simp)
          · simp only [Option.some.injEq] at hr
            subst hr
            simp only
            rw [forEachDoAddSection_snd, List.nil_append]
            exact StackOk.map_trimmed (StackOk.setLast h last
              { sec := { last.sec with code := last.sec.code ++ r }, start := some start } hl rfl)

theorem handle_stackOk (lines : List Str) (st st1 : ImportState) (e : Event) (es : List Event)
    (d d1 : Nat) (h : StackOk st.sectionStack d) (hn : openAfter (e :: es) d = some d1)
    (hr : handle lines st e = some st1) :
    ∃ d2, StackOk st1.sectionStack d2 ∧ openAfter es d2 = some d1 := by
  cases e with
  | startdocument line col functions parser =>
    exact ⟨d + 1, onStartDocument_stackOk lines st st1 line col functions parser d h hr, hn⟩
  | enddocument parser =>
    cases d with
    | zero => simp [openAfter] at hn
    | succ d => exact ⟨d, onEndDocument_stackOk lines st st1 parser d h hr, hn⟩
  | endstylesheet => exact ⟨d, onEndStylesheet_stackOk lines st st1 d h hr, hn⟩
  | error line col message =>
    simp only [handle, Option.some.injEq] at hr
    subst hr
    exact ⟨d, h, hn⟩

theorem openAfter_append : ∀ (pre post : List Event) (d : Nat),
    openAfter (pre ++ post) d = (openAfter pre d).bind (openAfter post) := by
  intro pre
  induction pre with
  | nil => intro post d; rfl
  | cons e es ih =>
    intro post d
    cases e with
    | startdocument line col functions parser => exact ih post (d + 1)
    | enddocument parser =>
      cases d with
      | zero => rfl
      | succ d => exact ih post d
    | endstylesheet => exact ih post d
    | error line col message => exact ih post d

theorem runEvents_stackOk (lines : List Str) : ∀ (events : List Event) (st st1 : ImportState)
    (d d1 : Nat), StackOk st.sectionStack d → openAfter events d = some d1 →
    runEvents lines events st = some st1 → StackOk st1.sectionStack d1 := by
  intro events
  induction events with
  | nil =>
    intro st st1 d d1 h hn hr
    simp only [runEvents, Option.some.injEq] at hr
    simp only [openAfter, Option.some.injEq] at hn
    subst hr; subst hn
    exact h
  | cons e es ih =>
    intro st st1 d d1 h hn hr
    rw [runEvents] at hr
    cases hh : handle lines st e with
    | none => rw [hh] at hr; exact absurd hr (by simp)
    | some st2 =>
      rw [hh] at hr
      obtain ⟨d2, h2, hn2⟩ := handle_stackOk lines st st2 e es d d1 h hn hh
      exact ih st2 st1 d2 d1 h2 hn2 hr

theorem initialState_stackOk : StackOk initialState.sectionStack 0 :=
  ⟨rfl, _, _, rfl, rfl⟩

/-- C28: the section stack invariant. Let a sequence of events in which every construct
end has a construct still open be cut anywhere into the events already handled and the
events to come, and let the handlers have run on the former from the initial state. Then
the number `d1` of constructs open at that point is defined, the stack has depth
`d1 + 1` (so it is not empty), and its bottom frame carries none of the four condition
sequences; and when the next event is a construct end, the stack has a top frame to pop,
the pop leaves a non-empty stack with the same bottom frame, and the new top exists. -/
theorem C28_section_stack_invariant (lines : List Str) (pre post : List Event)
    (st1 : ImportState) (hnest : (openAfter (pre ++ post) 0).isSome = true)
    (hrun : runEvents lines pre initialState = some st1) :
    ∃ d1, openAfter pre 0 = some d1 ∧
      st1.sectionStack.length = d1 + 1 ∧
      (∃ root rest, st1.sectionStack = root :: rest ∧ root.sec.noConditions = true) ∧
      (∀ parser post1, post = .enddocument parser :: post1 →
        ∃ frame last, st1.sectionStack.getLast? = some frame ∧
          st1.sectionStack.dropLast.getLast? = some last ∧
          st1.sectionStack.dropLast ≠ [] ∧
          st1.sectionStack.dropLast.head? = st1.sectionStack.head?) := by
  rw [openAfter_append] at hnest
  cases hd : openAfter pre 0 with
  | none => rw [hd] at hnest; exact absurd hnest (by simp)
  | some d1 =>
    rw [hd, Option.some_bind] at hnest
    have hok := runEvents_stackOk lines pre initialState st1 0 d1 initialState_stackOk hd hrun
    refine ⟨d1, rfl, hok.1, hok.2, ?_⟩
    intro parser post1 hpost
    subst hpost
    cases d1 with
    | zero => simp [openAfter] at hnest
    | succ d => exact hok.pop_defined

theorem C28_section_stack_invariant_witness :
    ∃ d1, openAfter
        [.startdocument 1 1 ["domain(\"x.com\")".toList] ⟨[⟨.LBRACE, 1, 32, 1, 33⟩], 1⟩] 0 =
          some d1 ∧
      ([{ sec := { code := [] }, start := some ⟨1, 1⟩ },
        { sec := { code := [], domains := some ["x.com".toList] }, start := some ⟨1, 33⟩ }] :
          List Frame).length = d1 + 1 ∧
      (∃ root rest,
        ([{ sec := { code := [] }, start := some ⟨1, 1⟩ },
          { sec := { code := [], domains := some ["x.com".toList] }, start := some ⟨1, 33⟩ }] :
            List Frame) = root :: rest ∧ root.sec.noConditions = true) ∧
      (∀ parser post1,
        [Event.enddocument ⟨[⟨.RBRACE, 3, 1, 3, 2⟩], 1⟩, .endstylesheet] =
          .enddocument parser :: post1 →
        ∃ frame last,
          ([{ sec := { code := [] }, start := some ⟨1, 1⟩ },
            { sec := { code := [], domains := some ["x.com".toList] }, start := some ⟨1, 33⟩ }] :
              List Frame).getLast? = some frame ∧
          ([{ sec := { code := [] }, start := some ⟨1, 1⟩ },
            { sec := { code := [], domains := some ["x.com".toList] }, start := some ⟨1, 33⟩ }] :
              List Frame).dropLast.getLast? = some last ∧
          ([{ sec := { code := [] }, start := some ⟨1, 1⟩ },
            { sec := { code := [], domains := some ["x.com".toList] }, start := some ⟨1, 33⟩ }] :
              List Frame).dropLast ≠ [] ∧
          ([{ sec := { code := [] }, start := some ⟨1, 1⟩ },
            { sec := { code := [], domains := some ["x.com".toList] }, start := some ⟨1, 33⟩ }] :
              List Frame).dropLast.head? =
          ([{ sec := { code := [] }, start := some ⟨1, 1⟩ },
            { sec := { code := [], domains := some ["x.com".toList] }, start := some ⟨1, 33⟩ }] :
              List Frame).head?) :=
  C28_section_stack_invariant
    (split '\n' "@-moz-document domain(\"x.com\") \x7b\na\x7b\x7d\n\x7d".toList)
    [.startdocument 1 1 ["domain(\"x.com\")".toList] ⟨[⟨.LBRACE, 1, 32, 1, 33⟩], 1⟩]
    [.enddocument ⟨[⟨.RBRACE, 3, 1, 3, 2⟩], 1⟩, .endstylesheet]
    { sectionStack :=
        [{ sec := { code := [] }, start := some ⟨1, 1⟩ },
         { sec := { code := [], domains := some ["x.com".toList] }, start := some ⟨1, 33⟩ }],
      errors := [], firstAddedCM := none, editors := [], shown := none }
    (by decide) (by decide)

/-! ## Rotation of an array -/

theorem rotate_neg_natCast {α : Type} (a : List α) (k : Nat) (hk : k ≤ a.length) :
    rotate a (-(k : Int)) = a.drop k ++ a.take k := by
  have h1 : slice a (- -(k : Int)) (a.length : Int) = a.drop k := by
    rw [neg_neg, slice_nat a k a.length (le_refl _)]
    apply List.take_of_length_le
    simp
  have h2 : (a.length : Int) - ((a.drop k).length : Int) = (k : Int) := by
    rw [List.length_drop]
    omega
  have h3 : slice a 0 (k : Int) = a.take k := by
    have := slice_nat a 0 k hk
    simpa using this
  unfold rotate
  simp only [h1, h2, h3]

/-- C26: for `0 ≤ k ≤ n` the call `a.rotate(-k)` is `a` rotated left by `k`: the elements
from index `k` on followed by the first `k` elements (the list rotation of the library);
the result has the length of `a`; `rotate(0)` is the identity; and rotating by minus the
index of an element of `a` puts that element first. The result is built in a fresh
array and the receiver is only read, which the functional model has by construction. -/
theorem C26_rotate_left {α : Type} [DecidableEq α] (a : List α) (k : Nat)
    (hk : k ≤ a.length) :
    rotate a (-(k : Int)) = a.drop k ++ a.take k ∧
    rotate a (-(k : Int)) = a.rotate k ∧
    (rotate a (-(k : Int))).length = a.length ∧
    rotate a 0 = a ∧
    (∀ x ∈ a, (rotate a (-((a.indexOf x : Nat) : Int))).head? = some x) := by
  have h0 : rotate a 0 = a := by
    have := rotate_neg_natCast a 0 (Nat.zero_le _)
    simpa using this
  refine ⟨rotate_neg_natCast a k hk, ?_, ?_, h0, ?_⟩
  · rw [rotate_neg_natCast a k hk, List.rotate_eq_drop_append_take hk]
  · rw [rotate_neg_natCast a k hk, List.length_append, List.length_drop, List.length_take]
    omega
  · intro x hx
    have hlt : a.indexOf x < a.length := List.indexOf_lt_length.2 hx
    rw [rotate_neg_natCast a _ (Nat.le_of_lt hlt)]
    have hd : a.drop (a.indexOf x) = a[a.indexOf x] :: a.drop (a.indexOf x + 1) :=
      List.drop_eq_getElem_cons hlt
    rw [hd, List.cons_append, List.head?_cons, List.getElem_indexOf]

theorem C26_rotate_left_witness :
    rotate [10, 20, 30, 40] (-2) = [30, 40, 10, 20] ∧
    (rotate [10, 20, 30, 40] (-2)).length = 4 ∧
    rotate [10, 20, 30, 40] 0 = [10, 20, 30, 40] ∧
    (rotate [10, 20, 30, 40] (-((List.indexOf 30 [10, 20, 30, 40] : Nat) : Int))).head? =
      some 30 :=
  ⟨(C26_rotate_left [10, 20, 30, 40] 2 (by decide)).1,
   (C26_rotate_left [10, 20, 30, 40] 2 (by decide)).2.2.1,
   (C26_rotate_left [10, 20, 30, 40] 2 (by decide)).2.2.2.1,
   (C26_rotate_left [10, 20, 30, 40] 2 (by decide)).2.2.2.2 30 (by decide)⟩

/-! ## The sections of the editor page -/

theorem Section.allKeys_set (m : Section) (i : Property) (v : List Str) (h : m.allKeys) :
    (m.set i v).allKeys := by
  obtain ⟨h1, h2, h3, h4⟩ := h
  cases i <;> exact ⟨by first | rfl | exact h1, by first | rfl | exact h2,
    by first | rfl | exact h3, by first | rfl | exact h4⟩

theorem objectKeysLength_of_allKeys (m : Section) (h : m.allKeys) : objectKeysLength m = 4 := by
  obtain ⟨h1, h2, h3, h4⟩ := h
  simp [objectKeysLength, propertyToCss, Section.get, h1, h2, h3, h4]

theorem foldl_getMetaStep_none (l : List AppliesTo) : l.foldl getMetaStep none = none := by
  induction l with
  | nil => rfl
  | cons li l ih => exact ih

theorem getMetaStep_some (m : Section) (li : AppliesTo) :
    getMetaStep (some m) li =
      if li.everything then some m
      else if truthy li.type && truthy li.value then
        match CssToProperty.lookup li.type with
        | none => none
        | some property => some (m.set property ((m.get property).getD [] ++ [li.value]))
      else some m := rfl

theorem foldl_getMetaStep_inv : ∀ (l : List AppliesTo) (m0 m : Section),
    l.foldl getMetaStep (some m0) = some m → m0.allKeys → m.allKeys ∧ m.code = m0.code := by
  intro l
  induction l with
  | nil =>
    intro m0 m h hk
    simp only [List.foldl_nil, Option.some.injEq] at h
    subst h
    exact ⟨hk, rfl⟩
  | cons li l ih =>
    intro m0 m h hk
    rw [List.foldl_cons, getMetaStep_some] at h
    split at h
    · exact ih m0 m h hk
    · split at h
      · split at h
        · rw [foldl_getMetaStep_none] at h
          exact absurd h (by simp)
        · obtain ⟨r1, r2⟩ := ih _ m h (Section.allKeys_set m0 _ _ hk)
          exact ⟨r1, r2.trans (Section.code_set _ _ _)⟩
      · exact ih m0 m h hk

theorem getMeta_inv (e : EditorSection) (m : Section) (h : getMeta e = some m) :
    m.allKeys ∧ m.code = [] :=
  foldl_getMetaStep_inv e.appliesTo _ m h ⟨rfl, rfl, rfl, rfl⟩

theorem foldl_getMetaStep_some : ∀ (l : List AppliesTo) (m0 : Section),
    (∀ li ∈ l, li.everything = false → truthy li.type = true → truthy li.value = true →
      (CssToProperty.lookup li.type).isSome = true) →
    ∃ m, l.foldl getMetaStep (some m0) = some m := by
  intro l
  induction l with
  | nil => intro m0 _; exact ⟨m0, rfl⟩
  | cons li l ih =>
    intro m0 hv
    have hl := fun x hx => hv x (List.mem_cons_of_mem _ hx)
    rw [List.foldl_cons, getMetaStep_some]
    split
    · exact ih m0 hl
    · rename_i hev
      split
      · rename_i htv
        simp only [Bool.and_eq_true] at htv
        have := hv li (List.mem_cons_self _ _) (by simpa using hev) htv.1 htv.2
        cases hlook : CssToProperty.lookup li.type with
        | none => rw [hlook] at this; exact absurd this (by simp)
        | some p => exact ih _ hl
      · exact ih m0 hl

theorem foldl_getMetaStep_everything : ∀ (l : List AppliesTo) (m0 : Section),
    (∀ li ∈ l, li.everything = true) → l.foldl getMetaStep (some m0) = some m0 := by
  intro l
  induction l with
  | nil => intro m0 _; rfl
  | cons li l ih =>
    intro m0 hv
    rw [List.foldl_cons]
    have h1 : getMetaStep (some m0) li = some m0 := by
      rw [getMetaStep_some, hv li (List.mem_cons_self _ _), if_pos rfl]
    rw [h1]
    exact ih m0 (fun x hx => hv x (List.mem_cons_of_mem _ hx))

theorem getSectionsHashesLoop_step (div : EditorSection) (divs : List EditorSection)
    (acc : List Section) (m : Section) (h : getMeta div = some m) :
    getSectionsHashesLoop (div :: divs) acc =
      getSectionsHashesLoop divs (acc ++ [{ m with code := div.code }]) := by
  have hk := objectKeysLength_of_allKeys m (getMeta_inv div m h).1
  rw [getSectionsHashesLoop, h]
  simp only [hk]
  have : (test reBlank div.code && (4 == 0)) = false := by
    rw [show ((4 : Nat) == 0) = false from rfl, Bool.and_false]
  rw [this]
  rfl

theorem getSectionsHashesLoop_spec : ∀ (divs : List EditorSection) (acc sections : List Section),
    getSectionsHashesLoop divs acc = some sections →
    ∃ l, sections = acc ++ l ∧ List.Forall₂ IsEntryOf divs l := by
  intro divs
  induction divs with
  | nil =>
    intro acc sections h
    simp only [getSectionsHashesLoop, Option.some.injEq] at h
    exact ⟨[], by simp [h], List.Forall₂.nil⟩
  | cons div divs ih =>
    intro acc sections h
    cases hm : getMeta div with
    | none => rw [getSectionsHashesLoop, hm] at h; exact absurd h (by simp)
    | some m =>
      rw [getSectionsHashesLoop_step div divs acc m hm] at h
      obtain ⟨l, hl, hf⟩ := ih _ sections h
      refine ⟨{ m with code := div.code } :: l, by rw [hl]; simp, List.Forall₂.cons ⟨rfl, ?_⟩ hf⟩
      rw [hm]
      have := (getMeta_inv div m hm).2
      cases m
      simp only at this
      subst this
      rfl

theorem getSectionsHashesLoop_some : ∀ (divs : List EditorSection) (acc : List Section),
    (∀ div ∈ divs, ∃ m, getMeta div = some m) →
    ∃ sections, getSectionsHashesLoop divs acc = some sections := by
  intro divs
  induction divs with
  | nil => intro acc _; exact ⟨acc, rfl⟩
  | cons div divs ih =>
    intro acc hv
    obtain ⟨m, hm⟩ := hv div (List.mem_cons_self _ _)
    rw [getSectionsHashesLoop_step div divs acc m hm]
    exact ih _ (fun d hd => hv d (List.mem_cons_of_mem _ hd))

/-- C29: `getSectionsHashes` never skips a section. Every record returned by `getMeta`
has the four condition keys, so `Object.keys(meta).length` is 4 and the skipping test
fails; when the function returns, its result has one entry per section of the page, in
order, each carrying the section's code and the record of `getMeta`; it returns whenever
every filled applies-to item has a type known to `CssToProperty`; and a section whose
applies-to list holds only the placeholder gets four empty condition arrays and is
encoded as its code alone, the empty text when the code is empty. -/
theorem C29_getSectionsHashes_never_skips (divs : List EditorSection) :
    (∀ div m, getMeta div = some m → objectKeysLength m = 4) ∧
    (∀ sections, getSectionsHashes divs = some sections →
      sections.length = divs.length ∧ List.Forall₂ IsEntryOf divs sections ∧
      sections.map (fun s => s.code) = divs.map (fun d => d.code)) ∧
    ((∀ div ∈ divs, ∀ li ∈ div.appliesTo, li.everything = false → truthy li.type = true →
        truthy li.value = true → (CssToProperty.lookup li.type).isSome = true) →
      ∃ sections, getSectionsHashes divs = some sections) ∧
    (∀ div, (∀ li ∈ div.appliesTo, li.everything = true) →
      getMeta div = some { code := [], urls := some [], urlPrefixes := some [],
                           domains := some [], regexps := some [] } ∧
      sectionToMozillaFormat { code := div.code, urls := some [], urlPrefixes := some [],
                               domains := some [], regexps := some [] } = div.code) := by
  refine ⟨?_, ?_, ?_, ?_⟩
  · intro div m h
    exact objectKeysLength_of_allKeys m (getMeta_inv div m h).1
  · intro sections h
    obtain ⟨l, hl, hf⟩ := getSectionsHashesLoop_spec divs [] sections h
    rw [List.nil_append] at hl
    subst hl
    refine ⟨hf.length_eq.symm, hf, ?_⟩
    clear h
    induction hf with
    | nil => rfl
    | cons h1 _ ih => simp only [List.map_cons, h1.1, ih]
  · intro hv
    apply getSectionsHashesLoop_some
    intro div hdiv
    exact foldl_getMetaStep_some div.appliesTo _ (hv div hdiv)
  · intro div hall
    exact ⟨foldl_getMetaStep_everything div.appliesTo _ hall, rfl⟩

theorem C29_getSectionsHashes_never_skips_witness :
    getSectionsHashes
        [{ appliesTo := [{ everything := false, type := "domain".toList,
                           value := "x.com".toList }],
           code := "a\x7b\x7d".toList },
         { appliesTo := [{ everything := true, type := [], value := [] }], code := [] },
         { appliesTo := [{ everything := true, type := [], value := [] }],
           code := "b\x7b\x7d".toList }] =
      some [{ code := "a\x7b\x7d".toList, urls := some [], urlPrefixes := some [],
              domains := some ["x.com".toList], regexps := some [] },
            { code := [], urls := some [], urlPrefixes := some [], domains := some [],
              regexps := some [] },
            { code := "b\x7b\x7d".toList, urls := some [], urlPrefixes := some [],
              domains := some [], regexps := some [] }] ∧
    ([{ code := "a\x7b\x7d".toList, urls := some [], urlPrefixes := some [],
        domains := some ["x.com".toList], regexps := some [] },
      { code := [], urls := some [], urlPrefixes := some [], domains := some [],
        regexps := some [] },
      { code := "b\x7b\x7d".toList, urls := some [], urlPrefixes := some [],
        domains := some [], regexps := some [] }] : List Section).length = 3 ∧
    toMozillaFormat
      [{ code := "a\x7b\x7d".toList, urls := some [], urlPrefixes := some [],
         domains := some ["x.com".toList], regexps := some [] },
       { code := [], urls := some [], urlPrefixes := some [], domains := some [],
         regexps := some [] },
       { code := "b\x7b\x7d".toList, urls := some [], urlPrefixes := some [],
         domains := some [], regexps := some [] }] =
      "@-moz-document domain(\"x.com\") \x7b\na\x7b\x7d\n\x7d\n\n\n\nb\x7b\x7d".toList :=
  ⟨by decide,
   ((C29_getSectionsHashes_never_skips
      [{ appliesTo := [{ everything := false, type := "domain".toList,
                         value := "x.com".toList }],
         code := "a\x7b\x7d".toList },
       { appliesTo := [{ everything := true, type := [], value := [] }], code := [] },
       { appliesTo := [{ everything := true, type := [], value := [] }],
         code := "b\x7b\x7d".toList }]).2.1 _ (by decide)).1,
   by decide⟩

/-! ## Calls with an empty or unclosed quoted argument -/

/-- One turn of the function loop on a text that the call pattern matches with a valid
kind in group 1: the (unescaped, for `regexp`) group 3 is appended. -/
theorem processFunction_of_exec (line ecol : Int) (errors : List Str) (sec : Section)
    (f k e v : Str) (p : Property)
    (hm : (if truthy f then exec reCall f else none).map
        (fun m => ((m.group 1).getD [], (m.group 3).getD [])) = some (k, e))
    (htest : test reCssKeyword k = true) (hlook : CssToProperty.lookup k = some p)
    (hv : (if p ≠ .regexps then e else replaceAll reDoubleBackslash "\\".toList e) = v) :
    processFunction line ecol (errors, sec) f =
      (errors, sec.set p ((sec.get p).getD [] ++ [v])) := by
  cases hx : (if truthy f then exec reCall f else none) with
  | none => rw [hx] at hm; exact absurd hm (by simp)
  | some m =>
    rw [hx] at hm
    simp only [Option.map_some', Option.some.injEq, Prod.mk.injEq] at hm
    obtain ⟨h1, h3⟩ := hm
    subst hv
    unfold processFunction
    simp only [hx, h1, h3, htest, hlook, Bool.not_true, Bool.false_eq_true, if_false]

/-- C30: for each of the four kinds `k`, the text `k("")` — which is what encode emits for
an empty value — is accepted by the function loop without diagnostic, and the value it
appends to the sequence of that kind is the one-character string `"`; the text `k("abc)`,
whose closing quote is missing, is accepted with the value `abc`. -/
theorem C30_empty_quoted_argument (ic : Property × Str) (hic : ic ∈ propertyToCss)
    (line ecol : Int) (errors : List Str) (sec : Section) :
    cssMd ic.2 [] = ic.2 ++ "(\"\")".toList ∧
    processFunction line ecol (errors, sec) (ic.2 ++ "(\"\")".toList) =
      (errors, sec.set ic.1 ((sec.get ic.1).getD [] ++ ["\"".toList])) ∧
    processFunction line ecol (errors, sec) (ic.2 ++ "(\"abc)".toList) =
      (errors, sec.set ic.1 ((sec.get ic.1).getD [] ++ ["abc".toList])) := by
  simp only [propertyToCss, List.mem_cons, List.mem_singleton, List.not_mem_nil, or_false] at hic
  rcases hic with rfl | rfl | rfl | rfl
  · exact ⟨by decide,
      processFunction_of_exec line ecol errors sec _ "url".toList "\"".toList _ .urls
        (by decide) (by decide) (by decide) (by decide),
      processFunction_of_exec line ecol errors sec _ "url".toList "abc".toList _ .urls
        (by decide) (by decide) (by decide) (by decide)⟩
  · exact ⟨by decide,
      processFunction_of_exec line ecol errors sec _ "url-prefix".toList "\"".toList _
        .urlPrefixes (by decide) (by decide) (by decide) (by decide),
      processFunction_of_exec line ecol errors sec _ "url-prefix".toList "abc".toList _
        .urlPrefixes (by decide) (by decide) (by decide) (by decide)⟩
  · exact ⟨by decide,
      processFunction_of_exec line ecol errors sec _ "domain".toList "\"".toList _ .domains
        (by decide) (by decide) (by decide) (by decide),
      processFunction_of_exec line ecol errors sec _ "domain".toList "abc".toList _ .domains
        (by decide) (by decide) (by decide) (by decide)⟩
  · exact ⟨by decide,
      processFunction_of_exec line ecol errors sec _ "regexp".toList "\"".toList _ .regexps
        (by decide) (by decide) (by decide) (by decide),
      processFunction_of_exec line ecol errors sec _ "regexp".toList "abc".toList _ .regexps
        (by decide) (by decide) (by decide) (by decide)⟩

theorem C30_empty_quoted_argument_witness :
    (Property.domains, "domain".toList) ∈ propertyToCss ∧
    cssMd "domain".toList [] = "domain(\"\")".toList ∧
    processFunction 1 0 ([], { code := [] }) "domain(\"\")".toList =
      ([], { code := [], domains := some ["\"".toList] }) ∧
    processFunction 1 0 ([], { code := [] }) "domain(\"abc)".toList =
      ([], { code := [], domains := some ["abc".toList] }) :=
  ⟨by decide,
   C30_empty_quoted_argument (Property.domains, "domain".toList) (by decide) 1 0 []
     { code := [] }⟩

end Stylus
